import Mathlib

/-!
Verification of the catalog reconciliation pipeline of the warehouse
management repository (`backend/excel_parser.py`, `backend/main.py`,
`backend/seasonal_drop.py`, `database.py`).

The Python code is shallowly embedded: the persistent store (tables
`items`, `style_summary`, `file_uploads`) becomes a `Catalog` structure of
lists, spreadsheet rows become `XRow`, and each catalog-mutating endpoint
becomes a pure function on `Catalog`.  Timestamps (`created_at`,
`updated_at`) and the per-file statistics columns of `file_uploads` are
not modelled; no claim below is about them.  Pandas `NaN` cells are
modelled as the strings they are turned into by `str(...)` in the code
(`"nan"`), and the `N/A` backfill of missing optional columns is assumed
to have been applied to every `XRow`.
-/

/-- Leading run of ASCII digits of a string (the group captured by the
Python regex `^(\d+)`, which fails when the first character is not a
digit). -/
def leadingDigits (s : String) : String :=
  String.mk (s.data.takeWhile Char.isDigit)

/-- `InventoryParser._extract_base_style`: the leading digit run of the
raw style token, or the token itself verbatim when the token does not
start with a digit. -/
def extractBaseStyle (s : String) : String :=
  if leadingDigits s = "" then s else leadingDigits s

/-- Python `str.lower`, character by character (the style tokens the code
lower-cases are ASCII). -/
def lowerStr (s : String) : String :=
  String.mk (s.data.map Char.toLower)

/-- Python `str.endswith`, on the character lists. -/
def endsWithStr (s suf : String) : Bool :=
  List.isPrefixOf suf.data.reverse s.data.reverse

/-- Python `str.strip`: drop whitespace from both ends. -/
def stripStr (s : String) : String :=
  String.mk (((s.data.dropWhile Char.isWhitespace).reverse.dropWhile
    Char.isWhitespace).reverse)

/-- `InventoryParser._extract_variant`: `"ww"` when the lower-cased token
ends in `ww`, else `"w"` when it ends in `w`, else the empty string. -/
def extractVariant (s : String) : String :=
  let ls := lowerStr s
  if endsWithStr ls "ww" then "ww"
  else if endsWithStr ls "w" then "w"
  else ""

/-- Python `str.zfill`: left-pad with `'0'` to the target width, keeping a
leading sign character in front of the padding. -/
def zfill (s : String) (w : Nat) : String :=
  if w ≤ s.length then s
  else
    let pad := List.replicate (w - s.length) '0'
    match s.data with
    | [] => String.mk pad
    | c :: rest =>
      if c = '-' ∨ c = '+' then String.mk (c :: (pad ++ rest))
      else String.mk (pad ++ s.data)

/-- One normalized spreadsheet row, after the column name cleanup and the
`N/A` backfill of `_process_styles`.  `image` is the value of the
`image`/`image_url` column when present and non-null. -/
structure XRow where
  style : String
  color : String
  division : String
  outsole : String
  gender : String
  image : Option String
deriving DecidableEq

/-- Canonical color of a row: `"{color} ({variant})"` when the style token
carries a width suffix, else the bare color. -/
def rowColor (r : XRow) : String :=
  let v := extractVariant r.style
  if v = "" then r.color else r.color ++ " (" ++ v ++ ")"

/-- Keep the first occurrence of each key, dropping later duplicates
(Python `dict.fromkeys` / a `processed_colors` set guard), starting from
an initial set of already-seen keys. -/
def firstByKey {α β : Type} [DecidableEq β] (key : α → β) : List β → List α → List α
  | _, [] => []
  | seen, a :: l =>
    if key a ∈ seen then firstByKey key seen l
    else a :: firstByKey key (key a :: seen) l

/-- First-occurrence deduplication of a list (Python
`list(dict.fromkeys(...))`). -/
def dedupFirst {α : Type} [DecidableEq α] (l : List α) : List α :=
  firstByKey id [] l

/-- Lexicographic-by-code-point comparison of character lists (Python's
string `<=`), written structurally so that it evaluates inside the
kernel. -/
def charListLe : List Char → List Char → Bool
  | [], _ => true
  | _ :: _, [] => false
  | a :: as, b :: bs =>
    if a < b then true
    else if b < a then false
    else charListLe as bs

/-- Python's string order. -/
def strLe (a b : String) : Prop := charListLe a.data b.data = true

instance : DecidableRel strLe :=
  fun a b => inferInstanceAs (Decidable (charListLe a.data b.data = true))


/-- Python `sorted(list(set(l)))`: the sorted, duplicate-free enumeration
of the elements of `l`. -/
def sortedSet (l : List String) : List String :=
  List.insertionSort strLe (dedupFirst l)

/-- The rows of the data frame whose base style is `b`
(`self.df[self.df['base_style'] == base_style]`, in file order). -/
def groupRows (rows : List XRow) (b : String) : List XRow :=
  rows.filter (fun r => decide (extractBaseStyle r.style = b))

/-- The group keys of `df.groupby('base_style')`: the distinct base
styles, in sorted order (pandas sorts group keys). -/
def groupKeysSorted (rows : List XRow) : List String :=
  List.insertionSort strLe (dedupFirst (rows.map fun r => extractBaseStyle r.style))

/-- One entry of `InventoryParser.styles_data`. -/
structure StyleData where
  style : String
  colors : List String
  division : String
  outsole : String
  gender : String
  color_count : Nat
deriving DecidableEq

/-- The `styles_data` entry `_process_styles` builds for base style `b`:
first-seen deduplicated canonical colors of the group, descriptive fields
from the group's first row, and `color_count` the length of the color
list. -/
def styleDataFor (rows : List XRow) (b : String) : StyleData :=
  let g := groupRows rows b
  let colors := dedupFirst (g.map rowColor)
  { style := b
    colors := colors
    division := (g.head?.map (·.division)).getD "N/A"
    outsole := (g.head?.map (·.outsole)).getD "N/A"
    gender := (g.head?.map (·.gender)).getD "N/A"
    color_count := colors.length }

/-- `InventoryParser.get_all_styles` as a set: the distinct base styles of
the parsed file (the keys of `styles_data`). -/
def activeStylesOf (rows : List XRow) : List String :=
  dedupFirst (rows.map fun r => extractBaseStyle r.style)

/-- Row of the `items` table (`database.Item`): one Variant. -/
structure Item where
  id : String
  style : String
  color : String
  division : String
  outsole : String
  gender : String
  image_url : Option String
  source_files : List String
  status : String
  row_id : Option Nat
deriving DecidableEq

/-- Row of the `style_summary` table (`database.StyleSummary`). -/
structure StyleSummary where
  style : String
  all_colors : List String
  division : String
  outsole : String
  gender : String
  source_files : List String
  color_count : Nat
deriving DecidableEq

/-- Row of the `file_uploads` table (`database.FileUpload`); only the
fields the claims are about (filename and processing status). -/
structure FileUpload where
  filename : String
  status : String
deriving DecidableEq

/-- The persistent catalog state: the three tables the reconciliation
pipeline reads and writes. -/
structure Catalog where
  items : List Item
  summaries : List StyleSummary
  fileUploads : List FileUpload
deriving DecidableEq

/-- The empty catalog (freshly created tables). -/
def emptyCatalog : Catalog := { items := [], summaries := [], fileUploads := [] }

/-- `x <|> y` on options, written out as the `if image_url:` pattern of
`save_to_database` (overwrite only when the new row supplies a value). -/
def orO {α : Type} (x y : Option α) : Option α :=
  match x with
  | some a => some a
  | none => y

/-- One keyed upsert against a list-modelled table: if a row with the key
exists, rewrite every row with that key through `upd` (SQLAlchemy updates
the matched row in place); otherwise append `mk` (session.add). -/
def upsert {α : Type} (keyf : α → String) (k : String) (upd : α → α) (mk : α)
    (l : List α) : List α :=
  if l.any (fun a => decide (keyf a = k)) then
    l.map (fun a => if keyf a = k then upd a else a)
  else l ++ [mk]

/-- A pending upsert: target key, in-place update, and fresh row. -/
structure UOp (α : Type) where
  key : String
  upd : α → α
  fresh : α

/-- Apply a sequence of upserts left to right. -/
def applyUs {α : Type} (keyf : α → String) (ops : List (UOp α)) (l : List α) : List α :=
  ops.foldl (fun l o => upsert keyf o.key o.upd o.fresh l) l

/-- `save_to_database`, update branch for an existing Item: overwrite the
descriptive fields from the row, overwrite the image only when the row
supplies one, and re-store the provenance as the sorted set union with the
current snapshot (`sorted(list(set(...) | {source_filename}))`). -/
def updExisting (fname : String) (r : XRow) (it : Item) : Item :=
  { it with
    division := r.division
    outsole := r.outsole
    gender := r.gender
    image_url := orO r.image it.image_url
    source_files := sortedSet (fname :: it.source_files) }

/-- `save_to_database`, insert branch: a fresh Item with id
`{style6}_{canonical color}`, provenance `[source]`, and the column
defaults `status='pending'`, `row_id=NULL` of `database.Item`. -/
def newItem (fname s6 : String) (r : XRow) : Item :=
  { id := s6 ++ "_" ++ rowColor r
    style := s6
    color := rowColor r
    division := r.division
    outsole := r.outsole
    gender := r.gender
    image_url := r.image
    source_files := [fname]
    status := "pending"
    row_id := none }

/-- `save_to_database`, update branch for an existing StyleSummary: color
list becomes the sorted union of old and new, provenance gains the
snapshot, `color_count` is recomputed as the merged list's length.  The
descriptive fields are not touched on update. -/
def updSummary (fname : String) (sd : StyleData) (s : StyleSummary) : StyleSummary :=
  let merged := sortedSet (s.all_colors ++ sd.colors)
  { s with
    all_colors := merged
    source_files := sortedSet (fname :: s.source_files)
    color_count := merged.length }

/-- `save_to_database`, insert branch for a missing StyleSummary. -/
def newSummary (fname s6 : String) (sd : StyleData) : StyleSummary :=
  { style := s6
    all_colors := sd.colors
    division := sd.division
    outsole := sd.outsole
    gender := sd.gender
    source_files := [fname]
    color_count := sd.color_count }

/-- The per-Item upserts one call of `save_to_database` performs: for each
base style in group-key order, for the first row of each canonical color
of the group (the `processed_colors` guard), an upsert keyed by
`{zfill(style,6)}_{canonical color}`. -/
def itemOpsOf (fname : String) (rows : List XRow) : List (UOp Item) :=
  (groupKeysSorted rows).flatMap fun b =>
    (firstByKey rowColor [] (groupRows rows b)).map fun r =>
      { key := zfill b 6 ++ "_" ++ rowColor r
        upd := updExisting fname r
        fresh := newItem fname (zfill b 6) r }

/-- The per-StyleSummary upserts of one `save_to_database` call: one per
base style, keyed by the zero-padded style. -/
def summOpsOf (fname : String) (rows : List XRow) : List (UOp StyleSummary) :=
  (groupKeysSorted rows).map fun b =>
    { key := zfill b 6
      upd := updSummary fname (styleDataFor rows b)
      fresh := newSummary fname (zfill b 6) (styleDataFor rows b) }

/-- `InventoryParser.save_to_database`: merge one parsed snapshot into the
catalog.  The Python loop interleaves, per style, the item upserts with
the summary upsert; items and summaries live in different tables, so the
loop factors into the two independent upsert sequences. -/
def mergeSnapshot (c : Catalog) (rows : List XRow) (fname : String) : Catalog :=
  { c with
    items := applyUs (·.id) (itemOpsOf fname rows) c.items
    summaries := applyUs (·.style) (summOpsOf fname rows) c.summaries }

/-- `delete_file`, Item phase: Variants whose provenance is the singleton
of the retracted file are deleted; other Variants containing it keep all
fields but lose that entry of their provenance list. -/
def retractItems (f : String) (items : List Item) : List Item :=
  (items.filter fun it =>
      decide (¬ (f ∈ it.source_files ∧ it.source_files.length = 1))).map
    fun it =>
      if f ∈ it.source_files then
        { it with source_files := it.source_files.filter (fun g => decide (g ≠ f)) }
      else it

/-- `delete_file`, StyleSummary phase, evaluated against the Item table
after the Item phase: a summary containing the file is deleted when no
Variants of its style remain or when the file was its only provenance
entry; otherwise it loses the provenance entry and has its color list and
`color_count` recomputed from the remaining Variants of the style. -/
def retractSummaries (f : String) (remainingItems : List Item)
    (sums : List StyleSummary) : List StyleSummary :=
  sums.filterMap fun s =>
    if f ∈ s.source_files then
      let remaining := remainingItems.filter (fun it => decide (it.style = s.style))
      if remaining.length = 0 ∨ s.source_files.length = 1 then none
      else
        some { s with
               source_files := s.source_files.filter (fun g => decide (g ≠ f))
               all_colors := remaining.map (·.color)
               color_count := (remaining.map (·.color)).length }
    else some s

/-- `main.delete_file`: `none` models the 404 when no FileUpload record
with that filename exists; otherwise the retraction cascade runs over
Items, then StyleSummaries, and drops the FileUpload record.
(`inventory_actions` rows are not modelled.) -/
def deleteFile (c : Catalog) (f : String) : Option Catalog :=
  if c.fileUploads.any (fun u => decide (u.filename = f)) then
    let items' := retractItems f c.items
    some { items := items'
           summaries := retractSummaries f items' c.summaries
           fileUploads := c.fileUploads.filter (fun u => decide (u.filename ≠ f)) }
  else none

/-- `seasonal_drop.process_seasonal_drop`: every Item whose zero-padded
style is absent from the active snapshot's base styles has its status set
to `'dropped'`; Items of active styles are not touched, and no other
table is touched. -/
def dropItem (active : List String) (it : Item) : Item :=
  if zfill it.style 6 ∈ active then it else { it with status := "dropped" }

def processSeasonalDrop (c : Catalog) (activeRows : List XRow) : Catalog :=
  { c with items := c.items.map (dropItem (activeStylesOf activeRows)) }

/-- An uploaded spreadsheet as seen by `_process_styles`: whether the
required `style` and `color` columns are present, and the normalized
rows. -/
structure UploadSheet where
  hasStyle : Bool
  hasColor : Bool
  rows : List XRow
deriving DecidableEq

/-- Set the status of the FileUpload record with the given filename. -/
def setUploadStatus (fname status : String) (us : List FileUpload) : List FileUpload :=
  us.map fun u => if u.filename = fname then { u with status := status } else u

/-- `upload_excel`'s first phase: create or reset the FileUpload record
with status `'processing'` and commit it, before any parsing happens. -/
def recordUpload (fname : String) (us : List FileUpload) : List FileUpload :=
  if us.any (fun u => decide (u.filename = fname)) then setUploadStatus fname "processing" us
  else us ++ [{ filename := fname, status := "processing" }]

/-- `main.upload_excel`: reject non-Excel filenames untouched; otherwise
commit the `'processing'` FileUpload record, then parse.  A missing
required column raises inside `InventoryParser` before any Item or
StyleSummary write, and the exception handler commits the record as
`'failed'`; on success the snapshot is merged and the record committed as
`'completed'`.  The boolean is the request outcome. -/
def uploadExcel (c : Catalog) (sheet : UploadSheet) (fname : String) : Catalog × Bool :=
  if endsWithStr fname ".xlsx" || endsWithStr fname ".xls" then
    let c1 : Catalog := { c with fileUploads := recordUpload fname c.fileUploads }
    if sheet.hasStyle ∧ sheet.hasColor then
      let c2 := mergeSnapshot c1 sheet.rows fname
      ({ c2 with fileUploads := setUploadStatus fname "completed" c2.fileUploads }, true)
    else
      ({ c1 with fileUploads := setUploadStatus fname "failed" c1.fileUploads }, false)
  else (c, false)

/-- The catalog states the system can produce: the empty store followed by
any sequence of upload requests, retractions, and seasonal drops. -/
inductive Reachable : Catalog → Prop where
  | empty : Reachable emptyCatalog
  | upload {c} (sheet : UploadSheet) (fname : String) :
      Reachable c → Reachable (uploadExcel c sheet fname).1
  | retract {c c'} (f : String) :
      Reachable c → deleteFile c f = some c' → Reachable c'
  | drop {c} (activeRows : List XRow) :
      Reachable c → Reachable (processSeasonalDrop c activeRows)

/-- A row whose raw style token starts with an ASCII digit, so that its
base style is a pure digit string. -/
def DigitRow (r : XRow) : Prop :=
  ∃ ch, ch ∈ r.style.data.head? ∧ ch.isDigit = true

/-- Catalog states produced using only snapshots whose style tokens all
start with a digit (the numeric style numbers the system is written
for). -/
inductive ReachableDigits : Catalog → Prop where
  | empty : ReachableDigits emptyCatalog
  | upload {c} (sheet : UploadSheet) (fname : String) :
      (∀ r ∈ sheet.rows, DigitRow r) →
      ReachableDigits c → ReachableDigits (uploadExcel c sheet fname).1
  | retract {c c'} (f : String) :
      ReachableDigits c → deleteFile c f = some c' → ReachableDigits c'
  | drop {c} (activeRows : List XRow) :
      ReachableDigits c → ReachableDigits (processSeasonalDrop c activeRows)

/-- The distinct colors among the Variants of style `t` that currently
exist in the catalog's Item table. -/
def distinctColors (items : List Item) (t : String) : List String :=
  dedupFirst ((items.filter fun it => decide (it.style = t)).map (·.color))

/-- The filename derivation of `extract_images_to_folder` for one data
row: strip style and color, skip blank or `nan` cells, require a digit
run at the start of the style token (skip otherwise), zero-pad it to 6,
re-attach the width variant to the color, and emit
`{style6}_{color}.jpg`.  `none` is a counted skip. -/
def rowImageFilename (row : XRow) : Option String :=
  let styleRaw := stripStr row.style
  let colorRaw := stripStr row.color
  if styleRaw = "" ∨ colorRaw = "" ∨ styleRaw = "nan" ∨ colorRaw = "nan" then none
  else if leadingDigits styleRaw = "" then none
  else
    let styleClean := zfill (leadingDigits styleRaw) 6
    let variant := extractVariant styleRaw
    let colorClean := if variant = "" then stripStr colorRaw
                      else colorRaw ++ " (" ++ variant ++ ")"
    some (styleClean ++ "_" ++ colorClean ++ ".jpg")

/-- Binding of one anchor to its data row: an image anchored at container
row index `r` reads data row `r - 1` (header offset 1); anchors whose
data-row index falls outside the data range are skips. -/
def anchorFilename (rows : List XRow) (r : Nat) : Option String :=
  if h : 1 ≤ r ∧ r - 1 < rows.length then
    rowImageFilename (rows.get ⟨r - 1, h.2⟩)
  else none

/-- `extract_images_to_folder` on the anchor row indices of the embedded
images: process the distinct anchor rows in sorted order (the
`sorted(images_by_row.items())` loop, one image per row), producing the
written `(anchor row, filename)` pairs and the skip count. -/
def planStep (rows : List XRow) (acc : List (Nat × String) × Nat) (r : Nat) :
    List (Nat × String) × Nat :=
  match anchorFilename rows r with
  | some fn => (acc.1 ++ [(r, fn)], acc.2)
  | none => (acc.1, acc.2 + 1)

def extractImagesPlan (rows : List XRow) (anchors : List Nat) : List (Nat × String) × Nat :=
  (List.insertionSort (· ≤ ·) (dedupFirst anchors)).foldl (planStep rows) ([], 0)

/-- The upserts of a sequence that target key `k`, in order. -/
def opsFor {α : Type} (k : String) (ops : List (UOp α)) : List (UOp α) :=
  ops.filter (fun o => decide (o.key = k))

/-- Replay onto `a` every update of the sequence that targets key `k`. -/
def replayU {α : Type} (k : String) (ops : List (UOp α)) (a : α) : α :=
  (opsFor k ops).foldl (fun a o => o.upd a) a

/-- The rows appended by a sequence of upserts when the keys in `ks`
already exist: each op whose key is new inserts its fresh row and the
later updates for that key are replayed onto it. -/
def createdU {α : Type} : List (UOp α) → List String → List α
  | [], _ => []
  | o :: rest, ks =>
    if o.key ∈ ks then createdU rest ks
    else replayU o.key rest o.fresh :: createdU rest (o.key :: ks)

/-- A spreadsheet row with only style and color set (optional columns
backfilled with `N/A`, no embedded image reference). -/
def mkRow (st co : String) : XRow :=
  { style := st, color := co, division := "N/A", outsole := "N/A",
    gender := "N/A", image := none }

/-- Concrete catalog for witnesses: one snapshot with one `10045 / BLK`
row merged into the empty store. -/
def catW1 : Catalog := mergeSnapshot emptyCatalog [mkRow "10045" "BLK"] "f.xlsx"

/-- The Variant `catW1` holds. -/
def itemW1 : Item :=
  { id := "010045_BLK", style := "010045", color := "BLK", division := "N/A",
    outsole := "N/A", gender := "N/A", image_url := none,
    source_files := ["f.xlsx"], status := "pending", row_id := none }

/-- Six data rows; the row at index 4 is style `10045`, color `BLK`. -/
def rowsC8x : List XRow :=
  [mkRow "200" "RED", mkRow "201" "GRN", mkRow "202" "BLU", mkRow "203" "YEL",
   mkRow "10045" "BLK", mkRow "204" "WHT"]

/-- A revision row for `10045 / BLK` carrying new descriptive fields and
an image reference. -/
def rowW2 : XRow :=
  { style := "10045", color := "BLK", division := "D2", outsole := "O2",
    gender := "G2", image := some "img" }

/-- A string made of ASCII digits only (a numeric style key). -/
def DigitStr (s : String) : Prop := ∀ ch ∈ s.data, ch.isDigit = true

/-- Structural well-formedness of the Item table that every operation
preserves, whatever the style tokens look like: composite ids are unique
and really are `{style}_{color}`, and provenance lists are non-empty and
duplicate-free. -/
structure BasicInv (c : Catalog) : Prop where
  idsNodup : (c.items.map (·.id)).Nodup
  itemId : ∀ it ∈ c.items, it.id = it.style ++ "_" ++ it.color
  itemSrcNe : ∀ it ∈ c.items, it.source_files ≠ []
  itemSrcNodup : ∀ it ∈ c.items, it.source_files.Nodup

/-- The full reconciliation invariant, maintained when every ingested
style token is numeric: structural facts plus the aggregate-consistency
and provenance-inclusion properties relating Items and StyleSummaries. -/
structure FullInv (c : Catalog) : Prop where
  idsNodup : (c.items.map (·.id)).Nodup
  itemId : ∀ it ∈ c.items, it.id = it.style ++ "_" ++ it.color
  itemSrcNe : ∀ it ∈ c.items, it.source_files ≠ []
  itemSrcNodup : ∀ it ∈ c.items, it.source_files.Nodup
  itemDigit : ∀ it ∈ c.items, DigitStr it.style
  sumDigit : ∀ s ∈ c.summaries, DigitStr s.style
  sumColorsNodup : ∀ s ∈ c.summaries, s.all_colors.Nodup
  sumSrcNodup : ∀ s ∈ c.summaries, s.source_files.Nodup
  sumCount : ∀ s ∈ c.summaries, s.color_count = s.all_colors.length
  sumColors : ∀ s ∈ c.summaries, ∀ col,
    col ∈ s.all_colors ↔ ∃ it ∈ c.items, it.style = s.style ∧ it.color = col
  prov : ∀ it ∈ c.items, ∀ s ∈ c.summaries, it.style = s.style →
    ∀ g ∈ it.source_files, g ∈ s.source_files
  styleHasSum : ∀ it ∈ c.items, ∃ s ∈ c.summaries, s.style = it.style
  sumStylesNodup : (c.summaries.map (·.style)).Nodup

/-- Snapshot with a non-numeric style token whose composite id collides
with the one produced by `sheetP2`. -/
def sheetP1 : UploadSheet := ⟨true, true, [mkRow "AAAAAA" "Z_X"]⟩

/-- Snapshot whose row `AAAAAA_Z / X` produces the same composite id
`AAAAAA_Z_X` as `sheetP1`'s row `AAAAAA / Z_X`. -/
def sheetP2 : UploadSheet := ⟨true, true, [mkRow "AAAAAA_Z" "X"]⟩

/-- The catalog after uploading the two colliding snapshots. -/
def catP : Catalog :=
  (uploadExcel (uploadExcel emptyCatalog sheetP1 "f1.xlsx").1 sheetP2 "f2.xlsx").1

/-- A well-formed single-row snapshot used as a concrete test input. -/
def sheetW : UploadSheet := ⟨true, true, [mkRow "10045" "BLK"]⟩

/-- Catalog after uploading the same snapshot under two filenames. -/
def catC3 : Catalog :=
  (uploadExcel (uploadExcel emptyCatalog sheetW "f1.xlsx").1 sheetW "f2.xlsx").1

/-- The catalog `deleteFile` produces when retracting the second snapshot
from `catC3`. -/
def catC3del : Catalog :=
  { items := retractItems "f2.xlsx" catC3.items
    summaries :=
      retractSummaries "f2.xlsx" (retractItems "f2.xlsx" catC3.items) catC3.summaries
    fileUploads := catC3.fileUploads.filter (fun u => decide (u.filename ≠ "f2.xlsx")) }

/-- The per-summary step of `delete_file`'s StyleSummary phase (the loop
body of the summary retraction, as a function of one summary). -/
def retractSumOne (f : String) (remainingItems : List Item)
    (s : StyleSummary) : Option StyleSummary :=
  if f ∈ s.source_files then
    let remaining := remainingItems.filter (fun it => decide (it.style = s.style))
    if remaining.length = 0 ∨ s.source_files.length = 1 then none
    else
      some { s with
             source_files := s.source_files.filter (fun g => decide (g ≠ f))
             all_colors := remaining.map (·.color)
             color_count := (remaining.map (·.color)).length }
  else some s

/-- The catalog `deleteFile` produces when retracting `f1.xlsx` from the
colliding catalog `catP`. -/
def catPdel : Catalog :=
  { items := retractItems "f1.xlsx" catP.items
    summaries :=
      retractSummaries "f1.xlsx" (retractItems "f1.xlsx" catP.items) catP.summaries
    fileUploads := catP.fileUploads.filter (fun u => decide (u.filename ≠ "f1.xlsx")) }

/-- Fold a sequence of updates onto one row. -/
def foldUpd {α : Type} (l : List (UOp α)) (a : α) : α :=
  l.foldl (fun a o => o.upd a) a

/-- An op produced by `save_to_database`'s item loop: its update is the
existing-Item branch for some row, its fresh row the new-Item branch, and
its key the composite id. -/
def ItemOp (fname : String) (o : UOp Item) : Prop :=
  ∃ s6 r, o.upd = updExisting fname r ∧ o.fresh = newItem fname s6 r ∧
    o.key = s6 ++ "_" ++ rowColor r

/-- An op produced by `save_to_database`'s summary pass: update and fresh
row built from one parsed style-group entry, whose color list is
deduplicated and whose count is its length. -/
def SummOp (fname : String) (o : UOp StyleSummary) : Prop :=
  ∃ s6 sd, o.upd = updSummary fname sd ∧ o.fresh = newSummary fname s6 sd ∧
    o.key = s6 ∧ sd.color_count = sd.colors.length ∧ sd.colors.Nodup

/-- Membership in the color list written by a fold of summary updates: a
color is present afterwards iff it was present before or one of the
updates carried it. -/
def opsHaveColor (fname : String) (l : List (UOp StyleSummary)) (x : String) : Prop :=
  ∃ o ∈ l, ∃ sd : StyleData, o.upd = updSummary fname sd ∧ x ∈ sd.colors

theorem anyKey_iff {α : Type} (keyf : α → String) (k : String) (l : List α) :
    (l.any fun a => decide (keyf a = k)) = true ↔ k ∈ l.map keyf := by
  constructor
  · intro h
    obtain ⟨a, ha, hd⟩ := List.any_eq_true.mp h
    have hk : keyf a = k := of_decide_eq_true hd
    exact hk ▸ List.mem_map_of_mem keyf ha
  · intro h
    obtain ⟨a, ha, hk⟩ := List.mem_map.mp h
    exact List.any_eq_true.mpr ⟨a, ha, decide_eq_true hk⟩

theorem charListLe_cons_iff (a b : Char) (as bs : List Char) :
    charListLe (a :: as) (b :: bs) = true ↔
      a < b ∨ (a = b ∧ charListLe as bs = true) := by
  by_cases h1 : a < b
  · simp [charListLe, h1]
  · by_cases h2 : b < a
    · have hne : a ≠ b := fun he => absurd (he ▸ h2) (lt_irrefl a)
      simp [charListLe, h1, h2, hne]
    · have he : a = b := le_antisymm (le_of_not_lt h2) (le_of_not_lt h1)
      simp [charListLe, h1, h2, he]

theorem charListLe_total : ∀ (as bs : List Char),
    charListLe as bs = true ∨ charListLe bs as = true := by
  intro as
  induction as with
  | nil => intro bs; left; rfl
  | cons a as ih =>
    intro bs
    cases bs with
    | nil => right; rfl
    | cons b bs =>
      rcases lt_trichotomy a b with h | h | h
      · left; rw [charListLe_cons_iff]; exact Or.inl h
      · rcases ih bs with h2 | h2
        · left; rw [charListLe_cons_iff]; exact Or.inr ⟨h, h2⟩
        · right; rw [charListLe_cons_iff]; exact Or.inr ⟨h.symm, h2⟩
      · right; rw [charListLe_cons_iff]; exact Or.inl h

theorem charListLe_trans : ∀ (as bs cs : List Char),
    charListLe as bs = true → charListLe bs cs = true →
    charListLe as cs = true := by
  intro as
  induction as with
  | nil => intro bs cs _ _; rfl
  | cons a as ih =>
    intro bs cs hab hbc
    cases bs with
    | nil => exact absurd hab (by simp [charListLe])
    | cons b bs =>
      cases cs with
      | nil => exact absurd hbc (by simp [charListLe])
      | cons c cs =>
        rw [charListLe_cons_iff] at hab hbc ⊢
        rcases hab with hab | ⟨rfl, hab⟩
        · rcases hbc with hbc | ⟨rfl, _⟩
          · exact Or.inl (lt_trans hab hbc)
          · exact Or.inl hab
        · rcases hbc with hbc | ⟨rfl, hbc⟩
          · exact Or.inl hbc
          · exact Or.inr ⟨rfl, ih bs cs hab hbc⟩

theorem charListLe_antisymm : ∀ (as bs : List Char),
    charListLe as bs = true → charListLe bs as = true → as = bs := by
  intro as
  induction as with
  | nil =>
    intro bs _ hba
    cases bs with
    | nil => rfl
    | cons b bs => exact absurd hba (by simp [charListLe])
  | cons a as ih =>
    intro bs hab hba
    cases bs with
    | nil => exact absurd hab (by simp [charListLe])
    | cons b bs =>
      rw [charListLe_cons_iff] at hab hba
      rcases hab with hab | ⟨he1, hab⟩
      · rcases hba with hba | ⟨he2, _⟩
        · exact absurd (lt_trans hab hba) (lt_irrefl a)
        · subst he2
          exact absurd hab (lt_irrefl _)
      · subst he1
        rcases hba with hba | ⟨_, hba⟩
        · exact absurd hba (lt_irrefl _)
        · rw [ih bs hab hba]

instance : IsTotal String strLe := ⟨fun a b => charListLe_total a.data b.data⟩

instance : IsTrans String strLe :=
  ⟨fun a b c hab hbc => charListLe_trans a.data b.data c.data hab hbc⟩

instance : IsAntisymm String strLe :=
  ⟨fun a b hab hba => by
    cases a; cases b
    exact congrArg String.mk (charListLe_antisymm _ _ hab hba)⟩

theorem opsFor_cons {α : Type} (k : String) (o : UOp α) (ops : List (UOp α)) :
    opsFor k (o :: ops) = if o.key = k then o :: opsFor k ops else opsFor k ops := by
  by_cases h : o.key = k <;> simp [opsFor, List.filter_cons, h]

theorem replayU_cons {α : Type} (k : String) (o : UOp α) (ops : List (UOp α)) (a : α) :
    replayU k (o :: ops) a =
      if o.key = k then replayU k ops (o.upd a) else replayU k ops a := by
  by_cases h : o.key = k <;> simp [replayU, opsFor_cons, h, List.foldl_cons]

theorem replayU_nil {α : Type} (k : String) (a : α) : replayU k [] a = a := rfl

theorem createdU_congr {α : Type} (ops : List (UOp α)) :
    ∀ ks₁ ks₂ : List String, (∀ x, x ∈ ks₁ ↔ x ∈ ks₂) →
      createdU ops ks₁ = createdU ops ks₂ := by
  induction ops with
  | nil => intro ks₁ ks₂ _; rfl
  | cons o rest ih =>
    intro ks₁ ks₂ h
    by_cases hm : o.key ∈ ks₁
    · simp [createdU, hm, (h o.key).mp hm, ih ks₁ ks₂ h]
    · have hm₂ : o.key ∉ ks₂ := fun hx => hm ((h o.key).mpr hx)
      simp only [createdU, if_neg hm, if_neg hm₂]
      refine congrArg _ (ih _ _ ?_)
      intro x
      simp only [List.mem_cons]
      exact or_congr Iff.rfl (h x)

/-- The fundamental shape of a sequence of keyed upserts: every original
row is replayed through the updates that target its key, in place, and
the rows whose keys were absent are appended, in first-op order. -/
theorem applyUs_eq {α : Type} (keyf : α → String) (ops : List (UOp α))
    (hupd : ∀ o ∈ ops, ∀ a, keyf (o.upd a) = keyf a)
    (hfresh : ∀ o ∈ ops, keyf o.fresh = o.key) :
    ∀ l : List α,
      applyUs keyf ops l =
        l.map (fun a => replayU (keyf a) ops a) ++ createdU ops (l.map keyf) := by
  induction ops with
  | nil =>
    intro l
    have h1 : createdU ([] : List (UOp α)) (l.map keyf) = [] := rfl
    have h2 : l.map (fun a => replayU (keyf a) ([] : List (UOp α)) a)
        = l.map (fun a => a) := rfl
    show l = _
    rw [h1, h2, List.append_nil]
    simp
  | cons o rest ih =>
    intro l
    have hupd' : ∀ o' ∈ rest, ∀ a, keyf (o'.upd a) = keyf a :=
      fun o' ho' => hupd o' (List.mem_cons_of_mem _ ho')
    have hfresh' : ∀ o' ∈ rest, keyf o'.fresh = o'.key :=
      fun o' ho' => hfresh o' (List.mem_cons_of_mem _ ho')
    have hstep : applyUs keyf (o :: rest) l =
        applyUs keyf rest (upsert keyf o.key o.upd o.fresh l) := rfl
    by_cases hmem : o.key ∈ l.map keyf
    · have hany : (l.any fun a => decide (keyf a = o.key)) = true :=
        (anyKey_iff keyf o.key l).mpr hmem
      have hup : upsert keyf o.key o.upd o.fresh l =
          l.map (fun a => if keyf a = o.key then o.upd a else a) := by
        simp [upsert, hany]
      rw [hstep, hup, ih hupd' hfresh']
      have hkeys : (l.map (fun a => if keyf a = o.key then o.upd a else a)).map keyf
          = l.map keyf := by
        rw [List.map_map]
        refine List.map_congr_left ?_
        intro a _
        by_cases h : keyf a = o.key <;>
          simp [h, hupd o (List.mem_cons_self o rest) a]
      rw [hkeys]
      have hmapeq :
          (l.map (fun a => if keyf a = o.key then o.upd a else a)).map
              (fun a => replayU (keyf a) rest a)
            = l.map (fun a => replayU (keyf a) (o :: rest) a) := by
        rw [List.map_map]
        refine List.map_congr_left ?_
        intro a _
        by_cases h : keyf a = o.key
        · simp [h, replayU_cons, hupd o (List.mem_cons_self o rest) a]
        · have : ¬ o.key = keyf a := fun hx => h hx.symm
          simp [h, replayU_cons, this]
      rw [hmapeq]
      have hcreated : createdU (o :: rest) (l.map keyf) = createdU rest (l.map keyf) := by
        simp [createdU, hmem]
      rw [hcreated]
    · have hany : (l.any fun a => decide (keyf a = o.key)) = false := by
        rw [Bool.eq_false_iff]
        intro hx
        exact hmem ((anyKey_iff keyf o.key l).mp hx)
      have hup : upsert keyf o.key o.upd o.fresh l = l ++ [o.fresh] := by
        simp [upsert, hany]
      rw [hstep, hup, ih hupd' hfresh', List.map_append, List.map_append]
      have hfk : keyf o.fresh = o.key := hfresh o (List.mem_cons_self o rest)
      have hmapeq : l.map (fun a => replayU (keyf a) rest a)
          = l.map (fun a => replayU (keyf a) (o :: rest) a) := by
        refine List.map_congr_left ?_
        intro a ha
        have hne : keyf a ≠ o.key := fun hx => hmem (hx ▸ List.mem_map_of_mem keyf ha)
        have : ¬ o.key = keyf a := fun hx => hne hx.symm
        simp [replayU_cons, this]
      have hcreated : createdU (o :: rest) (l.map keyf)
          = replayU o.key rest o.fresh :: createdU rest (o.key :: l.map keyf) := by
        simp [createdU, hmem]
      have hcong : createdU rest (l.map keyf ++ [o.key])
          = createdU rest (o.key :: l.map keyf) := by
        refine createdU_congr rest _ _ ?_
        intro x
        simp [List.mem_append, or_comm]
      rw [hmapeq, hcreated]
      simp only [List.map_cons, List.map_nil, hfk]
      rw [List.append_assoc, hcong]
      simp

theorem createdU_eq_nil {α : Type} :
    ∀ (ops : List (UOp α)) (ks : List String),
      (∀ o ∈ ops, o.key ∈ ks) → createdU ops ks = [] := by
  intro ops
  induction ops with
  | nil => intro ks _; rfl
  | cons o rest ih =>
    intro ks h
    have : o.key ∈ ks := h o (List.mem_cons_self o rest)
    simp only [createdU, if_pos this]
    exact ih ks (fun o' ho' => h o' (List.mem_cons_of_mem _ ho'))

/-- A projection every update of the op sequence leaves alone is left
alone by replaying. -/
theorem replayU_proj {α β : Type} (g : α → β) (k : String) (ops : List (UOp α))
    (h : ∀ o ∈ ops, ∀ a, g (o.upd a) = g a) (a : α) :
    g (replayU k ops a) = g a := by
  induction ops generalizing a with
  | nil => rfl
  | cons o rest ih =>
    have h' : ∀ o' ∈ rest, ∀ a, g (o'.upd a) = g a :=
      fun o' ho' => h o' (List.mem_cons_of_mem _ ho')
    rw [replayU_cons]
    by_cases hk : o.key = k
    · rw [if_pos hk, ih h', h o (List.mem_cons_self o rest) a]
    · rw [if_neg hk, ih h']

/-- Every element appended by `createdU` comes from the first op of its
key: the op's fresh row, replayed through the later updates of that key,
and that key was not already present. -/
theorem createdU_mem_spec {α : Type} :
    ∀ (ops : List (UOp α)) (ks : List String) (a : α), a ∈ createdU ops ks →
      ∃ ops₁ o ops₂, ops = ops₁ ++ o :: ops₂ ∧ a = replayU o.key ops₂ o.fresh ∧
        opsFor o.key ops₁ = [] ∧ o.key ∉ ks := by
  intro ops
  induction ops with
  | nil => intro ks a h; exact absurd h (by simp [createdU])
  | cons o rest ih =>
    intro ks a h
    by_cases hm : o.key ∈ ks
    · simp only [createdU, if_pos hm] at h
      obtain ⟨ops₁, o', ops₂, heq, ha, hfor, hks⟩ := ih ks a h
      have hne : decide (o.key = o'.key) = false := by
        have : o.key ≠ o'.key := fun hx => hks (hx ▸ hm)
        exact decide_eq_false this
      refine ⟨o :: ops₁, o', ops₂, by rw [heq]; rfl, ha, ?_, hks⟩
      simp [opsFor, List.filter_cons, hne]
      simpa [opsFor] using hfor
    · simp only [createdU, if_neg hm, List.mem_cons] at h
      rcases h with h | h
      · exact ⟨[], o, rest, rfl, h, rfl, hm⟩
      · obtain ⟨ops₁, o', ops₂, heq, ha, hfor, hks⟩ := ih (o.key :: ks) a h
        have hne : decide (o.key = o'.key) = false := by
          have : o.key ≠ o'.key := fun hx => hks (hx ▸ List.mem_cons_self _ _)
          exact decide_eq_false this
        refine ⟨o :: ops₁, o', ops₂, by rw [heq]; rfl, ha, ?_,
          fun hx => hks (List.mem_cons_of_mem _ hx)⟩
        simp [opsFor, List.filter_cons, hne]
        simpa [opsFor] using hfor

/-- Keys of the rows `createdU` appends are keys of ops and were not
already present. -/
theorem createdU_key_mem {α : Type} (keyf : α → String) :
    ∀ (ops : List (UOp α)) (ks : List String),
      (∀ o ∈ ops, ∀ a, keyf (o.upd a) = keyf a) →
      (∀ o ∈ ops, keyf o.fresh = o.key) →
      ∀ a ∈ createdU ops ks, keyf a ∈ ops.map (·.key) ∧ keyf a ∉ ks := by
  intro ops
  induction ops with
  | nil => intro ks _ _ a ha; exact absurd ha (by simp [createdU])
  | cons o rest ih =>
    intro ks hupd hfresh a ha
    have hupd' : ∀ o' ∈ rest, ∀ a, keyf (o'.upd a) = keyf a :=
      fun o' ho' => hupd o' (List.mem_cons_of_mem _ ho')
    have hfresh' : ∀ o' ∈ rest, keyf o'.fresh = o'.key :=
      fun o' ho' => hfresh o' (List.mem_cons_of_mem _ ho')
    by_cases hm : o.key ∈ ks
    · simp only [createdU, if_pos hm] at ha
      obtain ⟨h1, h2⟩ := ih ks hupd' hfresh' a ha
      exact ⟨by simp [List.mem_cons]; right; simpa using h1, h2⟩
    · simp only [createdU, if_neg hm, List.mem_cons] at ha
      rcases ha with rfl | ha
      · have : keyf (replayU o.key rest o.fresh) = keyf o.fresh :=
          replayU_proj keyf o.key rest hupd' o.fresh
        exact ⟨by simp [this, hfresh o (List.mem_cons_self o rest)],
          by rw [this, hfresh o (List.mem_cons_self o rest)]; exact hm⟩
      · obtain ⟨h1, h2⟩ := ih (o.key :: ks) hupd' hfresh' a ha
        exact ⟨by simp [List.mem_cons]; right; simpa using h1,
          fun hx => h2 (List.mem_cons_of_mem _ hx)⟩

theorem createdU_keys_nodup {α : Type} (keyf : α → String) :
    ∀ (ops : List (UOp α)) (ks : List String),
      (∀ o ∈ ops, ∀ a, keyf (o.upd a) = keyf a) →
      (∀ o ∈ ops, keyf o.fresh = o.key) →
      ((createdU ops ks).map keyf).Nodup := by
  intro ops
  induction ops with
  | nil => intro ks _ _; simp [createdU]
  | cons o rest ih =>
    intro ks hupd hfresh
    have hupd' : ∀ o' ∈ rest, ∀ a, keyf (o'.upd a) = keyf a :=
      fun o' ho' => hupd o' (List.mem_cons_of_mem _ ho')
    have hfresh' : ∀ o' ∈ rest, keyf o'.fresh = o'.key :=
      fun o' ho' => hfresh o' (List.mem_cons_of_mem _ ho')
    by_cases hm : o.key ∈ ks
    · simp only [createdU, if_pos hm]
      exact ih ks hupd' hfresh'
    · simp only [createdU, if_neg hm, List.map_cons]
      refine List.nodup_cons.mpr ⟨?_, ih (o.key :: ks) hupd' hfresh'⟩
      intro hx
      obtain ⟨a, ha, hk⟩ := List.mem_map.mp hx
      obtain ⟨_, hnot⟩ := createdU_key_mem keyf rest (o.key :: ks) hupd' hfresh' a ha
      rw [replayU_proj keyf o.key rest hupd' o.fresh,
        hfresh o (List.mem_cons_self o rest)] at hk
      exact hnot (hk ▸ List.mem_cons_self _ _)

theorem key_mem_createdU {α : Type} (keyf : α → String) :
    ∀ (ops : List (UOp α)) (ks : List String) (k : String),
      (∀ o ∈ ops, ∀ a, keyf (o.upd a) = keyf a) →
      (∀ o ∈ ops, keyf o.fresh = o.key) →
      k ∈ ops.map (·.key) → k ∉ ks → k ∈ (createdU ops ks).map keyf := by
  intro ops
  induction ops with
  | nil => intro ks k _ _ hk _; exact absurd hk (by simp)
  | cons o rest ih =>
    intro ks k hupd hfresh hk hks
    have hupd' : ∀ o' ∈ rest, ∀ a, keyf (o'.upd a) = keyf a :=
      fun o' ho' => hupd o' (List.mem_cons_of_mem _ ho')
    have hfresh' : ∀ o' ∈ rest, keyf o'.fresh = o'.key :=
      fun o' ho' => hfresh o' (List.mem_cons_of_mem _ ho')
    by_cases hm : o.key ∈ ks
    · have hko : k ≠ o.key := fun hx => hks (hx ▸ hm)
      have : k ∈ rest.map (·.key) := by
        rcases List.mem_map.mp hk with ⟨o', ho', he⟩
        rcases List.mem_cons.mp ho' with rfl | hmem
        · exact absurd he.symm hko
        · exact List.mem_map.mpr ⟨o', hmem, he⟩
      simp only [createdU, if_pos hm]
      exact ih ks k hupd' hfresh' this hks
    · simp only [createdU, if_neg hm, List.map_cons]
      by_cases hko : k = o.key
      · rw [replayU_proj keyf o.key rest hupd' o.fresh,
          hfresh o (List.mem_cons_self o rest)]
        exact hko ▸ List.mem_cons_self _ _
      · have : k ∈ rest.map (·.key) := by
          rcases List.mem_map.mp hk with ⟨o', ho', he⟩
          rcases List.mem_cons.mp ho' with rfl | hmem
          · exact absurd he.symm hko
          · exact List.mem_map.mpr ⟨o', hmem, he⟩
        refine List.mem_cons_of_mem _ (ih (o.key :: ks) k hupd' hfresh' this ?_)
        intro hx
        rcases List.mem_cons.mp hx with h | h
        · exact hko h
        · exact hks h

theorem mem_firstByKey_id {α : Type} [DecidableEq α] :
    ∀ (l : List α) (seen : List α) (a : α),
      a ∈ firstByKey id seen l ↔ a ∈ l ∧ a ∉ seen := by
  intro l
  induction l with
  | nil => intro seen a; simp [firstByKey]
  | cons b l ih =>
    intro seen a
    by_cases hb : b ∈ seen
    · rw [show firstByKey id seen (b :: l) = firstByKey id seen l from by
        simp [firstByKey, hb]]
      rw [ih]
      constructor
      · rintro ⟨h1, h2⟩; exact ⟨List.mem_cons_of_mem _ h1, h2⟩
      · rintro ⟨h1, h2⟩
        rcases List.mem_cons.mp h1 with rfl | h1
        · exact absurd hb h2
        · exact ⟨h1, h2⟩
    · rw [show firstByKey id seen (b :: l) = b :: firstByKey id (b :: seen) l from by
        simp [firstByKey, hb]]
      constructor
      · intro h
        rcases List.mem_cons.mp h with rfl | h
        · exact ⟨List.mem_cons_self _ _, hb⟩
        · obtain ⟨h1, h2⟩ := (ih _ a).mp h
          exact ⟨List.mem_cons_of_mem _ h1,
            fun hx => h2 (List.mem_cons_of_mem _ hx)⟩
      · rintro ⟨h1, h2⟩
        rcases List.mem_cons.mp h1 with rfl | h1
        · exact List.mem_cons_self _ _
        · by_cases hab : a = b
          · exact hab ▸ List.mem_cons_self _ _
          · refine List.mem_cons_of_mem _ ((ih _ a).mpr ⟨h1, ?_⟩)
            intro hx
            rcases List.mem_cons.mp hx with h | h
            · exact hab h
            · exact h2 h

theorem mem_dedupFirst {α : Type} [DecidableEq α] (l : List α) (a : α) :
    a ∈ dedupFirst l ↔ a ∈ l := by
  rw [dedupFirst, mem_firstByKey_id]
  simp

theorem nodup_firstByKey_id {α : Type} [DecidableEq α] :
    ∀ (l : List α) (seen : List α), (firstByKey id seen l).Nodup := by
  intro l
  induction l with
  | nil => intro seen; simp [firstByKey]
  | cons b l ih =>
    intro seen
    by_cases hb : b ∈ seen
    · rw [show firstByKey id seen (b :: l) = firstByKey id seen l from by
        simp [firstByKey, hb]]
      exact ih seen
    · rw [show firstByKey id seen (b :: l) = b :: firstByKey id (b :: seen) l from by
        simp [firstByKey, hb]]
      refine List.nodup_cons.mpr ⟨?_, ih _⟩
      intro hx
      exact ((mem_firstByKey_id l (b :: seen) b).mp hx).2 (List.mem_cons_self _ _)

theorem nodup_dedupFirst {α : Type} [DecidableEq α] (l : List α) :
    (dedupFirst l).Nodup :=
  nodup_firstByKey_id l []

theorem mem_sortedSet (l : List String) (a : String) :
    a ∈ sortedSet l ↔ a ∈ l := by
  rw [sortedSet, List.mem_insertionSort, mem_dedupFirst]

theorem nodup_sortedSet (l : List String) : (sortedSet l).Nodup :=
  ((List.perm_insertionSort _ _).nodup_iff).mpr (nodup_dedupFirst l)

theorem sorted_sortedSet (l : List String) : List.Sorted strLe (sortedSet l) :=
  List.sorted_insertionSort _ _

/-- `sorted(list(set(l)))` depends only on the set of elements of `l`. -/
theorem sortedSet_eq_of_mem_iff {l₁ l₂ : List String}
    (h : ∀ a, a ∈ l₁ ↔ a ∈ l₂) : sortedSet l₁ = sortedSet l₂ := by
  have hperm : List.Perm (sortedSet l₁) (sortedSet l₂) := by
    rw [List.perm_iff_count]
    intro a
    rw [List.count_eq_of_nodup (nodup_sortedSet l₁),
      List.count_eq_of_nodup (nodup_sortedSet l₂)]
    by_cases hm : a ∈ l₁
    · rw [if_pos ((mem_sortedSet l₁ a).mpr hm),
        if_pos ((mem_sortedSet l₂ a).mpr ((h a).mp hm))]
    · rw [if_neg (fun hx => hm ((mem_sortedSet l₁ a).mp hx)),
        if_neg (fun hx => hm ((h a).mpr ((mem_sortedSet l₂ a).mp hx)))]
  exact List.eq_of_perm_of_sorted hperm (sorted_sortedSet l₁) (sorted_sortedSet l₂)

/-- Re-adding a file to an already canonicalized provenance list is a
no-op. -/
theorem sortedSet_cons_idem (f : String) (s : List String) :
    sortedSet (f :: sortedSet (f :: s)) = sortedSet (f :: s) := by
  refine sortedSet_eq_of_mem_iff ?_
  intro a
  simp [mem_sortedSet]

theorem sortedSet_singleton (f : String) : sortedSet [f] = [f] := by
  have h1 : dedupFirst [f] = [f] := by
    simp [dedupFirst, firstByKey]
  simp [sortedSet, h1, List.insertionSort, List.orderedInsert]

theorem sortedSet_cons_self (f : String) : sortedSet (f :: [f]) = [f] := by
  rw [@sortedSet_eq_of_mem_iff (f :: [f]) [f] (by intro a; simp), sortedSet_singleton]

theorem dedupFirst_eq_self {α : Type} [DecidableEq α] :
    ∀ (l : List α), l.Nodup → dedupFirst l = l := by
  have haux : ∀ (l : List α) (seen : List α), l.Nodup →
      (∀ a ∈ l, a ∉ seen) → firstByKey id seen l = l := by
    intro l
    induction l with
    | nil => intro seen _ _; rfl
    | cons b l ih =>
      intro seen hnd hdis
      have hb : (id b) ∉ seen := hdis b (List.mem_cons_self _ _)
      rw [firstByKey, if_neg hb]
      refine congrArg _ (ih _ (List.nodup_cons.mp hnd).2 ?_)
      intro a ha
      intro hx
      rcases List.mem_cons.mp hx with rfl | hx
      · exact (List.nodup_cons.mp hnd).1 ha
      · exact hdis a (List.mem_cons_of_mem _ ha) hx
  intro l h
  exact haux l [] h (by simp)

theorem length_sortedSet_of_nodup {l : List String} (h : l.Nodup) :
    (sortedSet l).length = l.length := by
  rw [sortedSet, List.length_insertionSort, dedupFirst_eq_self l h]


theorem replayU_eq_foldUpd {α : Type} (k : String) (ops : List (UOp α)) (a : α) :
    replayU k ops a = foldUpd (opsFor k ops) a := rfl

theorem foldUpd_proj {α β : Type} (g : α → β) :
    ∀ (l : List (UOp α)), (∀ o ∈ l, ∀ a, g (o.upd a) = g a) →
      ∀ a, g (foldUpd l a) = g a := by
  intro l
  induction l with
  | nil => intro _ a; rfl
  | cons o rest ih =>
    intro h a
    have : foldUpd (o :: rest) a = foldUpd rest (o.upd a) := rfl
    rw [this, ih (fun o' ho' => h o' (List.mem_cons_of_mem _ ho')),
      h o (List.mem_cons_self o rest) a]


theorem itemOpsOf_spec (fname : String) (rows : List XRow) :
    ∀ o ∈ itemOpsOf fname rows, ItemOp fname o := by
  intro o ho
  simp only [itemOpsOf, List.mem_flatMap, List.mem_map] at ho
  obtain ⟨b, _, r, _, rfl⟩ := ho
  exact ⟨zfill b 6, r, rfl, rfl, rfl⟩

theorem itemOp_upd_id (fname : String) {o : UOp Item} (h : ItemOp fname o) :
    ∀ a, (o.upd a).id = a.id := by
  obtain ⟨s6, r, hu, _, _⟩ := h
  intro a; rw [hu]; rfl

theorem itemOp_fresh_key (fname : String) {o : UOp Item} (h : ItemOp fname o) :
    o.fresh.id = o.key := by
  obtain ⟨s6, r, _, hf, hk⟩ := h
  rw [hf, hk]; rfl

theorem itemOp_upd_preserves (fname : String) {o : UOp Item} (h : ItemOp fname o) :
    ∀ a : Item, (o.upd a).id = a.id ∧ (o.upd a).style = a.style ∧
      (o.upd a).color = a.color ∧ (o.upd a).status = a.status ∧
      (o.upd a).row_id = a.row_id := by
  obtain ⟨s6, r, hu, _, _⟩ := h
  intro a; rw [hu]; exact ⟨rfl, rfl, rfl, rfl, rfl⟩

/-- The image field written by a fold of item updates depends only on the
incoming image field. -/
theorem foldUpd_img_congr (fname : String) :
    ∀ (l : List (UOp Item)), (∀ o ∈ l, ItemOp fname o) →
      ∀ a b : Item, a.image_url = b.image_url →
        (foldUpd l a).image_url = (foldUpd l b).image_url := by
  intro l
  induction l with
  | nil => intro _ a b h; exact h
  | cons o rest ih =>
    intro hl a b h
    obtain ⟨s6, r, hu, _, _⟩ := hl o (List.mem_cons_self o rest)
    have ha : foldUpd (o :: rest) a = foldUpd rest (o.upd a) := rfl
    have hb : foldUpd (o :: rest) b = foldUpd rest (o.upd b) := rfl
    rw [ha, hb]
    refine ih (fun o' ho' => hl o' (List.mem_cons_of_mem _ ho')) _ _ ?_
    rw [hu]
    show orO r.image a.image_url = orO r.image b.image_url
    rw [h]

/-- A fold of item updates either leaves the image alone or fixes it
independently of the incoming row. -/
theorem foldUpd_img_or (fname : String) :
    ∀ (l : List (UOp Item)), (∀ o ∈ l, ItemOp fname o) →
      ∀ a : Item, (foldUpd l a).image_url = a.image_url ∨
        (∀ b : Item, (foldUpd l b).image_url = (foldUpd l a).image_url) := by
  intro l
  induction l with
  | nil => intro _ a; exact Or.inl rfl
  | cons o rest ih =>
    intro hl a
    have hl' : ∀ o' ∈ rest, ItemOp fname o' :=
      fun o' ho' => hl o' (List.mem_cons_of_mem _ ho')
    obtain ⟨s6, r, hu, _, _⟩ := hl o (List.mem_cons_self o rest)
    have ha : foldUpd (o :: rest) a = foldUpd rest (o.upd a) := rfl
    cases hr : r.image with
    | none =>
      have himg : (o.upd a).image_url = a.image_url := by
        rw [hu]; show orO r.image a.image_url = a.image_url; rw [hr]; rfl
      rcases ih hl' (o.upd a) with hleft | hright
      · exact Or.inl (by rw [ha, hleft, himg])
      · refine Or.inr ?_
        intro b
        have hb : foldUpd (o :: rest) b = foldUpd rest (o.upd b) := rfl
        rw [hb, ha]
        exact hright (o.upd b)
    | some u =>
      refine Or.inr ?_
      intro b
      have hb : foldUpd (o :: rest) b = foldUpd rest (o.upd b) := rfl
      rw [hb, ha]
      refine foldUpd_img_congr fname rest hl' _ _ ?_
      rw [hu]
      show orO r.image b.image_url = orO r.image a.image_url
      rw [hr]
      rfl

/-- A fold of item updates either leaves the provenance list alone or
canonicalizes it to the sorted set extended with the snapshot. -/
theorem foldUpd_src_or (fname : String) :
    ∀ (l : List (UOp Item)), (∀ o ∈ l, ItemOp fname o) →
      ∀ a : Item, (foldUpd l a).source_files = a.source_files ∨
        (foldUpd l a).source_files = sortedSet (fname :: a.source_files) := by
  intro l
  induction l with
  | nil => intro _ a; exact Or.inl rfl
  | cons o rest ih =>
    intro hl a
    have hl' : ∀ o' ∈ rest, ItemOp fname o' :=
      fun o' ho' => hl o' (List.mem_cons_of_mem _ ho')
    obtain ⟨s6, r, hu, _, _⟩ := hl o (List.mem_cons_self o rest)
    have ha : foldUpd (o :: rest) a = foldUpd rest (o.upd a) := rfl
    have hsrc : (o.upd a).source_files = sortedSet (fname :: a.source_files) := by
      rw [hu]; rfl
    rcases ih hl' (o.upd a) with h | h
    · exact Or.inr (by rw [ha, h, hsrc])
    · refine Or.inr ?_
      rw [ha, h, hsrc, sortedSet_cons_idem]

theorem orO_self {α : Type} (x : Option α) : orO x x = x := by
  cases x <;> rfl

theorem updExisting_congr (fname : String) (r : XRow) {A B : Item}
    (hid : A.id = B.id) (hsty : A.style = B.style) (hcol : A.color = B.color)
    (hst : A.status = B.status) (hrow : A.row_id = B.row_id)
    (him : orO r.image A.image_url = orO r.image B.image_url)
    (hsrc : sortedSet (fname :: A.source_files) = sortedSet (fname :: B.source_files)) :
    updExisting fname r A = updExisting fname r B := by
  cases A; cases B
  simp [updExisting, Item.mk.injEq, hid, hsty, hcol, hst, hrow, him, hsrc] at *
  exact ⟨hid, hsty, hcol, hst, hrow⟩

theorem updExisting_newItem (fname s6 : String) (r : XRow) :
    updExisting fname r (newItem fname s6 r) = newItem fname s6 r := by
  simp [updExisting, newItem, Item.mk.injEq, orO_self, sortedSet_cons_self]

theorem foldUpd_append {α : Type} (L : List (UOp α)) (o : UOp α) (a : α) :
    foldUpd (L ++ [o]) a = o.upd (foldUpd L a) := by
  simp [foldUpd, List.foldl_append]

/-- Replaying the same item updates a second time onto an already replayed
Variant changes nothing. -/
theorem foldUpd_idem (fname : String) (l : List (UOp Item))
    (hl : ∀ o ∈ l, ItemOp fname o) (v : Item) :
    foldUpd l (foldUpd l v) = foldUpd l v := by
  rcases List.eq_nil_or_concat l with rfl | ⟨L, o, rfl⟩
  · rfl
  · rw [List.concat_eq_append] at hl ⊢
    have hL : ∀ o' ∈ L, ItemOp fname o' :=
      fun o' ho' => hl o' (List.mem_append_left _ ho')
    obtain ⟨s6, r, hu, _, _⟩ := hl o (List.mem_append_right _ (List.mem_cons_self o []))
    simp only [foldUpd_append]
    rw [hu]
    set Y := foldUpd L v with hY
    set X := updExisting fname r Y with hX
    have hproj : ∀ g : Item → String, (∀ it : Item, g (updExisting fname r it) = g it) →
        (∀ o' ∈ L, ∀ it : Item, g (o'.upd it) = g it) → g (foldUpd L X) = g Y := by
      intro g hg hLg
      rw [foldUpd_proj g L hLg, hX, hg]
    refine updExisting_congr fname r ?_ ?_ ?_ ?_ ?_ ?_ ?_
    · refine hproj (·.id) (fun _ => rfl) ?_
      intro o' ho' it
      exact (itemOp_upd_preserves fname (hL o' ho') it).1
    · refine hproj (·.style) (fun _ => rfl) ?_
      intro o' ho' it
      exact (itemOp_upd_preserves fname (hL o' ho') it).2.1
    · refine hproj (·.color) (fun _ => rfl) ?_
      intro o' ho' it
      exact (itemOp_upd_preserves fname (hL o' ho') it).2.2.1
    · refine hproj (·.status) (fun _ => rfl) ?_
      intro o' ho' it
      exact (itemOp_upd_preserves fname (hL o' ho') it).2.2.2.1
    · have h1 : (foldUpd L X).row_id = X.row_id := by
        refine foldUpd_proj (·.row_id) L ?_ X
        intro o' ho' it
        exact (itemOp_upd_preserves fname (hL o' ho') it).2.2.2.2
      rw [h1, hX]; rfl
    · cases hr : r.image with
      | some u => rfl
      | none =>
        have hXimg : X.image_url = Y.image_url := by
          rw [hX]
          show orO r.image Y.image_url = Y.image_url
          rw [hr]; rfl
        have : (foldUpd L X).image_url = Y.image_url := by
          rcases foldUpd_img_or fname L hL v with h | h
          · rcases foldUpd_img_or fname L hL X with h2 | h2
            · rw [h2, hXimg]
            · rw [← h2 v]
          · rw [h X]
        rw [this]
    · have hXsrc : X.source_files = sortedSet (fname :: Y.source_files) := by
        rw [hX]; rfl
      rcases foldUpd_src_or fname L hL X with h | h
      · rw [h, hXsrc, sortedSet_cons_idem]
      · rw [h, hXsrc, sortedSet_cons_idem, sortedSet_cons_idem]

/-- Replaying the item updates of a key onto the Variant the key's first
op freshly created (already replayed once) changes nothing. -/
theorem foldUpd_new_idem (fname s6 : String) (r₀ : XRow) (l : List (UOp Item))
    (hl : ∀ o ∈ l, ItemOp fname o) :
    foldUpd l (updExisting fname r₀ (foldUpd l (newItem fname s6 r₀)))
      = foldUpd l (newItem fname s6 r₀) := by
  rcases List.eq_nil_or_concat l with rfl | ⟨L, o, rfl⟩
  · exact updExisting_newItem fname s6 r₀
  · rw [List.concat_eq_append] at hl ⊢
    have hL : ∀ o' ∈ L, ItemOp fname o' :=
      fun o' ho' => hl o' (List.mem_append_left _ ho')
    obtain ⟨s6', r, hu, _, _⟩ := hl o (List.mem_append_right _ (List.mem_cons_self o []))
    simp only [foldUpd_append]
    rw [hu]
    set N := newItem fname s6 r₀ with hN
    set B := foldUpd L N with hB
    set W := updExisting fname r₀ (updExisting fname r B) with hW
    have hBsrc : B.source_files = [fname] := by
      rcases foldUpd_src_or fname L hL N with h | h
      · rw [hB, h, hN]; rfl
      · rw [hB, h]
        have hsN : N.source_files = [fname] := by rw [hN]; rfl
        rw [hsN, sortedSet_cons_self]
    have hWsrc : W.source_files = [fname] := by
      rw [hW]
      show sortedSet (fname :: (updExisting fname r B).source_files) = [fname]
      have : (updExisting fname r B).source_files
          = sortedSet (fname :: B.source_files) := rfl
      rw [this, sortedSet_cons_idem, hBsrc, sortedSet_cons_self]
    have hproj : ∀ g : Item → String, (∀ r' : XRow, ∀ it : Item,
          g (updExisting fname r' it) = g it) →
        (∀ o' ∈ L, ∀ it : Item, g (o'.upd it) = g it) → g (foldUpd L W) = g B := by
      intro g hg hLg
      rw [foldUpd_proj g L hLg, hW, hg, hg, hB, foldUpd_proj g L hLg]
    refine updExisting_congr fname r ?_ ?_ ?_ ?_ ?_ ?_ ?_
    · refine hproj (·.id) (fun _ _ => rfl) ?_
      intro o' ho' it
      exact (itemOp_upd_preserves fname (hL o' ho') it).1
    · refine hproj (·.style) (fun _ _ => rfl) ?_
      intro o' ho' it
      exact (itemOp_upd_preserves fname (hL o' ho') it).2.1
    · refine hproj (·.color) (fun _ _ => rfl) ?_
      intro o' ho' it
      exact (itemOp_upd_preserves fname (hL o' ho') it).2.2.1
    · refine hproj (·.status) (fun _ _ => rfl) ?_
      intro o' ho' it
      exact (itemOp_upd_preserves fname (hL o' ho') it).2.2.2.1
    · have h1 : (foldUpd L W).row_id = W.row_id := by
        refine foldUpd_proj (·.row_id) L ?_ W
        intro o' ho' it
        exact (itemOp_upd_preserves fname (hL o' ho') it).2.2.2.2
      have h2 : (foldUpd L B).row_id = B.row_id := by
        refine foldUpd_proj (·.row_id) L ?_ B
        intro o' ho' it
        exact (itemOp_upd_preserves fname (hL o' ho') it).2.2.2.2
      rw [h1, hW]
      show (updExisting fname r B).row_id = B.row_id
      rfl
    · cases hr : r.image with
      | some u => rfl
      | none =>
        have hWimg : W.image_url = orO r₀.image B.image_url := by
          rw [hW]
          show orO r₀.image (orO r.image B.image_url) = orO r₀.image B.image_url
          rw [hr]; rfl
        rcases foldUpd_img_or fname L hL N with h | h
        · have hBimg : B.image_url = r₀.image := by
            rw [hB, h, hN]; rfl
          have hWimg2 : W.image_url = N.image_url := by
            rw [hWimg, hBimg, orO_self, hN]; rfl
          have := foldUpd_img_congr fname L hL W N hWimg2
          rw [this, ← hB, hBimg]
        · rw [h W, ← hB]
    · have hA : (foldUpd L W).source_files = [fname] := by
        rcases foldUpd_src_or fname L hL W with h | h
        · rw [h, hWsrc]
        · rw [h, hWsrc, sortedSet_cons_self]
      rw [hA, hBsrc]


theorem summOpsOf_spec (fname : String) (rows : List XRow) :
    ∀ o ∈ summOpsOf fname rows, SummOp fname o := by
  intro o ho
  simp only [summOpsOf, List.mem_map] at ho
  obtain ⟨b, _, rfl⟩ := ho
  exact ⟨zfill b 6, styleDataFor rows b, rfl, rfl, rfl, rfl,
    nodup_dedupFirst _⟩

theorem summOp_upd_preserves (fname : String) {o : UOp StyleSummary}
    (h : SummOp fname o) :
    ∀ s : StyleSummary, (o.upd s).style = s.style ∧ (o.upd s).division = s.division ∧
      (o.upd s).outsole = s.outsole ∧ (o.upd s).gender = s.gender := by
  obtain ⟨s6, sd, hu, _, _⟩ := h
  intro s; rw [hu]; exact ⟨rfl, rfl, rfl, rfl⟩

theorem summOp_fresh_key (fname : String) {o : UOp StyleSummary} (h : SummOp fname o) :
    o.fresh.style = o.key := by
  obtain ⟨s6, sd, _, hf, hk, _⟩ := h
  rw [hf, hk]; rfl

/-- A fold of summary updates either leaves the provenance alone or
canonicalizes it with the snapshot added. -/
theorem foldS_src_or (fname : String) :
    ∀ (l : List (UOp StyleSummary)), (∀ o ∈ l, SummOp fname o) →
      ∀ s : StyleSummary, (foldUpd l s).source_files = s.source_files ∨
        (foldUpd l s).source_files = sortedSet (fname :: s.source_files) := by
  intro l
  induction l with
  | nil => intro _ s; exact Or.inl rfl
  | cons o rest ih =>
    intro hl s
    have hl' : ∀ o' ∈ rest, SummOp fname o' :=
      fun o' ho' => hl o' (List.mem_cons_of_mem _ ho')
    obtain ⟨s6, sd, hu, _, _⟩ := hl o (List.mem_cons_self o rest)
    have ha : foldUpd (o :: rest) s = foldUpd rest (o.upd s) := rfl
    have hsrc : (o.upd s).source_files = sortedSet (fname :: s.source_files) := by
      rw [hu]; rfl
    rcases ih hl' (o.upd s) with h | h
    · exact Or.inr (by rw [ha, h, hsrc])
    · exact Or.inr (by rw [ha, h, hsrc, sortedSet_cons_idem])


theorem foldS_colors_mem (fname : String) :
    ∀ (l : List (UOp StyleSummary)), (∀ o ∈ l, SummOp fname o) →
      ∀ (s : StyleSummary) (x : String),
        x ∈ (foldUpd l s).all_colors ↔
          x ∈ s.all_colors ∨ opsHaveColor fname l x := by
  intro l
  induction l with
  | nil =>
    intro _ s x
    simp [foldUpd, opsHaveColor]
  | cons o rest ih =>
    intro hl s x
    have hl' : ∀ o' ∈ rest, SummOp fname o' :=
      fun o' ho' => hl o' (List.mem_cons_of_mem _ ho')
    obtain ⟨s6, sd, hu, _, _⟩ := hl o (List.mem_cons_self o rest)
    have ha : foldUpd (o :: rest) s = foldUpd rest (o.upd s) := rfl
    have hupd : (o.upd s).all_colors = sortedSet (s.all_colors ++ sd.colors) := by
      rw [hu]; rfl
    rw [ha, ih hl' (o.upd s) x, hupd]
    constructor
    · rintro (hmem | hP)
      · rw [mem_sortedSet, List.mem_append] at hmem
        rcases hmem with h | h
        · exact Or.inl h
        · exact Or.inr ⟨o, List.mem_cons_self o rest, sd, hu, h⟩
      · obtain ⟨o', ho', sd', hu', hx⟩ := hP
        exact Or.inr ⟨o', List.mem_cons_of_mem _ ho', sd', hu', hx⟩
    · rintro (hmem | hP)
      · exact Or.inl (by rw [mem_sortedSet, List.mem_append]; exact Or.inl hmem)
      · obtain ⟨o', ho', sd', hu', hx⟩ := hP
        rcases List.mem_cons.mp ho' with rfl | ho'
        · refine Or.inl ?_
          rw [mem_sortedSet, List.mem_append]
          refine Or.inr ?_
          have hequ : updSummary fname sd = updSummary fname sd' := by rw [← hu, ← hu']
          have hcolors : sortedSet sd.colors = sortedSet sd'.colors := by
            have h2 := congrArg
              (fun u => (u (⟨"", [], "", "", "", [], 0⟩ : StyleSummary)).all_colors) hequ
            simpa [updSummary] using h2
          have hx2 : x ∈ sortedSet sd.colors := by
            rw [hcolors, mem_sortedSet]; exact hx
          rw [mem_sortedSet] at hx2
          exact hx2
        · exact Or.inr ⟨o', ho', sd', hu', hx⟩

theorem length_eq_of_nodup_mem_iff {l₁ l₂ : List String}
    (h₁ : l₁.Nodup) (h₂ : l₂.Nodup) (h : ∀ a, a ∈ l₁ ↔ a ∈ l₂) :
    l₁.length = l₂.length := by
  have hperm : List.Perm l₁ l₂ := by
    rw [List.perm_iff_count]
    intro a
    rw [List.count_eq_of_nodup h₁, List.count_eq_of_nodup h₂]
    by_cases hm : a ∈ l₁
    · rw [if_pos hm, if_pos ((h a).mp hm)]
    · rw [if_neg hm, if_neg (fun hx => hm ((h a).mpr hx))]
  exact hperm.length_eq

theorem updSummary_colors_iff {fname : String} {sd sd' : StyleData}
    (hequ : updSummary fname sd = updSummary fname sd') :
    ∀ x, x ∈ sd.colors ↔ x ∈ sd'.colors := by
  intro x
  have h2 := congrArg
    (fun u => (u (⟨"", [], "", "", "", [], 0⟩ : StyleSummary)).all_colors) hequ
  simp only [updSummary] at h2
  have h3 : sortedSet sd.colors = sortedSet sd'.colors := by simpa using h2
  constructor
  · intro hx
    have := (mem_sortedSet sd.colors x).mpr hx
    rw [h3, mem_sortedSet] at this; exact this
  · intro hx
    have := (mem_sortedSet sd'.colors x).mpr hx
    rw [← h3, mem_sortedSet] at this; exact this

/-- A nonempty fold of summary updates canonicalizes the provenance. -/
theorem foldS_src_eq (fname : String) (l : List (UOp StyleSummary))
    (hl : ∀ o ∈ l, SummOp fname o) (hne : l ≠ []) (s : StyleSummary) :
    (foldUpd l s).source_files = sortedSet (fname :: s.source_files) := by
  cases l with
  | nil => exact absurd rfl hne
  | cons o rest =>
    have hl' : ∀ o' ∈ rest, SummOp fname o' :=
      fun o' ho' => hl o' (List.mem_cons_of_mem _ ho')
    obtain ⟨s6, sd, hu, _, _⟩ := hl o (List.mem_cons_self o rest)
    have ha : foldUpd (o :: rest) s = foldUpd rest (o.upd s) := rfl
    have hsrc : (o.upd s).source_files = sortedSet (fname :: s.source_files) := by
      rw [hu]; rfl
    rcases foldS_src_or fname rest hl' (o.upd s) with h | h
    · rw [ha, h, hsrc]
    · rw [ha, h, hsrc, sortedSet_cons_idem]

/-- A nonempty fold of item updates canonicalizes the provenance. -/
theorem foldI_src_eq (fname : String) (l : List (UOp Item))
    (hl : ∀ o ∈ l, ItemOp fname o) (hne : l ≠ []) (v : Item) :
    (foldUpd l v).source_files = sortedSet (fname :: v.source_files) := by
  cases l with
  | nil => exact absurd rfl hne
  | cons o rest =>
    have hl' : ∀ o' ∈ rest, ItemOp fname o' :=
      fun o' ho' => hl o' (List.mem_cons_of_mem _ ho')
    obtain ⟨s6, r, hu, _, _⟩ := hl o (List.mem_cons_self o rest)
    have ha : foldUpd (o :: rest) v = foldUpd rest (o.upd v) := rfl
    have hsrc : (o.upd v).source_files = sortedSet (fname :: v.source_files) := by
      rw [hu]; rfl
    rcases foldUpd_src_or fname rest hl' (o.upd v) with h | h
    · rw [ha, h, hsrc]
    · rw [ha, h, hsrc, sortedSet_cons_idem]

/-- After a nonempty fold of summary updates, `color_count` is the length
of the color list, and the color list has no duplicates. -/
theorem foldS_count_nodup (fname : String) (l : List (UOp StyleSummary))
    (hl : ∀ o ∈ l, SummOp fname o) (hne : l ≠ []) (s : StyleSummary) :
    (foldUpd l s).color_count = (foldUpd l s).all_colors.length ∧
      (foldUpd l s).all_colors.Nodup := by
  rcases List.eq_nil_or_concat l with rfl | ⟨L, o, rfl⟩
  · exact absurd rfl hne
  · rw [List.concat_eq_append] at hl ⊢
    obtain ⟨s6, sd, hu, _, _⟩ := hl o (List.mem_append_right _ (List.mem_cons_self o []))
    rw [foldUpd_append, hu]
    exact ⟨rfl, nodup_sortedSet _⟩

/-- Every op key is present among the keys after the upserts run. -/
theorem opKey_mem_applyUs {α : Type} (keyf : α → String) (ops : List (UOp α))
    (hupd : ∀ o ∈ ops, ∀ a, keyf (o.upd a) = keyf a)
    (hfresh : ∀ o ∈ ops, keyf o.fresh = o.key) (l : List α) :
    ∀ o ∈ ops, o.key ∈ (applyUs keyf ops l).map keyf := by
  intro o ho
  rw [applyUs_eq keyf ops hupd hfresh l, List.map_append]
  by_cases hm : o.key ∈ l.map keyf
  · refine List.mem_append_left _ ?_
    rw [List.map_map]
    have : (fun a => keyf (replayU (keyf a) ops a)) = keyf := by
      funext a
      exact replayU_proj keyf (keyf a) ops hupd a
    rw [show keyf ∘ (fun a => replayU (keyf a) ops a)
        = (fun a => keyf (replayU (keyf a) ops a)) from rfl, this]
    exact hm
  · exact List.mem_append_right _
      (key_mem_createdU keyf ops (l.map keyf) o.key hupd hfresh
        (List.mem_map_of_mem _ ho) hm)

theorem opsFor_append {α : Type} (k : String) (x y : List (UOp α)) :
    opsFor k (x ++ y) = opsFor k x ++ opsFor k y := by
  simp [opsFor, List.filter_append]

/-- Re-running the item upserts of the same parsed snapshot leaves the
Item table unchanged. -/
theorem merge_items_idem (c : Catalog) (rows : List XRow) (fname : String) :
    (mergeSnapshot (mergeSnapshot c rows fname) rows fname).items
      = (mergeSnapshot c rows fname).items := by
  have hspec : ∀ o ∈ itemOpsOf fname rows, ItemOp fname o := itemOpsOf_spec fname rows
  have hupd : ∀ o ∈ itemOpsOf fname rows, ∀ a : Item, (o.upd a).id = a.id :=
    fun o ho a => (itemOp_upd_preserves fname (hspec o ho) a).1
  have hfresh : ∀ o ∈ itemOpsOf fname rows, o.fresh.id = o.key :=
    fun o ho => itemOp_fresh_key fname (hspec o ho)
  have h2 : (mergeSnapshot (mergeSnapshot c rows fname) rows fname).items
      = applyUs (·.id) (itemOpsOf fname rows)
          ((mergeSnapshot c rows fname).items) := rfl
  rw [h2]
  rw [applyUs_eq (·.id) (itemOpsOf fname rows) hupd hfresh
    ((mergeSnapshot c rows fname).items)]
  have hcreated : createdU (itemOpsOf fname rows)
      (((mergeSnapshot c rows fname).items).map (·.id)) = [] := by
    refine createdU_eq_nil _ _ ?_
    intro o ho
    exact opKey_mem_applyUs (·.id) (itemOpsOf fname rows) hupd hfresh c.items o ho
  rw [hcreated, List.append_nil]
  have hfix : ∀ a ∈ (mergeSnapshot c rows fname).items,
      replayU a.id (itemOpsOf fname rows) a = a := by
    intro a ha
    have hmem : a ∈ c.items.map (fun x => replayU x.id (itemOpsOf fname rows) x)
          ++ createdU (itemOpsOf fname rows) (c.items.map (·.id)) := by
      have : (mergeSnapshot c rows fname).items
          = applyUs (·.id) (itemOpsOf fname rows) c.items := rfl
      rw [this, applyUs_eq (·.id) (itemOpsOf fname rows) hupd hfresh c.items] at ha
      exact ha
    rcases List.mem_append.mp hmem with hmap | hcre
    · obtain ⟨a₀, ha₀, rfl⟩ := List.mem_map.mp hmap
      have hid : (replayU a₀.id (itemOpsOf fname rows) a₀).id = a₀.id :=
        replayU_proj (·.id) a₀.id (itemOpsOf fname rows) hupd a₀
      rw [hid, replayU_eq_foldUpd, replayU_eq_foldUpd]
      exact foldUpd_idem fname (opsFor a₀.id (itemOpsOf fname rows))
        (fun o ho => hspec o (List.mem_of_mem_filter ho)) a₀
    · obtain ⟨ops₁, o, ops₂, hdec, ha', hfor1, _⟩ :=
        createdU_mem_spec (itemOpsOf fname rows) (c.items.map (·.id)) a hcre
      have ho : o ∈ itemOpsOf fname rows := by
        rw [hdec]; exact List.mem_append_right _ (List.mem_cons_self o ops₂)
      have hsub₂ : ∀ o' ∈ ops₂, o' ∈ itemOpsOf fname rows := by
        intro o' ho'
        rw [hdec]
        exact List.mem_append_right _ (List.mem_cons_of_mem _ ho')
      obtain ⟨s6, r₀, hu, hf, hk⟩ := hspec o ho
      have haid : a.id = o.key := by
        rw [ha']
        rw [replayU_proj (·.id) o.key ops₂ (fun o' ho' => hupd o' (hsub₂ o' ho')) o.fresh]
        exact hfresh o ho
      have hforall : opsFor a.id (itemOpsOf fname rows)
          = o :: opsFor o.key ops₂ := by
        rw [haid, hdec, opsFor_append, hfor1, List.nil_append, opsFor_cons, if_pos rfl]
      rw [replayU_eq_foldUpd, hforall]
      have hstep : foldUpd (o :: opsFor o.key ops₂) a
          = foldUpd (opsFor o.key ops₂) (o.upd a) := rfl
      rw [hstep, hu]
      have ha'' : a = foldUpd (opsFor o.key ops₂) (newItem fname s6 r₀) := by
        rw [ha', replayU_eq_foldUpd, hf]
      rw [ha'']
      exact foldUpd_new_idem fname s6 r₀ (opsFor o.key ops₂)
        (fun o' ho' => hspec o' (hsub₂ o' (List.mem_of_mem_filter ho')))
  calc ((mergeSnapshot c rows fname).items).map
        (fun a => replayU a.id (itemOpsOf fname rows) a)
      = ((mergeSnapshot c rows fname).items).map (fun a => a) :=
        List.map_congr_left hfix
    _ = (mergeSnapshot c rows fname).items := by simp

/-- Re-running the summary upserts of the same parsed snapshot gives, row
by row, the same summary except that its color list can be re-sorted:
membership, length, count, provenance and descriptive fields all agree. -/
theorem merge_summaries_idem (c : Catalog) (rows : List XRow) (fname : String) :
    List.Forall₂ (fun s2 s1 : StyleSummary =>
      s2.style = s1.style ∧ s2.division = s1.division ∧ s2.outsole = s1.outsole ∧
      s2.gender = s1.gender ∧ s2.source_files = s1.source_files ∧
      s2.color_count = s1.color_count ∧
      s2.all_colors.length = s1.all_colors.length ∧
      (∀ x, x ∈ s2.all_colors ↔ x ∈ s1.all_colors))
      (mergeSnapshot (mergeSnapshot c rows fname) rows fname).summaries
      (mergeSnapshot c rows fname).summaries := by
  have hspec : ∀ o ∈ summOpsOf fname rows, SummOp fname o := summOpsOf_spec fname rows
  have hupd : ∀ o ∈ summOpsOf fname rows, ∀ s : StyleSummary, (o.upd s).style = s.style :=
    fun o ho s => (summOp_upd_preserves fname (hspec o ho) s).1
  have hfresh : ∀ o ∈ summOpsOf fname rows, o.fresh.style = o.key :=
    fun o ho => summOp_fresh_key fname (hspec o ho)
  have h2 : (mergeSnapshot (mergeSnapshot c rows fname) rows fname).summaries
      = applyUs (·.style) (summOpsOf fname rows)
          ((mergeSnapshot c rows fname).summaries) := rfl
  rw [h2, applyUs_eq (·.style) (summOpsOf fname rows) hupd hfresh
    ((mergeSnapshot c rows fname).summaries)]
  have hcreated : createdU (summOpsOf fname rows)
      (((mergeSnapshot c rows fname).summaries).map (·.style)) = [] := by
    refine createdU_eq_nil _ _ ?_
    intro o ho
    exact opKey_mem_applyUs (·.style) (summOpsOf fname rows) hupd hfresh
      c.summaries o ho
  rw [hcreated, List.append_nil]
  rw [List.forall₂_map_left_iff]
  rw [List.forall₂_same]
  intro s1 hs1
  by_cases hne : opsFor s1.style (summOpsOf fname rows) = []
  · have : replayU s1.style (summOpsOf fname rows) s1 = s1 := by
      rw [replayU_eq_foldUpd, hne]; rfl
    rw [this]
    exact ⟨rfl, rfl, rfl, rfl, rfl, rfl, rfl, fun x => Iff.rfl⟩
  · set l' := opsFor s1.style (summOpsOf fname rows) with hl'
    have hl'spec : ∀ o ∈ l', SummOp fname o :=
      fun o ho => hspec o (List.mem_of_mem_filter ho)
    have hs2eq : replayU s1.style (summOpsOf fname rows) s1 = foldUpd l' s1 :=
      replayU_eq_foldUpd _ _ _
    rw [hs2eq]
    -- descriptive fields are never touched by summary updates
    have hsty : (foldUpd l' s1).style = s1.style :=
      foldUpd_proj (·.style) l' (fun o ho s => (summOp_upd_preserves fname (hl'spec o ho) s).1) s1
    have hdiv : (foldUpd l' s1).division = s1.division :=
      foldUpd_proj (·.division) l' (fun o ho s => (summOp_upd_preserves fname (hl'spec o ho) s).2.1) s1
    have hout : (foldUpd l' s1).outsole = s1.outsole :=
      foldUpd_proj (·.outsole) l' (fun o ho s => (summOp_upd_preserves fname (hl'spec o ho) s).2.2.1) s1
    have hgen : (foldUpd l' s1).gender = s1.gender :=
      foldUpd_proj (·.gender) l' (fun o ho s => (summOp_upd_preserves fname (hl'spec o ho) s).2.2.2) s1
    -- where the run-1 summary came from
    have hs1mem : s1 ∈ c.summaries.map
          (fun s => replayU s.style (summOpsOf fname rows) s)
        ++ createdU (summOpsOf fname rows) (c.summaries.map (·.style)) := by
      have h1 : (mergeSnapshot c rows fname).summaries
          = applyUs (·.style) (summOpsOf fname rows) c.summaries := rfl
      rw [h1, applyUs_eq (·.style) (summOpsOf fname rows) hupd hfresh c.summaries] at hs1
      exact hs1
    -- facts about the run-1 summary needed for absorption
    have hfacts : sortedSet (fname :: s1.source_files) = s1.source_files ∧
        (s1.color_count = s1.all_colors.length ∧ s1.all_colors.Nodup) ∧
        (∀ x, opsHaveColor fname l' x → x ∈ s1.all_colors) := by
      rcases List.mem_append.mp hs1mem with hmap | hcre
      · obtain ⟨s₀, hs₀, hEq⟩ := List.mem_map.mp hmap
        have hkey : s1.style = s₀.style := by
          rw [← hEq]
          exact replayU_proj (·.style) s₀.style _ hupd s₀
        have hl0 : l' = opsFor s₀.style (summOpsOf fname rows) := by
          rw [hl', hkey]
        have hne0 : opsFor s₀.style (summOpsOf fname rows) ≠ [] := by
          rw [← hl0]; exact hne
        have hs1eq : s1 = foldUpd (opsFor s₀.style (summOpsOf fname rows)) s₀ := by
          rw [← hEq, replayU_eq_foldUpd]
        have hl0spec : ∀ o ∈ opsFor s₀.style (summOpsOf fname rows), SummOp fname o :=
          fun o ho => hspec o (List.mem_of_mem_filter ho)
        refine ⟨?_, ?_, ?_⟩
        · have hsrc : s1.source_files = sortedSet (fname :: s₀.source_files) := by
            rw [hs1eq]; exact foldS_src_eq fname _ hl0spec hne0 s₀
          rw [hsrc, sortedSet_cons_idem]
        · rw [hs1eq]
          exact foldS_count_nodup fname _ hl0spec hne0 s₀
        · intro x hx
          rw [hs1eq, foldS_colors_mem fname _ hl0spec s₀ x]
          right
          rw [hl0] at hx
          exact hx
      · obtain ⟨ops₁, o, ops₂, hdec, hEq, hfor1, _⟩ :=
          createdU_mem_spec _ _ s1 hcre
        have ho : o ∈ summOpsOf fname rows := by
          rw [hdec]; exact List.mem_append_right _ (List.mem_cons_self o ops₂)
        have hsub₂ : ∀ o' ∈ ops₂, o' ∈ summOpsOf fname rows := by
          intro o' ho'; rw [hdec]
          exact List.mem_append_right _ (List.mem_cons_of_mem _ ho')
        obtain ⟨s6, sd, hu, hf, hk, hwfc, hwfn⟩ := hspec o ho
        have hl₂spec : ∀ o' ∈ opsFor o.key ops₂, SummOp fname o' :=
          fun o' ho' => hspec o' (hsub₂ o' (List.mem_of_mem_filter ho'))
        have hsty1 : s1.style = o.key := by
          rw [hEq, replayU_proj (·.style) o.key ops₂
            (fun o' ho' s => hupd o' (hsub₂ o' ho') s) o.fresh]
          exact hfresh o ho
        have hs1eq : s1 = foldUpd (opsFor o.key ops₂) (newSummary fname s6 sd) := by
          rw [hEq, replayU_eq_foldUpd, hf]
        have hl'eq : l' = o :: opsFor o.key ops₂ := by
          rw [hl', hsty1, hdec, opsFor_append, hfor1, List.nil_append,
            opsFor_cons, if_pos rfl]
        have hsrcB : s1.source_files = [fname] := by
          by_cases h2 : opsFor o.key ops₂ = []
          · rw [hs1eq, h2]; rfl
          · rw [hs1eq, foldS_src_eq fname _ hl₂spec h2 _]
            have hns : (newSummary fname s6 sd).source_files = [fname] := rfl
            rw [hns, sortedSet_cons_self]
        refine ⟨?_, ?_, ?_⟩
        · rw [hsrcB, sortedSet_cons_self]
        · by_cases h2 : opsFor o.key ops₂ = []
          · rw [hs1eq, h2]
            exact ⟨hwfc, hwfn⟩
          · rw [hs1eq]
            exact foldS_count_nodup fname _ hl₂spec h2 _
        · intro x hx
          rw [hl'eq] at hx
          obtain ⟨o', ho', sd', hu', hx'⟩ := hx
          rw [hs1eq, foldS_colors_mem fname _ hl₂spec _ x]
          rcases List.mem_cons.mp ho' with rfl | ho'
          · left
            exact (updSummary_colors_iff (by rw [← hu, ← hu']) x).mpr hx'
          · right
            exact ⟨o', ho', sd', hu', hx'⟩
    obtain ⟨hF1, ⟨hF2c, hF2n⟩, hF3⟩ := hfacts
    have hcc := foldS_count_nodup fname l' hl'spec hne s1
    have hmemiff : ∀ x, x ∈ (foldUpd l' s1).all_colors ↔ x ∈ s1.all_colors := by
      intro x
      rw [foldS_colors_mem fname l' hl'spec s1 x]
      constructor
      · rintro (h | h)
        · exact h
        · exact hF3 x h
      · exact Or.inl
    have hlen : (foldUpd l' s1).all_colors.length = s1.all_colors.length :=
      length_eq_of_nodup_mem_iff hcc.2 hF2n hmemiff
    have hsrc2 : (foldUpd l' s1).source_files = s1.source_files := by
      rw [foldS_src_eq fname l' hl'spec hne s1, hF1]
    exact ⟨hsty, hdiv, hout, hgen, hsrc2, by rw [hcc.1, hlen, hF2c], hlen, hmemiff⟩

theorem zip_map_self {α β : Type} (f : α → β) :
    ∀ (l : List α), ∀ p ∈ (l.map f).zip l, p.1 = f p.2 := by
  intro l
  induction l with
  | nil => intro p hp; simp at hp
  | cons a l ih =>
    intro p hp
    rcases List.mem_cons.mp hp with rfl | hp
    · rfl
    · exact ih p hp

theorem catalog_ext {a b : Catalog} (h1 : a.items = b.items)
    (h2 : a.summaries = b.summaries) (h3 : a.fileUploads = b.fileUploads) :
    a = b := by
  cases a; cases b
  simp only [Catalog.mk.injEq]
  exact ⟨h1, h2, h3⟩

theorem dropItem_idem (active : List String) (it : Item) :
    dropItem active (dropItem active it) = dropItem active it := by
  by_cases h : zfill it.style 6 ∈ active
  · simp only [dropItem, if_pos h]
  · have hsty : zfill (dropItem active it).style 6 = zfill it.style 6 := by
      simp only [dropItem, if_neg h]
    simp only [dropItem, if_neg h] at hsty ⊢

/-- **C1** (seasonal drop): the drop touches no summary and no upload
record; every Variant whose zero-padded style is absent from the active
snapshot's base styles comes out with status `'dropped'` and nothing else
changed, every Variant whose zero-padded style is present comes out
completely untouched, and re-running the drop with the same active
snapshot leaves the catalog unchanged. -/
theorem claim_c1_seasonal_drop (c : Catalog) (activeRows : List XRow) :
    (processSeasonalDrop c activeRows).summaries = c.summaries ∧
    (processSeasonalDrop c activeRows).fileUploads = c.fileUploads ∧
    (processSeasonalDrop c activeRows).items.length = c.items.length ∧
    (∀ p ∈ (processSeasonalDrop c activeRows).items.zip c.items,
      (zfill p.2.style 6 ∉ activeStylesOf activeRows →
        p.1 = { p.2 with status := "dropped" }) ∧
      (zfill p.2.style 6 ∈ activeStylesOf activeRows → p.1 = p.2)) ∧
    processSeasonalDrop (processSeasonalDrop c activeRows) activeRows
      = processSeasonalDrop c activeRows := by
  refine ⟨rfl, rfl, by simp [processSeasonalDrop], ?_, ?_⟩
  · intro p hp
    have hp1 := zip_map_self (dropItem (activeStylesOf activeRows)) c.items p hp
    constructor
    · intro hno
      rw [hp1]
      exact if_neg hno
    · intro hyes
      rw [hp1]
      exact if_pos hyes
  · refine catalog_ext ?_ rfl rfl
    show ((c.items.map (dropItem (activeStylesOf activeRows))).map
        (dropItem (activeStylesOf activeRows)))
      = c.items.map (dropItem (activeStylesOf activeRows))
    rw [List.map_map]
    exact List.map_congr_left (fun it _ => dropItem_idem _ it)

theorem claim_c1_seasonal_drop_witness :
    processSeasonalDrop (processSeasonalDrop catW1 [mkRow "99999" "X"]) [mkRow "99999" "X"]
        = processSeasonalDrop catW1 [mkRow "99999" "X"] ∧
    ({ itemW1 with status := "dropped" } : Item)
        = { itemW1 with status := "dropped" } :=
  ⟨(claim_c1_seasonal_drop catW1 [mkRow "99999" "X"]).2.2.2.2,
    ((claim_c1_seasonal_drop catW1 [mkRow "99999" "X"]).2.2.2.1
      ({ itemW1 with status := "dropped" }, itemW1) (by decide)).1 (by decide)⟩

/-- **C7** (normalization and grouping scenario): ingesting a file with
exactly the rows `(10045, BLK)` and `(10045w, BLK)` produces exactly one
Style Summary, with style key `010045`, color list `["BLK", "BLK (w)"]`
in first-seen order, and `color_count` 2. -/
theorem claim_c7_normalization_scenario :
    (mergeSnapshot emptyCatalog [mkRow "10045" "BLK", mkRow "10045w" "BLK"]
        "f.xlsx").summaries
      = [{ style := "010045", all_colors := ["BLK", "BLK (w)"], division := "N/A",
           outsole := "N/A", gender := "N/A", source_files := ["f.xlsx"],
           color_count := 2 }] := by
  decide

theorem planFold_mem (rows : List XRow) :
    ∀ (rws : List Nat) (acc : List (Nat × String) × Nat) (p : Nat × String),
      p ∈ (rws.foldl (planStep rows) acc).1 ↔
        p ∈ acc.1 ∨ (p.1 ∈ rws ∧ anchorFilename rows p.1 = some p.2) := by
  intro rws
  induction rws with
  | nil => intro acc p; simp
  | cons r rws ih =>
    intro acc p
    have hstep : (r :: rws).foldl (planStep rows) acc
        = rws.foldl (planStep rows) (planStep rows acc r) := rfl
    rw [hstep, ih]
    cases hr : anchorFilename rows r with
    | some fn =>
      have h1 : (planStep rows acc r).1 = acc.1 ++ [(r, fn)] := by
        simp [planStep, hr]
      rw [h1]
      constructor
      · rintro (hm | hm)
        · rcases List.mem_append.mp hm with hm | hm
          · exact Or.inl hm
          · have : p = (r, fn) := by simpa using hm
            subst this
            exact Or.inr ⟨List.mem_cons_self _ _, hr⟩
        · exact Or.inr ⟨List.mem_cons_of_mem _ hm.1, hm.2⟩
      · rintro (hm | ⟨hmem, hfn⟩)
        · exact Or.inl (List.mem_append_left _ hm)
        · rcases List.mem_cons.mp hmem with he | hmem
          · refine Or.inl (List.mem_append_right _ ?_)
            have hp2 : p.2 = fn := by
              rw [he, hr] at hfn
              exact (Option.some_inj.mp hfn).symm
            have hpe : p = (r, fn) := Prod.ext he hp2
            rw [hpe]
            exact List.mem_cons_self _ _
          · exact Or.inr ⟨hmem, hfn⟩
    | none =>
      have h1 : (planStep rows acc r).1 = acc.1 := by
        simp [planStep, hr]
      rw [h1]
      constructor
      · rintro (hm | hm)
        · exact Or.inl hm
        · exact Or.inr ⟨List.mem_cons_of_mem _ hm.1, hm.2⟩
      · rintro (hm | ⟨hmem, hfn⟩)
        · exact Or.inl hm
        · rcases List.mem_cons.mp hmem with he | hmem
          · rw [he, hr] at hfn
            exact absurd hfn (by simp)
          · exact Or.inr ⟨hmem, hfn⟩

theorem planFold_skip_mono (rows : List XRow) :
    ∀ (rws : List Nat) (acc : List (Nat × String) × Nat),
      acc.2 ≤ (rws.foldl (planStep rows) acc).2 := by
  intro rws
  induction rws with
  | nil => intro acc; exact Nat.le_refl _
  | cons r rws ih =>
    intro acc
    have hstep : (r :: rws).foldl (planStep rows) acc
        = rws.foldl (planStep rows) (planStep rows acc r) := rfl
    rw [hstep]
    refine Nat.le_trans ?_ (ih (planStep rows acc r))
    cases hr : anchorFilename rows r with
    | some fn => simp [planStep, hr]
    | none => simp [planStep, hr]

theorem planFold_skip_ge (rows : List XRow) :
    ∀ (rws : List Nat) (acc : List (Nat × String) × Nat) (r : Nat),
      r ∈ rws → anchorFilename rows r = none →
      acc.2 + 1 ≤ (rws.foldl (planStep rows) acc).2 := by
  intro rws
  induction rws with
  | nil => intro acc r hr _; exact absurd hr (by simp)
  | cons r₀ rws ih =>
    intro acc r hr hnone
    have hstep : (r₀ :: rws).foldl (planStep rows) acc
        = rws.foldl (planStep rows) (planStep rows acc r₀) := rfl
    rw [hstep]
    rcases List.mem_cons.mp hr with rfl | hr
    · have h2 : (planStep rows acc r).2 = acc.2 + 1 := by
        simp [planStep, hnone]
      refine Nat.le_trans ?_ (planFold_skip_mono rows rws (planStep rows acc r))
      rw [h2]
    · refine Nat.le_trans ?_ (ih (planStep rows acc r₀) r hr hnone)
      cases hr0 : anchorFilename rows r₀ with
      | some fn => simp [planStep, hr0]
      | none => simp [planStep, hr0]

/-- **C8** (image-row alignment): the scenario — a single image anchored
at container row index 5 over `rowsC8x` is written as
`010045_BLK.jpg`, derived from data row 4 and no other, with no skips;
any anchor whose data-row index `r - 1` is out of the data range is never
written and bumps the skip count; and every written `(anchor, filename)`
pair is derived exactly from data row `anchor - 1`. -/
theorem claim_c8_image_alignment :
    extractImagesPlan rowsC8x [5] = ([(5, "010045_BLK.jpg")], 0) ∧
    (∀ (rows : List XRow) (anchors : List Nat), ∀ r ∈ anchors,
      (r = 0 ∨ rows.length ≤ r - 1) →
      (∀ fn, (r, fn) ∉ (extractImagesPlan rows anchors).1) ∧
      1 ≤ (extractImagesPlan rows anchors).2) ∧
    (∀ (rows : List XRow) (anchors : List Nat),
      ∀ p ∈ (extractImagesPlan rows anchors).1,
      ∃ h : 1 ≤ p.1 ∧ p.1 - 1 < rows.length,
        rowImageFilename (rows.get ⟨p.1 - 1, h.2⟩) = some p.2) := by
  refine ⟨by decide, ?_, ?_⟩
  · intro rows anchors r hr hout
    have hnone : anchorFilename rows r = none := by
      have hneg : ¬ (1 ≤ r ∧ r - 1 < rows.length) := by
        rintro ⟨h1, h2⟩
        rcases hout with h0 | h0
        · omega
        · omega
      simp [anchorFilename, hneg]
    constructor
    · intro fn hmem
      have := (planFold_mem rows _ ([], 0) (r, fn)).mp hmem
      rcases this with h | ⟨_, hsome⟩
      · simp at h
      · rw [hnone] at hsome
        exact absurd hsome (by simp)
    · have hr' : r ∈ List.insertionSort (· ≤ ·) (dedupFirst anchors) := by
        rw [List.mem_insertionSort, mem_dedupFirst]
        exact hr
      have := planFold_skip_ge rows _ ([], 0) r hr' hnone
      simpa using this
  · intro rows anchors p hp
    have := (planFold_mem rows _ ([], 0) p).mp hp
    rcases this with h | ⟨_, hsome⟩
    · simp at h
    · by_cases hck : 1 ≤ p.1 ∧ p.1 - 1 < rows.length
      · refine ⟨hck, ?_⟩
        rw [anchorFilename, dif_pos hck] at hsome
        exact hsome
      · rw [anchorFilename, dif_neg hck] at hsome
        exact absurd hsome (by simp)

theorem claim_c8_image_alignment_witness :
    ((∀ fn, ((99 : Nat), fn) ∉ (extractImagesPlan rowsC8x [0, 5, 99]).1) ∧
      1 ≤ (extractImagesPlan rowsC8x [0, 5, 99]).2) :=
  claim_c8_image_alignment.2.1 rowsC8x [0, 5, 99] 99 (by decide) (by decide)

theorem recordUpload_mem (fname : String) (us : List FileUpload) :
    ∃ u ∈ recordUpload fname us, u.filename = fname := by
  unfold recordUpload
  by_cases h : us.any (fun u => decide (u.filename = fname)) = true
  · rw [if_pos h]
    obtain ⟨u, hu, hd⟩ := List.any_eq_true.mp h
    have hf : u.filename = fname := of_decide_eq_true hd
    refine ⟨{ u with status := "processing" }, ?_, hf⟩
    have e : ({ u with status := "processing" } : FileUpload)
        = (fun u => if u.filename = fname then { u with status := "processing" }
            else u) u := by
      show ({ u with status := "processing" } : FileUpload)
          = if u.filename = fname then { u with status := "processing" } else u
      rw [if_pos hf]
    rw [e]
    exact List.mem_map_of_mem _ hu
  · rw [if_neg h]
    exact ⟨⟨fname, "processing"⟩,
      List.mem_append_right _ (List.mem_cons_self _ _), rfl⟩

theorem setUploadStatus_mem (fname status : String) (us : List FileUpload)
    (h : ∃ u ∈ us, u.filename = fname) :
    ∃ u ∈ setUploadStatus fname status us, u.filename = fname ∧ u.status = status := by
  obtain ⟨u, hu, hf⟩ := h
  refine ⟨{ u with status := status }, ?_, hf, rfl⟩
  have e : ({ u with status := status } : FileUpload)
      = (fun u => if u.filename = fname then { u with status := status } else u) u := by
    show ({ u with status := status } : FileUpload)
        = if u.filename = fname then { u with status := status } else u
    rw [if_pos hf]
  rw [e]
  exact List.mem_map_of_mem _ hu

/-- **C9 counterexample**: uploading an Excel file that lacks the `color`
column to the empty catalog does not leave the persistent store
untouched: a Snapshot (FileUpload) record is committed, with status
`'failed'`.  This refutes "no Variant, Style Summary, or Snapshot
(FileUpload) state is committed by the failed ingestion request". -/
theorem claim_c9_missing_column_counterexample :
    (uploadExcel emptyCatalog ⟨true, false, [mkRow "10045" "BLK"]⟩ "a.xlsx").1
      ≠ emptyCatalog ∧
    (uploadExcel emptyCatalog ⟨true, false, [mkRow "10045" "BLK"]⟩
        "a.xlsx").1.fileUploads
      = [{ filename := "a.xlsx", status := "failed" }] := by
  decide

/-- **C9 amended**: a missing required column aborts the ingestion before
any Variant or Style Summary write — both tables are exactly as before
and the request fails — but a Snapshot (FileUpload) record for the file
is committed with status `'failed'`. -/
theorem claim_c9_missing_column_amended (c : Catalog) (sheet : UploadSheet)
    (fname : String)
    (hext : (endsWithStr fname ".xlsx" || endsWithStr fname ".xls") = true)
    (hmiss : ¬ (sheet.hasStyle = true ∧ sheet.hasColor = true)) :
    (uploadExcel c sheet fname).1.items = c.items ∧
    (uploadExcel c sheet fname).1.summaries = c.summaries ∧
    (uploadExcel c sheet fname).2 = false ∧
    ∃ u ∈ (uploadExcel c sheet fname).1.fileUploads,
      u.filename = fname ∧ u.status = "failed" := by
  have h1 : (uploadExcel c sheet fname).1.items = c.items ∧
      (uploadExcel c sheet fname).1.summaries = c.summaries ∧
      (uploadExcel c sheet fname).2 = false ∧
      (uploadExcel c sheet fname).1.fileUploads
        = setUploadStatus fname "failed" (recordUpload fname c.fileUploads) := by
    unfold uploadExcel
    rw [if_pos hext, if_neg hmiss]
    exact ⟨rfl, rfl, rfl, rfl⟩
  refine ⟨h1.1, h1.2.1, h1.2.2.1, ?_⟩
  rw [h1.2.2.2]
  exact setUploadStatus_mem fname "failed" (recordUpload fname c.fileUploads)
    (recordUpload_mem fname c.fileUploads)

theorem claim_c9_missing_column_amended_witness :
    (endsWithStr "a.xlsx" ".xlsx" || endsWithStr "a.xlsx" ".xls") = true ∧
    ¬ ((⟨true, false, [mkRow "10045" "BLK"]⟩ : UploadSheet).hasStyle = true ∧
        (⟨true, false, [mkRow "10045" "BLK"]⟩ : UploadSheet).hasColor = true) ∧
    (uploadExcel emptyCatalog ⟨true, false, [mkRow "10045" "BLK"]⟩ "a.xlsx").1.items
      = emptyCatalog.items :=
  ⟨by decide, by decide,
    (claim_c9_missing_column_amended emptyCatalog ⟨true, false, [mkRow "10045" "BLK"]⟩
      "a.xlsx" (by decide) (by decide)).1⟩

theorem zip_map_append_self {α β : Type} (f : α → β) :
    ∀ (l : List α) (rest : List β), ∀ p ∈ (l.map f ++ rest).zip l, p.1 = f p.2 := by
  intro l
  induction l with
  | nil => intro rest p hp; simp at hp
  | cons a l ih =>
    intro rest p hp
    rcases List.mem_cons.mp hp with rfl | hp
    · rfl
    · exact ih rest p hp

/-- **C10** (merge frame property): a merge keeps every pre-existing
Variant in place and may rewrite only its descriptive fields, image
reference, provenance and timestamp — its id, style, color, lifecycle
status and physical-location reference come out unchanged. -/
theorem claim_c10_merge_frame (c : Catalog) (rows : List XRow) (fname : String) :
    c.items.length ≤ (mergeSnapshot c rows fname).items.length ∧
    ∀ p ∈ (mergeSnapshot c rows fname).items.zip c.items,
      p.1.id = p.2.id ∧ p.1.style = p.2.style ∧ p.1.color = p.2.color ∧
      p.1.status = p.2.status ∧ p.1.row_id = p.2.row_id := by
  have hspec : ∀ o ∈ itemOpsOf fname rows, ItemOp fname o := itemOpsOf_spec fname rows
  have hupd : ∀ o ∈ itemOpsOf fname rows, ∀ a : Item, (o.upd a).id = a.id :=
    fun o ho a => (itemOp_upd_preserves fname (hspec o ho) a).1
  have hfresh : ∀ o ∈ itemOpsOf fname rows, o.fresh.id = o.key :=
    fun o ho => itemOp_fresh_key fname (hspec o ho)
  have hform : (mergeSnapshot c rows fname).items
      = c.items.map (fun a => replayU a.id (itemOpsOf fname rows) a)
        ++ createdU (itemOpsOf fname rows) (c.items.map (·.id)) := by
    have h0 : (mergeSnapshot c rows fname).items
        = applyUs (·.id) (itemOpsOf fname rows) c.items := rfl
    rw [h0]
    exact applyUs_eq (·.id) (itemOpsOf fname rows) hupd hfresh c.items
  constructor
  · rw [hform, List.length_append, List.length_map]
    exact Nat.le_add_right _ _
  · intro p hp
    rw [hform] at hp
    have hp0 := zip_map_append_self (fun a => replayU a.id (itemOpsOf fname rows) a)
      c.items _ p hp
    have hp1 : p.1 = replayU p.2.id (itemOpsOf fname rows) p.2 := hp0
    rw [hp1]
    have hl : ∀ o ∈ opsFor p.2.id (itemOpsOf fname rows), ItemOp fname o :=
      fun o ho => hspec o (List.mem_of_mem_filter ho)
    rw [replayU_eq_foldUpd]
    exact ⟨foldUpd_proj (·.id) _ (fun o ho a => (itemOp_upd_preserves fname (hl o ho) a).1) p.2,
      foldUpd_proj (·.style) _ (fun o ho a => (itemOp_upd_preserves fname (hl o ho) a).2.1) p.2,
      foldUpd_proj (·.color) _ (fun o ho a => (itemOp_upd_preserves fname (hl o ho) a).2.2.1) p.2,
      foldUpd_proj (·.status) _ (fun o ho a => (itemOp_upd_preserves fname (hl o ho) a).2.2.2.1) p.2,
      foldUpd_proj (·.row_id) _ (fun o ho a => (itemOp_upd_preserves fname (hl o ho) a).2.2.2.2) p.2⟩

theorem claim_c10_merge_frame_witness :
    catW1.items.length ≤ (mergeSnapshot catW1 [rowW2] "g.xlsx").items.length ∧
    ∀ p ∈ (mergeSnapshot catW1 [rowW2] "g.xlsx").items.zip catW1.items,
      p.1.status = p.2.status :=
  ⟨(claim_c10_merge_frame catW1 [rowW2] "g.xlsx").1,
    fun p hp => ((claim_c10_merge_frame catW1 [rowW2] "g.xlsx").2 p hp).2.2.2.1⟩

/-- **C6 counterexample**: merging the same snapshot twice is not
identical to merging it once — the summary color list, whose order the
spec fixes as first-seen, is re-sorted by the second merge (`["B", "A"]`
becomes `["A", "B"]`), so the catalogs differ in more than timestamps
(timestamps are not even modelled here). -/
theorem claim_c6_idempotence_counterexample :
    mergeSnapshot (mergeSnapshot emptyCatalog [mkRow "1" "B", mkRow "1" "A"]
        "f.xlsx") [mkRow "1" "B", mkRow "1" "A"] "f.xlsx"
      ≠ mergeSnapshot emptyCatalog [mkRow "1" "B", mkRow "1" "A"] "f.xlsx" ∧
    (mergeSnapshot emptyCatalog [mkRow "1" "B", mkRow "1" "A"]
        "f.xlsx").summaries.map (·.all_colors) = [["B", "A"]] ∧
    (mergeSnapshot (mergeSnapshot emptyCatalog [mkRow "1" "B", mkRow "1" "A"]
        "f.xlsx") [mkRow "1" "B", mkRow "1" "A"] "f.xlsx").summaries.map
        (·.all_colors) = [["A", "B"]] := by
  decide

/-- **C6 amended**: merging the same snapshot twice yields exactly the
same Variants and upload records; each Style Summary keeps its style,
descriptive fields, provenance, `color_count` and color-list length and
membership — the only possible difference is the order of the color list,
which the second merge re-sorts. -/
theorem claim_c6_idempotence_amended (c : Catalog) (rows : List XRow) (fname : String) :
    (mergeSnapshot (mergeSnapshot c rows fname) rows fname).items
      = (mergeSnapshot c rows fname).items ∧
    (mergeSnapshot (mergeSnapshot c rows fname) rows fname).fileUploads
      = (mergeSnapshot c rows fname).fileUploads ∧
    List.Forall₂ (fun s2 s1 : StyleSummary =>
      s2.style = s1.style ∧ s2.division = s1.division ∧ s2.outsole = s1.outsole ∧
      s2.gender = s1.gender ∧ s2.source_files = s1.source_files ∧
      s2.color_count = s1.color_count ∧
      s2.all_colors.length = s1.all_colors.length ∧
      (∀ x, x ∈ s2.all_colors ↔ x ∈ s1.all_colors))
      (mergeSnapshot (mergeSnapshot c rows fname) rows fname).summaries
      (mergeSnapshot c rows fname).summaries :=
  ⟨merge_items_idem c rows fname, rfl, merge_summaries_idem c rows fname⟩

theorem claim_c6_idempotence_amended_witness :
    (mergeSnapshot (mergeSnapshot catW1 [rowW2] "g.xlsx") [rowW2] "g.xlsx").items
      = (mergeSnapshot catW1 [rowW2] "g.xlsx").items :=
  (claim_c6_idempotence_amended catW1 [rowW2] "g.xlsx").1

theorem firstByKey_exists {α β : Type} [DecidableEq β] (key : α → β) :
    ∀ (g : List α) (seen : List β) (a : α), a ∈ g → key a ∉ seen →
      ∃ a' ∈ firstByKey key seen g, key a' = key a := by
  intro g
  induction g with
  | nil => intro seen a ha _; exact absurd ha (by simp)
  | cons b g ih =>
    intro seen a ha hns
    by_cases hb : key b ∈ seen
    · rw [show firstByKey key seen (b :: g) = firstByKey key seen g from by
        simp [firstByKey, hb]]
      rcases List.mem_cons.mp ha with rfl | ha
      · exact absurd hb hns
      · exact ih seen a ha hns
    · rw [show firstByKey key seen (b :: g) = b :: firstByKey key (key b :: seen) g from by
        simp [firstByKey, hb]]
      by_cases hab : key a = key b
      · exact ⟨b, List.mem_cons_self _ _, hab.symm⟩
      · rcases List.mem_cons.mp ha with rfl | ha
        · exact absurd rfl hab
        · obtain ⟨a', ha', he⟩ := ih (key b :: seen) a ha (by
            intro hx
            rcases List.mem_cons.mp hx with h | h
            · exact hab h
            · exact hns h)
          exact ⟨a', List.mem_cons_of_mem _ ha', he⟩

theorem itemOps_key_exists (fname : String) (rows : List XRow) (S C : String)
    (h : ∃ r ∈ rows, extractBaseStyle r.style = S ∧ rowColor r = C) :
    ∃ o ∈ itemOpsOf fname rows, o.key = zfill S 6 ++ "_" ++ C := by
  obtain ⟨r, hr, hS, hC⟩ := h
  have hSmem : S ∈ groupKeysSorted rows := by
    rw [groupKeysSorted, List.mem_insertionSort, mem_dedupFirst]
    exact List.mem_map.mpr ⟨r, hr, hS⟩
  have hrg : r ∈ groupRows rows S := by
    rw [groupRows, List.mem_filter]
    exact ⟨hr, decide_eq_true hS⟩
  obtain ⟨r', hr', hC'⟩ := firstByKey_exists rowColor (groupRows rows S) [] r hrg
    (by simp)
  refine ⟨(⟨zfill S 6 ++ "_" ++ rowColor r', updExisting fname r',
    newItem fname (zfill S 6) r'⟩ : UOp Item), ?_, by rw [hC', hC]⟩
  rw [itemOpsOf, List.mem_flatMap]
  exact ⟨S, hSmem, List.mem_map.mpr ⟨r', hr', rfl⟩⟩

theorem opsFor_ne_nil {α : Type} {ops : List (UOp α)} {k : String}
    (h : ∃ o ∈ ops, o.key = k) : opsFor k ops ≠ [] := by
  obtain ⟨o, ho, hk⟩ := h
  have hmem : o ∈ opsFor k ops := by
    rw [opsFor, List.mem_filter]
    exact ⟨ho, decide_eq_true hk⟩
  intro he
  rw [he] at hmem
  exact absurd hmem (by simp)

/-- **C5** (provenance union on merge): starting from a catalog with no
Variant keyed `{zfill(S,6)}_{C}`, ingesting a snapshot `f1` containing a
row with base style `S` and canonical color `C` and then a snapshot `f2`
also containing such a row leaves exactly that Variant present, and its
provenance is the set `{f1, f2}`. -/
theorem claim_c5_provenance_union (c : Catalog) (rows1 rows2 : List XRow)
    (f1 f2 S C : String)
    (h1 : ∃ r ∈ rows1, extractBaseStyle r.style = S ∧ rowColor r = C)
    (h2 : ∃ r ∈ rows2, extractBaseStyle r.style = S ∧ rowColor r = C)
    (habs : ∀ it ∈ c.items, ¬ it.id = zfill S 6 ++ "_" ++ C) :
    (∃ it ∈ (mergeSnapshot (mergeSnapshot c rows1 f1) rows2 f2).items,
        it.id = zfill S 6 ++ "_" ++ C) ∧
    (∀ it ∈ (mergeSnapshot (mergeSnapshot c rows1 f1) rows2 f2).items,
      it.id = zfill S 6 ++ "_" ++ C →
      ∀ g, g ∈ it.source_files ↔ (g = f1 ∨ g = f2)) := by
  have hspec1 : ∀ o ∈ itemOpsOf f1 rows1, ItemOp f1 o := itemOpsOf_spec f1 rows1
  have hspec2 : ∀ o ∈ itemOpsOf f2 rows2, ItemOp f2 o := itemOpsOf_spec f2 rows2
  have hupd1 : ∀ o ∈ itemOpsOf f1 rows1, ∀ a : Item, (o.upd a).id = a.id :=
    fun o ho a => (itemOp_upd_preserves f1 (hspec1 o ho) a).1
  have hupd2 : ∀ o ∈ itemOpsOf f2 rows2, ∀ a : Item, (o.upd a).id = a.id :=
    fun o ho a => (itemOp_upd_preserves f2 (hspec2 o ho) a).1
  have hfresh1 : ∀ o ∈ itemOpsOf f1 rows1, o.fresh.id = o.key :=
    fun o ho => itemOp_fresh_key f1 (hspec1 o ho)
  have hfresh2 : ∀ o ∈ itemOpsOf f2 rows2, o.fresh.id = o.key :=
    fun o ho => itemOp_fresh_key f2 (hspec2 o ho)
  have hform1 : (mergeSnapshot c rows1 f1).items
      = c.items.map (fun a => replayU a.id (itemOpsOf f1 rows1) a)
        ++ createdU (itemOpsOf f1 rows1) (c.items.map (·.id)) := by
    have h0 : (mergeSnapshot c rows1 f1).items
        = applyUs (·.id) (itemOpsOf f1 rows1) c.items := rfl
    rw [h0]
    exact applyUs_eq (·.id) (itemOpsOf f1 rows1) hupd1 hfresh1 c.items
  have hform2 : (mergeSnapshot (mergeSnapshot c rows1 f1) rows2 f2).items
      = (mergeSnapshot c rows1 f1).items.map
          (fun a => replayU a.id (itemOpsOf f2 rows2) a)
        ++ createdU (itemOpsOf f2 rows2)
            ((mergeSnapshot c rows1 f1).items.map (·.id)) := by
    have h0 : (mergeSnapshot (mergeSnapshot c rows1 f1) rows2 f2).items
        = applyUs (·.id) (itemOpsOf f2 rows2) (mergeSnapshot c rows1 f1).items := rfl
    rw [h0]
    exact applyUs_eq (·.id) (itemOpsOf f2 rows2) hupd2 hfresh2 _
  -- any Variant with the composite id after merge 1 has provenance [f1]
  have hc1 : ∀ it ∈ (mergeSnapshot c rows1 f1).items,
      it.id = zfill S 6 ++ "_" ++ C → it.source_files = [f1] := by
    intro it hit hid
    rw [hform1] at hit
    rcases List.mem_append.mp hit with hmap | hcre
    · obtain ⟨a₀, ha₀, hEq⟩ := List.mem_map.mp hmap
      have hEq' : replayU a₀.id (itemOpsOf f1 rows1) a₀ = it := hEq
      have ha₀id : a₀.id = zfill S 6 ++ "_" ++ C := by
        rw [← hid, ← hEq']
        exact (replayU_proj (·.id) a₀.id _ hupd1 a₀).symm
      exact absurd ha₀id (habs a₀ ha₀)
    · obtain ⟨ops₁, o, ops₂, hdec, hEq, hfor1, _⟩ :=
        createdU_mem_spec _ _ it hcre
      have ho : o ∈ itemOpsOf f1 rows1 := by
        rw [hdec]; exact List.mem_append_right _ (List.mem_cons_self o ops₂)
      have hsub₂ : ∀ o' ∈ opsFor o.key ops₂, ItemOp f1 o' := by
        intro o' ho'
        refine hspec1 o' ?_
        rw [hdec]
        exact List.mem_append_right _
          (List.mem_cons_of_mem _ (List.mem_of_mem_filter ho'))
      obtain ⟨s6, r₀, hu, hf, hk⟩ := hspec1 o ho
      have hit2 : it = foldUpd (opsFor o.key ops₂) (newItem f1 s6 r₀) := by
        rw [hEq, replayU_eq_foldUpd, hf]
      by_cases hl2 : opsFor o.key ops₂ = []
      · rw [hit2, hl2]; rfl
      · rw [hit2, foldI_src_eq f1 _ hsub₂ hl2 _]
        have hns : (newItem f1 s6 r₀).source_files = [f1] := rfl
        rw [hns, sortedSet_cons_self]
  -- a Variant with the composite id exists after merge 1
  have hex1 : ∃ it ∈ (mergeSnapshot c rows1 f1).items,
      it.id = zfill S 6 ++ "_" ++ C := by
    obtain ⟨o, ho, hk⟩ := itemOps_key_exists f1 rows1 S C h1
    have hmem := opKey_mem_applyUs (·.id) (itemOpsOf f1 rows1) hupd1 hfresh1
      c.items o ho
    rw [hk] at hmem
    obtain ⟨it, hit, hid⟩ := List.mem_map.mp hmem
    exact ⟨it, hit, hid⟩
  have hne2 : opsFor (zfill S 6 ++ "_" ++ C) (itemOpsOf f2 rows2) ≠ [] :=
    opsFor_ne_nil (itemOps_key_exists f2 rows2 S C h2)
  constructor
  · obtain ⟨it1, hit1, hid1⟩ := hex1
    refine ⟨replayU it1.id (itemOpsOf f2 rows2) it1, ?_, ?_⟩
    · rw [hform2]
      exact List.mem_append_left _ (List.mem_map.mpr ⟨it1, hit1, rfl⟩)
    · rw [replayU_proj (·.id) _ _ hupd2 it1]
      exact hid1
  · intro it hit hid g
    rw [hform2] at hit
    rcases List.mem_append.mp hit with hmap | hcre
    · obtain ⟨it1, hit1, hEq⟩ := List.mem_map.mp hmap
      have hEq' : replayU it1.id (itemOpsOf f2 rows2) it1 = it := hEq
      have hid1 : it1.id = zfill S 6 ++ "_" ++ C := by
        rw [← hid, ← hEq']
        exact (replayU_proj (·.id) it1.id _ hupd2 it1).symm
      have hsrc1 : it1.source_files = [f1] := hc1 it1 hit1 hid1
      have hl2spec : ∀ o ∈ opsFor it1.id (itemOpsOf f2 rows2), ItemOp f2 o :=
        fun o ho => hspec2 o (List.mem_of_mem_filter ho)
      have hsrc2 : it.source_files = sortedSet (f2 :: it1.source_files) := by
        rw [← hEq', replayU_eq_foldUpd]
        refine foldI_src_eq f2 _ hl2spec ?_ it1
        rw [hid1]
        exact hne2
      rw [hsrc2, hsrc1, mem_sortedSet]
      constructor
      · intro hg
        rcases List.mem_cons.mp hg with h | h
        · exact Or.inr h
        · exact Or.inl (by simpa using h)
      · rintro (h | h)
        · exact List.mem_cons_of_mem _ (by simp [h])
        · exact h ▸ List.mem_cons_self _ _
    · exfalso
      obtain ⟨_, hnot⟩ := createdU_key_mem (·.id) (itemOpsOf f2 rows2)
        ((mergeSnapshot c rows1 f1).items.map (·.id)) hupd2 hfresh2 it hcre
      obtain ⟨it1, hit1, hid1⟩ := hex1
      refine hnot ?_
      rw [hid]
      rw [← hid1]
      exact List.mem_map_of_mem (·.id) hit1

theorem claim_c5_provenance_union_witness :
    (∃ it ∈ (mergeSnapshot (mergeSnapshot emptyCatalog [mkRow "10045" "BLK"]
        "f1.xlsx") [mkRow "10045" "BLK"] "f2.xlsx").items,
      it.id = zfill "10045" 6 ++ "_" ++ "BLK") ∧
    (∀ it ∈ (mergeSnapshot (mergeSnapshot emptyCatalog [mkRow "10045" "BLK"]
        "f1.xlsx") [mkRow "10045" "BLK"] "f2.xlsx").items,
      it.id = zfill "10045" 6 ++ "_" ++ "BLK" →
      ∀ g, g ∈ it.source_files ↔ (g = "f1.xlsx" ∨ g = "f2.xlsx")) :=
  claim_c5_provenance_union emptyCatalog [mkRow "10045" "BLK"]
    [mkRow "10045" "BLK"] "f1.xlsx" "f2.xlsx" "10045" "BLK"
    ⟨mkRow "10045" "BLK", by decide, by decide, by decide⟩
    ⟨mkRow "10045" "BLK", by decide, by decide, by decide⟩
    (fun it hit => absurd hit (List.not_mem_nil it))

theorem digit_ne_underscore {ch : Char} (h : ch.isDigit = true) : ch ≠ '_' := by
  intro he
  rw [he] at h
  exact absurd h (by decide)

theorem append_underscore_inj :
    ∀ (l₁ l₂ m₁ m₂ : List Char), (∀ ch ∈ l₁, ch.isDigit = true) →
      (∀ ch ∈ l₂, ch.isDigit = true) →
      l₁ ++ '_' :: m₁ = l₂ ++ '_' :: m₂ → l₁ = l₂ ∧ m₁ = m₂ := by
  intro l₁
  induction l₁ with
  | nil =>
    intro l₂ m₁ m₂ _ h₂ he
    cases l₂ with
    | nil => simpa using he
    | cons b l₂ =>
      simp only [List.nil_append, List.cons_append, List.cons.injEq] at he
      exact absurd he.1.symm (digit_ne_underscore (h₂ b (List.mem_cons_self _ _)))
  | cons a l₁ ih =>
    intro l₂ m₁ m₂ h₁ h₂ he
    cases l₂ with
    | nil =>
      simp only [List.cons_append, List.nil_append, List.cons.injEq] at he
      exact absurd he.1 (digit_ne_underscore (h₁ a (List.mem_cons_self _ _)))
    | cons b l₂ =>
      simp only [List.cons_append, List.cons.injEq] at he
      obtain ⟨hab, he2⟩ := he
      obtain ⟨hl, hm⟩ := ih l₂ m₁ m₂ (fun ch hc => h₁ ch (List.mem_cons_of_mem _ hc))
        (fun ch hc => h₂ ch (List.mem_cons_of_mem _ hc)) he2
      exact ⟨by rw [hab, hl], hm⟩

theorem mkId_data (s c : String) :
    (s ++ "_" ++ c).data = s.data ++ '_' :: c.data := by
  have h1 : (s ++ "_" ++ c).data = (s.data ++ "_".data) ++ c.data := by
    rw [String.data_append, String.data_append]
  have h2 : "_".data = ['_'] := rfl
  rw [h1, h2, List.append_assoc]
  rfl

/-- Composite ids are injective as long as the style halves are numeric:
a digit string cannot contain the `_` separator. -/
theorem mkId_inj {s₁ s₂ c₁ c₂ : String} (h₁ : DigitStr s₁) (h₂ : DigitStr s₂)
    (he : s₁ ++ "_" ++ c₁ = s₂ ++ "_" ++ c₂) : s₁ = s₂ ∧ c₁ = c₂ := by
  have hd : s₁.data ++ '_' :: c₁.data = s₂.data ++ '_' :: c₂.data := by
    rw [← mkId_data, ← mkId_data, he]
  obtain ⟨hs, hc⟩ := append_underscore_inj s₁.data s₂.data c₁.data c₂.data h₁ h₂ hd
  constructor
  · cases s₁; cases s₂; exact congrArg String.mk hs
  · cases c₁; cases c₂; exact congrArg String.mk hc

theorem extractBaseStyle_digit {r : XRow} (h : DigitRow r) :
    DigitStr (extractBaseStyle r.style) ∧ extractBaseStyle r.style ≠ "" := by
  obtain ⟨ch, hmem, hdig⟩ := h
  have hne : leadingDigits r.style ≠ "" := by
    intro he
    cases hd : r.style.data with
    | nil => rw [hd] at hmem; exact absurd hmem (by simp)
    | cons c rest =>
      rw [hd] at hmem
      simp only [List.head?_cons, Option.mem_def, Option.some.injEq] at hmem
      have hcd : c.isDigit = true := by rw [hmem]; exact hdig
      have hld : leadingDigits r.style = String.mk ((c :: rest).takeWhile Char.isDigit) := by
        rw [leadingDigits, hd]
      rw [List.takeWhile_cons, if_pos hcd] at hld
      rw [hld] at he
      exact absurd (congrArg String.data he) (by simp)
  refine ⟨?_, by rw [extractBaseStyle, if_neg hne]; exact hne⟩
  rw [extractBaseStyle, if_neg hne]
  intro ch2 hch2
  exact List.mem_takeWhile_imp hch2

theorem zfill_digit {s : String} (h : DigitStr s) : DigitStr (zfill s 6) := by
  unfold zfill
  by_cases hlen : 6 ≤ s.length
  · rw [if_pos hlen]; exact h
  · rw [if_neg hlen]
    cases hd : s.data with
    | nil =>
      intro ch hch
      have hch' : ch ∈ List.replicate (6 - s.length) '0' := hch
      rw [List.eq_of_mem_replicate hch']
      decide
    | cons c rest =>
      have hc : c.isDigit = true := h c (by rw [hd]; exact List.mem_cons_self _ _)
      have hnc : ¬ (c = '-' ∨ c = '+') := by
        rintro (rfl | rfl) <;> exact absurd hc (by decide)
      show DigitStr (if c = '-' ∨ c = '+' then
        String.mk (c :: (List.replicate (6 - s.length) '0' ++ rest))
        else String.mk (List.replicate (6 - s.length) '0' ++ c :: rest))
      rw [if_neg hnc]
      intro ch hch
      have hch' : ch ∈ List.replicate (6 - s.length) '0' ++ c :: rest := hch
      rcases List.mem_append.mp hch' with hm | hm
      · rw [List.eq_of_mem_replicate hm]; decide
      · exact h ch (by rw [hd]; exact hm)

theorem firstByKey_sub {α β : Type} [DecidableEq β] (key : α → β) :
    ∀ (l : List α) (seen : List β) (a : α), a ∈ firstByKey key seen l → a ∈ l := by
  intro l
  induction l with
  | nil => intro seen a ha; exact absurd ha (by simp [firstByKey])
  | cons b l ih =>
    intro seen a ha
    by_cases hb : key b ∈ seen
    · rw [show firstByKey key seen (b :: l) = firstByKey key seen l from by
        simp [firstByKey, hb]] at ha
      exact List.mem_cons_of_mem _ (ih seen a ha)
    · rw [show firstByKey key seen (b :: l) = b :: firstByKey key (key b :: seen) l from by
        simp [firstByKey, hb]] at ha
      rcases List.mem_cons.mp ha with rfl | ha
      · exact List.mem_cons_self _ _
      · exact List.mem_cons_of_mem _ (ih _ a ha)

/-- Full description of the item upserts of one snapshot: each targets the
composite id of a group row, updates through the existing-Variant branch
and inserts through the new-Variant branch for that row. -/
theorem itemOpsOf_spec_full (fname : String) (rows : List XRow) :
    ∀ o ∈ itemOpsOf fname rows, ∃ b r, b ∈ groupKeysSorted rows ∧
      r ∈ groupRows rows b ∧ o.key = zfill b 6 ++ "_" ++ rowColor r ∧
      o.upd = updExisting fname r ∧ o.fresh = newItem fname (zfill b 6) r := by
  intro o ho
  simp only [itemOpsOf, List.mem_flatMap, List.mem_map] at ho
  obtain ⟨b, hb, r, hr, rfl⟩ := ho
  exact ⟨b, r, hb, firstByKey_sub rowColor _ _ r hr, rfl, rfl, rfl⟩

/-- Full description of the summary upserts of one snapshot: one per group
key, keyed by the zero-padded base style, carrying that group's parsed
style data. -/
theorem summOpsOf_spec_full (fname : String) (rows : List XRow) :
    ∀ o ∈ summOpsOf fname rows, ∃ b, b ∈ groupKeysSorted rows ∧
      o.key = zfill b 6 ∧ o.upd = updSummary fname (styleDataFor rows b) ∧
      o.fresh = newSummary fname (zfill b 6) (styleDataFor rows b) := by
  intro o ho
  simp only [summOpsOf, List.mem_map] at ho
  obtain ⟨b, hb, rfl⟩ := ho
  exact ⟨b, hb, rfl, rfl, rfl⟩

theorem groupKeys_digit {rows : List XRow} (hd : ∀ r ∈ rows, DigitRow r) :
    ∀ b ∈ groupKeysSorted rows, DigitStr b := by
  intro b hb
  rw [groupKeysSorted, List.mem_insertionSort, mem_dedupFirst] at hb
  obtain ⟨r, hr, rfl⟩ := List.mem_map.mp hb
  exact (extractBaseStyle_digit (hd r hr)).1

theorem mem_opsFor {α : Type} (k : String) (ops : List (UOp α)) (o : UOp α) :
    o ∈ opsFor k ops ↔ o ∈ ops ∧ o.key = k := by
  rw [opsFor, List.mem_filter]
  constructor
  · rintro ⟨h1, h2⟩; exact ⟨h1, of_decide_eq_true h2⟩
  · rintro ⟨h1, h2⟩; exact ⟨h1, decide_eq_true h2⟩

/-- A key targeted by some item upsert of the snapshot is a zero-padded
group style joined to a group-row color. -/
theorem opsFor_item_key (fname : String) (rows : List XRow) (k : String)
    (h : opsFor k (itemOpsOf fname rows) ≠ []) :
    ∃ b r, b ∈ groupKeysSorted rows ∧ r ∈ groupRows rows b ∧
      k = zfill b 6 ++ "_" ++ rowColor r := by
  cases he : opsFor k (itemOpsOf fname rows) with
  | nil => exact absurd he h
  | cons o rest =>
    have ho : o ∈ opsFor k (itemOpsOf fname rows) := by
      rw [he]; exact List.mem_cons_self _ _
    obtain ⟨hmem, hk⟩ := (mem_opsFor k _ o).mp ho
    obtain ⟨b, r, hb, hr, hkey, _, _⟩ := itemOpsOf_spec_full fname rows o hmem
    exact ⟨b, r, hb, hr, by rw [← hk, hkey]⟩

theorem summOps_keys (fname : String) (rows : List XRow) :
    (summOpsOf fname rows).map (·.key) =
      (groupKeysSorted rows).map (fun b => zfill b 6) := by
  rw [summOpsOf, List.map_map]
  rfl

/-- Case analysis of the Item table after one merge: every Variant either
descends from an existing Variant — identity, grouping fields, status and
location untouched, provenance untouched (no matching op) or canonicalized
with the new snapshot added — or is a fresh Variant of the snapshot, with
a previously absent composite id, provenance exactly the snapshot, and
style/color taken from a group row. -/
theorem merge_item_cases (c : Catalog) (rows : List XRow) (fname : String) :
    ∀ it ∈ (mergeSnapshot c rows fname).items,
      (∃ it₀ ∈ c.items, it₀.id = it.id ∧ it₀.style = it.style ∧
        it₀.color = it.color ∧ it₀.status = it.status ∧ it₀.row_id = it.row_id ∧
        ((opsFor it₀.id (itemOpsOf fname rows) = [] ∧ it = it₀) ∨
         (opsFor it₀.id (itemOpsOf fname rows) ≠ [] ∧
          it.source_files = sortedSet (fname :: it₀.source_files))))
      ∨ (it.id ∉ c.items.map (·.id) ∧
         (∃ b r, b ∈ groupKeysSorted rows ∧ r ∈ groupRows rows b ∧
            it.style = zfill b 6 ∧ it.color = rowColor r) ∧
         it.id = it.style ++ "_" ++ it.color ∧
         it.source_files = [fname] ∧ it.status = "pending" ∧ it.row_id = none) := by
  have hspec : ∀ o ∈ itemOpsOf fname rows, ItemOp fname o := itemOpsOf_spec fname rows
  have hupd : ∀ o ∈ itemOpsOf fname rows, ∀ a : Item, (o.upd a).id = a.id :=
    fun o ho a => (itemOp_upd_preserves fname (hspec o ho) a).1
  have hfresh : ∀ o ∈ itemOpsOf fname rows, o.fresh.id = o.key :=
    fun o ho => itemOp_fresh_key fname (hspec o ho)
  intro it hit
  have hmem : it ∈ c.items.map (fun x => replayU x.id (itemOpsOf fname rows) x)
      ++ createdU (itemOpsOf fname rows) (c.items.map (·.id)) := by
    have h0 : (mergeSnapshot c rows fname).items
        = applyUs (·.id) (itemOpsOf fname rows) c.items := rfl
    rw [h0, applyUs_eq (·.id) (itemOpsOf fname rows) hupd hfresh c.items] at hit
    exact hit
  rcases List.mem_append.mp hmem with hmap | hcre
  · obtain ⟨a₀, ha₀, heq⟩ := List.mem_map.mp hmap
    refine Or.inl ⟨a₀, ha₀, ?_, ?_, ?_, ?_, ?_, ?_⟩
    · rw [← heq]; exact (replayU_proj (·.id) a₀.id (itemOpsOf fname rows) hupd a₀).symm
    · rw [← heq]
      exact (replayU_proj (·.style) a₀.id (itemOpsOf fname rows)
        (fun o ho a => (itemOp_upd_preserves fname (hspec o ho) a).2.1) a₀).symm
    · rw [← heq]
      exact (replayU_proj (·.color) a₀.id (itemOpsOf fname rows)
        (fun o ho a => (itemOp_upd_preserves fname (hspec o ho) a).2.2.1) a₀).symm
    · rw [← heq]
      exact (replayU_proj (·.status) a₀.id (itemOpsOf fname rows)
        (fun o ho a => (itemOp_upd_preserves fname (hspec o ho) a).2.2.2.1) a₀).symm
    · rw [← heq]
      exact (replayU_proj (·.row_id) a₀.id (itemOpsOf fname rows)
        (fun o ho a => (itemOp_upd_preserves fname (hspec o ho) a).2.2.2.2) a₀).symm
    · by_cases hops : opsFor a₀.id (itemOpsOf fname rows) = []
      · refine Or.inl ⟨hops, ?_⟩
        rw [← heq, replayU_eq_foldUpd, hops]
        rfl
      · refine Or.inr ⟨hops, ?_⟩
        rw [← heq, replayU_eq_foldUpd]
        exact foldI_src_eq fname (opsFor a₀.id (itemOpsOf fname rows))
          (fun o ho => hspec o (List.mem_of_mem_filter ho)) hops a₀
  · obtain ⟨ops₁, o, ops₂, hdec, ha', hfor1, hks⟩ :=
      createdU_mem_spec (itemOpsOf fname rows) (c.items.map (·.id)) it hcre
    have ho : o ∈ itemOpsOf fname rows := by
      rw [hdec]; exact List.mem_append_right _ (List.mem_cons_self o ops₂)
    have hsub₂ : ∀ o' ∈ ops₂, o' ∈ itemOpsOf fname rows := by
      intro o' ho'
      rw [hdec]
      exact List.mem_append_right _ (List.mem_cons_of_mem _ ho')
    obtain ⟨b, r, hb, hr, hkey, hu, hf⟩ := itemOpsOf_spec_full fname rows o ho
    have hO₂ : ∀ o' ∈ opsFor o.key ops₂, ItemOp fname o' :=
      fun o' ho' => hspec o' (hsub₂ o' (List.mem_of_mem_filter ho'))
    have hOall : ∀ o' ∈ opsFor o.key ops₂, ∀ a : Item, (o'.upd a).id = a.id :=
      fun o' ho' => itemOp_upd_id fname (hO₂ o' ho')
    have hit' : it = foldUpd (opsFor o.key ops₂) o.fresh := by
      rw [ha', replayU_eq_foldUpd]
    have hsty : it.style = zfill b 6 := by
      rw [hit', foldUpd_proj (·.style)
        (opsFor o.key ops₂)
        (fun o' ho' a => (itemOp_upd_preserves fname (hO₂ o' ho') a).2.1) o.fresh, hf]
      rfl
    have hcol : it.color = rowColor r := by
      rw [hit', foldUpd_proj (·.color)
        (opsFor o.key ops₂)
        (fun o' ho' a => (itemOp_upd_preserves fname (hO₂ o' ho') a).2.2.1) o.fresh, hf]
      rfl
    have hid : it.id = o.key := by
      rw [hit', foldUpd_proj (·.id) (opsFor o.key ops₂) hOall o.fresh,
        hf, hkey]
      rfl
    refine Or.inr ⟨?_, ⟨b, r, hb, hr, hsty, hcol⟩, ?_, ?_, ?_, ?_⟩
    · rw [hid]; exact hks
    · rw [hid, hkey, hsty, hcol]
    · by_cases hops : opsFor o.key ops₂ = []
      · rw [hit', hops]
        show o.fresh.source_files = [fname]
        rw [hf]
        rfl
      · rw [hit', foldI_src_eq fname (opsFor o.key ops₂) hO₂ hops o.fresh, hf]
        show sortedSet (fname :: [fname]) = [fname]
        exact sortedSet_cons_self fname
    · rw [hit', foldUpd_proj (·.status) (opsFor o.key ops₂)
        (fun o' ho' a => (itemOp_upd_preserves fname (hO₂ o' ho') a).2.2.2.1) o.fresh, hf]
      rfl
    · rw [hit', foldUpd_proj (·.row_id) (opsFor o.key ops₂)
        (fun o' ho' a => (itemOp_upd_preserves fname (hO₂ o' ho') a).2.2.2.2) o.fresh, hf]
      rfl

theorem opsHaveColor_cons_iff (fname : String) (o : UOp StyleSummary)
    (l : List (UOp StyleSummary)) (sd : StyleData)
    (hu : o.upd = updSummary fname sd) (x : String) :
    opsHaveColor fname (o :: l) x ↔ x ∈ sd.colors ∨ opsHaveColor fname l x := by
  constructor
  · rintro ⟨o', ho', sd', hu', hx⟩
    rcases List.mem_cons.mp ho' with rfl | ho'
    · refine Or.inl ?_
      have hequ : updSummary fname sd = updSummary fname sd' := by rw [← hu, ← hu']
      exact (updSummary_colors_iff hequ x).mpr hx
    · exact Or.inr ⟨o', ho', sd', hu', hx⟩
  · rintro (hx | ⟨o', ho', sd', hu', hx⟩)
    · exact ⟨o, List.mem_cons_self _ _, sd, hu, hx⟩
    · exact ⟨o', List.mem_cons_of_mem _ ho', sd', hu', hx⟩

/-- Case analysis of the StyleSummary table after one merge: every summary
either descends from an existing one — untouched when no op targets its
style, otherwise provenance canonicalized with the snapshot added, color
list duplicate-free with recomputed count, and color membership the union
of old colors and the colors the snapshot's ops carry — or is a fresh
summary of the snapshot for a previously absent style key, with provenance
exactly the snapshot. -/
theorem merge_summary_cases (c : Catalog) (rows : List XRow) (fname : String) :
    ∀ s ∈ (mergeSnapshot c rows fname).summaries,
      (∃ s₀ ∈ c.summaries, s₀.style = s.style ∧
        ((opsFor s₀.style (summOpsOf fname rows) = [] ∧ s = s₀) ∨
         (opsFor s₀.style (summOpsOf fname rows) ≠ [] ∧
          s.source_files = sortedSet (fname :: s₀.source_files) ∧
          s.all_colors.Nodup ∧ s.color_count = s.all_colors.length ∧
          (∀ x, x ∈ s.all_colors ↔ x ∈ s₀.all_colors ∨
            opsHaveColor fname (opsFor s₀.style (summOpsOf fname rows)) x))))
      ∨ (s.style ∉ c.summaries.map (·.style) ∧
         s.style ∈ (summOpsOf fname rows).map (·.key) ∧
         s.source_files = [fname] ∧
         s.all_colors.Nodup ∧ s.color_count = s.all_colors.length ∧
         (∀ x, x ∈ s.all_colors ↔
            opsHaveColor fname (opsFor s.style (summOpsOf fname rows)) x)) := by
  have hspec : ∀ o ∈ summOpsOf fname rows, SummOp fname o := summOpsOf_spec fname rows
  have hupd : ∀ o ∈ summOpsOf fname rows, ∀ a : StyleSummary, (o.upd a).style = a.style :=
    fun o ho a => (summOp_upd_preserves fname (hspec o ho) a).1
  have hfresh : ∀ o ∈ summOpsOf fname rows, o.fresh.style = o.key :=
    fun o ho => summOp_fresh_key fname (hspec o ho)
  intro s hs
  have hmem : s ∈ c.summaries.map (fun x => replayU x.style (summOpsOf fname rows) x)
      ++ createdU (summOpsOf fname rows) (c.summaries.map (·.style)) := by
    have h0 : (mergeSnapshot c rows fname).summaries
        = applyUs (·.style) (summOpsOf fname rows) c.summaries := rfl
    rw [h0, applyUs_eq (·.style) (summOpsOf fname rows) hupd hfresh c.summaries] at hs
    exact hs
  rcases List.mem_append.mp hmem with hmap | hcre
  · obtain ⟨s₀, hs₀, heq⟩ := List.mem_map.mp hmap
    have hOsub : ∀ o ∈ opsFor s₀.style (summOpsOf fname rows), SummOp fname o :=
      fun o ho => hspec o (List.mem_of_mem_filter ho)
    refine Or.inl ⟨s₀, hs₀, ?_, ?_⟩
    · rw [← heq]
      exact (replayU_proj (·.style) s₀.style (summOpsOf fname rows) hupd s₀).symm
    · by_cases hops : opsFor s₀.style (summOpsOf fname rows) = []
      · refine Or.inl ⟨hops, ?_⟩
        rw [← heq, replayU_eq_foldUpd, hops]
        rfl
      · refine Or.inr ⟨hops, ?_, ?_, ?_, ?_⟩
        · rw [← heq, replayU_eq_foldUpd]
          exact foldS_src_eq fname _ hOsub hops s₀
        · rw [← heq, replayU_eq_foldUpd]
          exact (foldS_count_nodup fname _ hOsub hops s₀).2
        · rw [← heq, replayU_eq_foldUpd]
          exact (foldS_count_nodup fname _ hOsub hops s₀).1
        · intro x
          rw [← heq, replayU_eq_foldUpd]
          exact foldS_colors_mem fname _ hOsub s₀ x
  · obtain ⟨ops₁, o, ops₂, hdec, ha', hfor1, hks⟩ :=
      createdU_mem_spec (summOpsOf fname rows) (c.summaries.map (·.style)) s hcre
    have ho : o ∈ summOpsOf fname rows := by
      rw [hdec]; exact List.mem_append_right _ (List.mem_cons_self o ops₂)
    have hsub₂ : ∀ o' ∈ ops₂, o' ∈ summOpsOf fname rows := by
      intro o' ho'
      rw [hdec]
      exact List.mem_append_right _ (List.mem_cons_of_mem _ ho')
    obtain ⟨b, hb, hkey, hu, hf⟩ := summOpsOf_spec_full fname rows o ho
    have hO₂ : ∀ o' ∈ opsFor o.key ops₂, SummOp fname o' :=
      fun o' ho' => hspec o' (hsub₂ o' (List.mem_of_mem_filter ho'))
    have hs' : s = foldUpd (opsFor o.key ops₂) o.fresh := by
      rw [ha', replayU_eq_foldUpd]
    have hsty : s.style = o.key := by
      rw [hs', foldUpd_proj (·.style) (opsFor o.key ops₂)
        (fun o' ho' a => (summOp_upd_preserves fname (hO₂ o' ho') a).1) o.fresh]
      exact summOp_fresh_key fname (hspec o ho)
    have hOfull : opsFor s.style (summOpsOf fname rows) = o :: opsFor o.key ops₂ := by
      rw [hsty, hdec, opsFor_append, hfor1, List.nil_append, opsFor_cons, if_pos rfl]
    refine Or.inr ⟨by rw [hsty]; exact hks, by rw [hsty]; exact List.mem_map_of_mem _ ho,
      ?_, ?_, ?_, ?_⟩
    · by_cases hops : opsFor o.key ops₂ = []
      · rw [hs', hops]
        show o.fresh.source_files = [fname]
        rw [hf]
        rfl
      · rw [hs', foldS_src_eq fname (opsFor o.key ops₂) hO₂ hops o.fresh, hf]
        show sortedSet (fname :: [fname]) = [fname]
        exact sortedSet_cons_self fname
    · by_cases hops : opsFor o.key ops₂ = []
      · rw [hs', hops]
        show (o.fresh).all_colors.Nodup
        rw [hf]
        exact nodup_dedupFirst _
      · rw [hs']
        exact (foldS_count_nodup fname _ hO₂ hops o.fresh).2
    · by_cases hops : opsFor o.key ops₂ = []
      · rw [hs', hops]
        show (o.fresh).color_count = (o.fresh).all_colors.length
        rw [hf]
        rfl
      · rw [hs']
        exact (foldS_count_nodup fname _ hO₂ hops o.fresh).1
    · intro x
      rw [hOfull, opsHaveColor_cons_iff fname o (opsFor o.key ops₂) (styleDataFor rows b) hu x]
      rw [hs']
      rw [foldS_colors_mem fname _ hO₂ o.fresh x]
      have hfc : ∀ y, y ∈ (o.fresh).all_colors ↔ y ∈ (styleDataFor rows b).colors := by
        intro y
        rw [hf]
        exact Iff.rfl
      rw [hfc x]

theorem merge_items_map_id (c : Catalog) (rows : List XRow) (fname : String) :
    ((mergeSnapshot c rows fname).items).map (·.id) =
      c.items.map (·.id) ++
        (createdU (itemOpsOf fname rows) (c.items.map (·.id))).map (·.id) := by
  have hspec : ∀ o ∈ itemOpsOf fname rows, ItemOp fname o := itemOpsOf_spec fname rows
  have hupd : ∀ o ∈ itemOpsOf fname rows, ∀ a : Item, (o.upd a).id = a.id :=
    fun o ho a => (itemOp_upd_preserves fname (hspec o ho) a).1
  have hfresh : ∀ o ∈ itemOpsOf fname rows, o.fresh.id = o.key :=
    fun o ho => itemOp_fresh_key fname (hspec o ho)
  have h0 : (mergeSnapshot c rows fname).items
      = applyUs (·.id) (itemOpsOf fname rows) c.items := rfl
  rw [h0, applyUs_eq (·.id) (itemOpsOf fname rows) hupd hfresh c.items,
    List.map_append]
  congr 1
  rw [List.map_map]
  refine List.map_congr_left ?_
  intro a _
  exact replayU_proj (·.id) a.id (itemOpsOf fname rows) hupd a

theorem merge_ids_nodup (c : Catalog) (rows : List XRow) (fname : String)
    (h : (c.items.map (·.id)).Nodup) :
    (((mergeSnapshot c rows fname).items).map (·.id)).Nodup := by
  have hspec : ∀ o ∈ itemOpsOf fname rows, ItemOp fname o := itemOpsOf_spec fname rows
  have hupd : ∀ o ∈ itemOpsOf fname rows, ∀ a : Item, (o.upd a).id = a.id :=
    fun o ho a => (itemOp_upd_preserves fname (hspec o ho) a).1
  have hfresh : ∀ o ∈ itemOpsOf fname rows, o.fresh.id = o.key :=
    fun o ho => itemOp_fresh_key fname (hspec o ho)
  rw [merge_items_map_id]
  rw [List.nodup_append]
  refine ⟨h, createdU_keys_nodup (·.id) (itemOpsOf fname rows)
    (c.items.map (·.id)) hupd hfresh, ?_⟩
  intro x hx1 hx2
  obtain ⟨a, ha, hxa⟩ := List.mem_map.mp hx2
  obtain ⟨_, hnot⟩ := createdU_key_mem (·.id) (itemOpsOf fname rows)
    (c.items.map (·.id)) hupd hfresh a ha
  exact hnot (hxa ▸ hx1)

theorem merge_sums_map_style (c : Catalog) (rows : List XRow) (fname : String) :
    ((mergeSnapshot c rows fname).summaries).map (·.style) =
      c.summaries.map (·.style) ++
        (createdU (summOpsOf fname rows) (c.summaries.map (·.style))).map (·.style) := by
  have hspec : ∀ o ∈ summOpsOf fname rows, SummOp fname o := summOpsOf_spec fname rows
  have hupd : ∀ o ∈ summOpsOf fname rows, ∀ a : StyleSummary, (o.upd a).style = a.style :=
    fun o ho a => (summOp_upd_preserves fname (hspec o ho) a).1
  have hfresh : ∀ o ∈ summOpsOf fname rows, o.fresh.style = o.key :=
    fun o ho => summOp_fresh_key fname (hspec o ho)
  have h0 : (mergeSnapshot c rows fname).summaries
      = applyUs (·.style) (summOpsOf fname rows) c.summaries := rfl
  rw [h0, applyUs_eq (·.style) (summOpsOf fname rows) hupd hfresh c.summaries,
    List.map_append]
  congr 1
  rw [List.map_map]
  refine List.map_congr_left ?_
  intro a _
  exact replayU_proj (·.style) a.style (summOpsOf fname rows) hupd a

theorem merge_sumStyles_nodup (c : Catalog) (rows : List XRow) (fname : String)
    (h : (c.summaries.map (·.style)).Nodup) :
    (((mergeSnapshot c rows fname).summaries).map (·.style)).Nodup := by
  have hspec : ∀ o ∈ summOpsOf fname rows, SummOp fname o := summOpsOf_spec fname rows
  have hupd : ∀ o ∈ summOpsOf fname rows, ∀ a : StyleSummary, (o.upd a).style = a.style :=
    fun o ho a => (summOp_upd_preserves fname (hspec o ho) a).1
  have hfresh : ∀ o ∈ summOpsOf fname rows, o.fresh.style = o.key :=
    fun o ho => summOp_fresh_key fname (hspec o ho)
  rw [merge_sums_map_style]
  rw [List.nodup_append]
  refine ⟨h, createdU_keys_nodup (·.style) (summOpsOf fname rows)
    (c.summaries.map (·.style)) hupd hfresh, ?_⟩
  intro x hx1 hx2
  obtain ⟨a, ha, hxa⟩ := List.mem_map.mp hx2
  obtain ⟨_, hnot⟩ := createdU_key_mem (·.style) (summOpsOf fname rows)
    (c.summaries.map (·.style)) hupd hfresh a ha
  exact hnot (hxa ▸ hx1)

theorem merge_basicInv (c : Catalog) (rows : List XRow) (fname : String)
    (h : BasicInv c) : BasicInv (mergeSnapshot c rows fname) := by
  refine ⟨merge_ids_nodup c rows fname h.idsNodup, ?_, ?_, ?_⟩
  · intro it hit
    rcases merge_item_cases c rows fname it hit with
      ⟨it₀, h0, hid, hsty, hcol, _, _, _⟩ | ⟨_, _, hidstr, _⟩
    · rw [← hid, ← hsty, ← hcol]
      exact h.itemId it₀ h0
    · exact hidstr
  · intro it hit
    rcases merge_item_cases c rows fname it hit with
      ⟨it₀, h0, _, _, _, _, _, hsrc⟩ | ⟨_, _, _, hsrc, _⟩
    · rcases hsrc with ⟨_, heq⟩ | ⟨_, hs⟩
      · rw [heq]
        exact h.itemSrcNe it₀ h0
      · rw [hs]
        exact List.ne_nil_of_mem ((mem_sortedSet _ fname).mpr (List.mem_cons_self _ _))
    · rw [hsrc]
      simp
  · intro it hit
    rcases merge_item_cases c rows fname it hit with
      ⟨it₀, h0, _, _, _, _, _, hsrc⟩ | ⟨_, _, _, hsrc, _⟩
    · rcases hsrc with ⟨_, heq⟩ | ⟨_, hs⟩
      · rw [heq]
        exact h.itemSrcNodup it₀ h0
      · rw [hs]
        exact nodup_sortedSet _
    · rw [hsrc]
      exact List.nodup_singleton fname

/-- Case analysis of the Item table after a retraction: every surviving
Variant descends from a stored Variant that was not a sole-provenance
Variant of the file, all fields equal except that the file is filtered out
of the provenance when it was present. -/
theorem retractItems_cases (f : String) (items : List Item) :
    ∀ it ∈ retractItems f items,
      ∃ it₀ ∈ items, it₀.id = it.id ∧ it₀.style = it.style ∧ it₀.color = it.color ∧
        it₀.status = it.status ∧ it₀.row_id = it.row_id ∧
        it₀.image_url = it.image_url ∧ it₀.division = it.division ∧
        it₀.outsole = it.outsole ∧ it₀.gender = it.gender ∧
        ¬ (f ∈ it₀.source_files ∧ it₀.source_files.length = 1) ∧
        ((f ∉ it₀.source_files ∧ it = it₀) ∨
         (f ∈ it₀.source_files ∧
          it.source_files = it₀.source_files.filter (fun g => decide (g ≠ f)))) := by
  intro it hit
  rw [retractItems] at hit
  obtain ⟨it₀, hmem, heq⟩ := List.mem_map.mp hit
  obtain ⟨h0, hpred⟩ := List.mem_filter.mp hmem
  have hpred' : ¬ (f ∈ it₀.source_files ∧ it₀.source_files.length = 1) :=
    of_decide_eq_true hpred
  by_cases hf : f ∈ it₀.source_files
  · rw [if_pos hf] at heq
    exact ⟨it₀, h0, by rw [← heq], by rw [← heq], by rw [← heq], by rw [← heq],
      by rw [← heq], by rw [← heq], by rw [← heq], by rw [← heq], by rw [← heq],
      hpred', Or.inr ⟨hf, by rw [← heq]⟩⟩
  · rw [if_neg hf] at heq
    exact ⟨it₀, h0, by rw [heq], by rw [heq], by rw [heq], by rw [heq],
      by rw [heq], by rw [heq], by rw [heq], by rw [heq], by rw [heq],
      hpred', Or.inl ⟨hf, heq.symm⟩⟩

/-- Every stored Variant that is not a sole-provenance Variant of the file
survives the retraction, with the file filtered out of its provenance. -/
theorem retractItems_mem (f : String) (items : List Item) (it₀ : Item)
    (h0 : it₀ ∈ items)
    (hp : ¬ (f ∈ it₀.source_files ∧ it₀.source_files.length = 1)) :
    (if f ∈ it₀.source_files then
       { it₀ with source_files := it₀.source_files.filter (fun g => decide (g ≠ f)) }
     else it₀) ∈ retractItems f items := by
  rw [retractItems]
  exact List.mem_map_of_mem _ (List.mem_filter.mpr ⟨h0, decide_eq_true hp⟩)

theorem all_eq_singleton {l : List String} {f : String} (hnd : l.Nodup)
    (hne : l ≠ []) (hall : ∀ g ∈ l, g = f) : l = [f] := by
  cases l with
  | nil => exact absurd rfl hne
  | cons a rest =>
    have ha : a = f := hall a (List.mem_cons_self _ _)
    have hrest : rest = [] := by
      cases rest with
      | nil => rfl
      | cons b rest2 =>
        have hb : b = f := hall b (List.mem_cons_of_mem _ (List.mem_cons_self _ _))
        have hnot : a ∉ b :: rest2 := (List.nodup_cons.mp hnd).1
        exact absurd (by rw [ha, ← hb]; exact List.mem_cons_self _ _) hnot
    rw [ha, hrest]

theorem deleteFile_some {c c' : Catalog} {f : String}
    (hdel : deleteFile c f = some c') :
    c'.items = retractItems f c.items ∧
    c'.summaries = retractSummaries f (retractItems f c.items) c.summaries ∧
    c'.fileUploads = c.fileUploads.filter (fun u => decide (u.filename ≠ f)) := by
  rw [deleteFile] at hdel
  by_cases hcond : (c.fileUploads.any fun u => decide (u.filename = f)) = true
  · rw [if_pos hcond] at hdel
    have h2 := Option.some.inj hdel
    rw [← h2]
    exact ⟨rfl, rfl, rfl⟩
  · rw [if_neg hcond] at hdel
    exact absurd hdel (by simp)

theorem delete_basicInv {c c' : Catalog} {f : String} (h : BasicInv c)
    (hdel : deleteFile c f = some c') : BasicInv c' := by
  obtain ⟨hit, _, _⟩ := deleteFile_some hdel
  have hmap : (retractItems f c.items).map (·.id) =
      (c.items.filter fun it =>
        decide (¬ (f ∈ it.source_files ∧ it.source_files.length = 1))).map (·.id) := by
    rw [retractItems, List.map_map]
    refine List.map_congr_left ?_
    intro a _
    by_cases hf : f ∈ a.source_files <;> simp [hf]
  refine ⟨?_, ?_, ?_, ?_⟩
  · rw [hit, hmap]
    exact List.Nodup.sublist (List.Sublist.map _ (List.filter_sublist _)) h.idsNodup
  · intro it hitm
    rw [hit] at hitm
    obtain ⟨it₀, h0, hid, hsty, hcol, _, _, _, _, _, _, _, _⟩ :=
      retractItems_cases f c.items it hitm
    rw [← hid, ← hsty, ← hcol]
    exact h.itemId it₀ h0
  · intro it hitm
    rw [hit] at hitm
    obtain ⟨it₀, h0, _, _, _, _, _, _, _, _, _, hpred, hsrc⟩ :=
      retractItems_cases f c.items it hitm
    rcases hsrc with ⟨_, heq⟩ | ⟨hf, hs⟩
    · rw [heq]
      exact h.itemSrcNe it₀ h0
    · rw [hs]
      intro hnil
      have hall : ∀ g ∈ it₀.source_files, g = f := by
        intro g hg
        by_contra hgf
        have : g ∈ it₀.source_files.filter (fun g => decide (g ≠ f)) :=
          List.mem_filter.mpr ⟨hg, decide_eq_true hgf⟩
        rw [hnil] at this
        exact absurd this (List.not_mem_nil g)
      have hsing : it₀.source_files = [f] :=
        all_eq_singleton (h.itemSrcNodup it₀ h0) (h.itemSrcNe it₀ h0) hall
      exact hpred ⟨hf, by rw [hsing]; rfl⟩
  · intro it hitm
    rw [hit] at hitm
    obtain ⟨it₀, h0, _, _, _, _, _, _, _, _, _, _, hsrc⟩ :=
      retractItems_cases f c.items it hitm
    rcases hsrc with ⟨_, heq⟩ | ⟨_, hs⟩
    · rw [heq]
      exact h.itemSrcNodup it₀ h0
    · rw [hs]
      exact List.Nodup.filter _ (h.itemSrcNodup it₀ h0)

theorem dropItem_preserves (active : List String) (it : Item) :
    (dropItem active it).id = it.id ∧ (dropItem active it).style = it.style ∧
    (dropItem active it).color = it.color ∧
    (dropItem active it).source_files = it.source_files ∧
    (dropItem active it).image_url = it.image_url ∧
    (dropItem active it).division = it.division ∧
    (dropItem active it).outsole = it.outsole ∧
    (dropItem active it).gender = it.gender ∧
    (dropItem active it).row_id = it.row_id := by
  rw [dropItem]
  by_cases hm : zfill it.style 6 ∈ active
  · rw [if_pos hm]; exact ⟨rfl, rfl, rfl, rfl, rfl, rfl, rfl, rfl, rfl⟩
  · rw [if_neg hm]; exact ⟨rfl, rfl, rfl, rfl, rfl, rfl, rfl, rfl, rfl⟩

theorem drop_basicInv (c : Catalog) (activeRows : List XRow)
    (h : BasicInv c) : BasicInv (processSeasonalDrop c activeRows) := by
  have hmap : ((processSeasonalDrop c activeRows).items).map (·.id)
      = c.items.map (·.id) := by
    show ((c.items.map (dropItem (activeStylesOf activeRows))).map (·.id)) = _
    rw [List.map_map]
    refine List.map_congr_left ?_
    intro a _
    exact (dropItem_preserves (activeStylesOf activeRows) a).1
  refine ⟨by rw [hmap]; exact h.idsNodup, ?_, ?_, ?_⟩
  all_goals
    intro it hitm
    obtain ⟨it₀, h0, heq⟩ := List.mem_map.mp hitm
    rw [← heq]
  · obtain ⟨hid, hsty, hcol, _⟩ := dropItem_preserves (activeStylesOf activeRows) it₀
    rw [hid, hsty, hcol]
    exact h.itemId it₀ h0
  · rw [(dropItem_preserves (activeStylesOf activeRows) it₀).2.2.2.1]
    exact h.itemSrcNe it₀ h0
  · rw [(dropItem_preserves (activeStylesOf activeRows) it₀).2.2.2.1]
    exact h.itemSrcNodup it₀ h0

theorem uploadExcel_tables (c : Catalog) (sheet : UploadSheet) (fname : String) :
    ((uploadExcel c sheet fname).1.items = c.items ∧
     (uploadExcel c sheet fname).1.summaries = c.summaries) ∨
    ((uploadExcel c sheet fname).1.items = (mergeSnapshot c sheet.rows fname).items ∧
     (uploadExcel c sheet fname).1.summaries
       = (mergeSnapshot c sheet.rows fname).summaries) := by
  rw [uploadExcel]
  by_cases hx : (endsWithStr fname ".xlsx" || endsWithStr fname ".xls") = true
  · rw [if_pos hx]
    by_cases hsc : (sheet.hasStyle = true ∧ sheet.hasColor = true)
    · rw [if_pos hsc]
      exact Or.inr ⟨rfl, rfl⟩
    · rw [if_neg hsc]
      exact Or.inl ⟨rfl, rfl⟩
  · rw [if_neg hx]
    exact Or.inl ⟨rfl, rfl⟩

theorem basicInv_of_items_eq {c d : Catalog} (h : d.items = c.items)
    (hb : BasicInv c) : BasicInv d := by
  refine ⟨by rw [h]; exact hb.idsNodup, ?_, ?_, ?_⟩
  · intro it hit; exact hb.itemId it (h ▸ hit)
  · intro it hit; exact hb.itemSrcNe it (h ▸ hit)
  · intro it hit; exact hb.itemSrcNodup it (h ▸ hit)

/-- Every reachable catalog state satisfies the structural invariant. -/
theorem reachable_basicInv {c : Catalog} (h : Reachable c) : BasicInv c := by
  induction h with
  | empty =>
    exact ⟨by simp [emptyCatalog], by simp [emptyCatalog], by simp [emptyCatalog],
      by simp [emptyCatalog]⟩
  | upload sheet fname _ ih =>
    rcases uploadExcel_tables _ sheet fname with ⟨hi, _⟩ | ⟨hi, _⟩
    · exact basicInv_of_items_eq hi ih
    · exact basicInv_of_items_eq hi (merge_basicInv _ sheet.rows fname ih)
  | retract f _ hdel ih => exact delete_basicInv ih hdel
  | drop activeRows _ ih => exact drop_basicInv _ activeRows ih

/-- **C3** (retraction symmetry at the Variant level): in any reachable
catalog, retracting snapshot `F` deletes every Variant whose provenance
set is exactly `{F}`, and every Variant whose provenance strictly contains
`F` remains present — same id — with `F` removed from its provenance and
every other field unchanged. -/
theorem claim_c3_retraction_variants (c c' : Catalog) (F : String)
    (hreach : Reachable c) (hdel : deleteFile c F = some c') :
    ∀ it ∈ c.items,
      ((∀ g, g ∈ it.source_files ↔ g = F) →
        ¬ ∃ it' ∈ c'.items, it'.id = it.id) ∧
      (F ∈ it.source_files → (∃ g ∈ it.source_files, g ≠ F) →
        ∃ it' ∈ c'.items, it'.id = it.id ∧
          (∀ g, g ∈ it'.source_files ↔ g ∈ it.source_files ∧ g ≠ F) ∧
          it'.style = it.style ∧ it'.color = it.color ∧
          it'.division = it.division ∧ it'.outsole = it.outsole ∧
          it'.gender = it.gender ∧ it'.image_url = it.image_url ∧
          it'.status = it.status ∧ it'.row_id = it.row_id) := by
  have hb := reachable_basicInv hreach
  obtain ⟨hitems, _, _⟩ := deleteFile_some hdel
  intro it hit
  constructor
  · intro hsole hex
    obtain ⟨it', hit', hid⟩ := hex
    rw [hitems] at hit'
    obtain ⟨it₀, h0, hid0, _, _, _, _, _, _, _, _, hpred, _⟩ :=
      retractItems_cases F c.items it' hit'
    have hideq : it₀.id = it.id := by rw [hid0, hid]
    have heq : it₀ = it := List.inj_on_of_nodup_map hb.idsNodup h0 hit hideq
    have hF : F ∈ it.source_files := (hsole F).mpr rfl
    have hsing : it.source_files = [F] :=
      all_eq_singleton (hb.itemSrcNodup it hit) (hb.itemSrcNe it hit)
        (fun g hg => (hsole g).mp hg)
    rw [heq] at hpred
    exact hpred ⟨hF, by rw [hsing]; rfl⟩
  · intro hF hex
    obtain ⟨g, hg, hgF⟩ := hex
    have hlen : ¬ (F ∈ it.source_files ∧ it.source_files.length = 1) := by
      rintro ⟨_, hlen1⟩
      obtain ⟨x, hx⟩ := List.length_eq_one.mp hlen1
      rw [hx] at hF hg
      have hxF : F = x := List.mem_singleton.mp hF
      have hgx : g = x := List.mem_singleton.mp hg
      exact hgF (by rw [hgx, ← hxF])
    have hmem := retractItems_mem F c.items it hit hlen
    rw [if_pos hF] at hmem
    refine ⟨{ it with source_files := it.source_files.filter (fun g => decide (g ≠ F)) }, by rw [hitems]; exact hmem, rfl, ?_, rfl, rfl, rfl, rfl, rfl, rfl, rfl, rfl⟩
    intro g2
    constructor
    · intro hmem2
      have h2 := List.mem_filter.mp hmem2
      exact ⟨h2.1, of_decide_eq_true h2.2⟩
    · rintro ⟨h1, h2⟩
      exact List.mem_filter.mpr ⟨h1, decide_eq_true h2⟩

theorem claim_c3_retraction_variants_witness :
    Reachable catC3 ∧ deleteFile catC3 "f2.xlsx" = some catC3del ∧
      ∀ it ∈ catC3.items,
        ((∀ g, g ∈ it.source_files ↔ g = "f2.xlsx") →
          ¬ ∃ it' ∈ catC3del.items, it'.id = it.id) ∧
        ("f2.xlsx" ∈ it.source_files → (∃ g ∈ it.source_files, g ≠ "f2.xlsx") →
          ∃ it' ∈ catC3del.items, it'.id = it.id ∧
            (∀ g, g ∈ it'.source_files ↔ g ∈ it.source_files ∧ g ≠ "f2.xlsx") ∧
            it'.style = it.style ∧ it'.color = it.color ∧
            it'.division = it.division ∧ it'.outsole = it.outsole ∧
            it'.gender = it.gender ∧ it'.image_url = it.image_url ∧
            it'.status = it.status ∧ it'.row_id = it.row_id) :=
  ⟨Reachable.upload sheetW "f2.xlsx" (Reachable.upload sheetW "f1.xlsx" Reachable.empty),
   by decide,
   claim_c3_retraction_variants catC3 catC3del "f2.xlsx"
     (Reachable.upload sheetW "f2.xlsx" (Reachable.upload sheetW "f1.xlsx" Reachable.empty))
     (by decide)⟩

theorem merge_item_of_mem (c : Catalog) (rows : List XRow) (fname : String) :
    ∀ it₀ ∈ c.items, ∃ it ∈ (mergeSnapshot c rows fname).items,
      it.id = it₀.id ∧ it.style = it₀.style ∧ it.color = it₀.color := by
  have hspec : ∀ o ∈ itemOpsOf fname rows, ItemOp fname o := itemOpsOf_spec fname rows
  have hupd : ∀ o ∈ itemOpsOf fname rows, ∀ a : Item, (o.upd a).id = a.id :=
    fun o ho a => (itemOp_upd_preserves fname (hspec o ho) a).1
  have hfresh : ∀ o ∈ itemOpsOf fname rows, o.fresh.id = o.key :=
    fun o ho => itemOp_fresh_key fname (hspec o ho)
  intro it₀ h0
  refine ⟨replayU it₀.id (itemOpsOf fname rows) it₀, ?_, ?_, ?_, ?_⟩
  · have h1 : (mergeSnapshot c rows fname).items
        = applyUs (·.id) (itemOpsOf fname rows) c.items := rfl
    rw [h1, applyUs_eq (·.id) (itemOpsOf fname rows) hupd hfresh c.items]
    exact List.mem_append_left _ (List.mem_map.mpr ⟨it₀, h0, rfl⟩)
  · exact replayU_proj (·.id) it₀.id (itemOpsOf fname rows) hupd it₀
  · exact replayU_proj (·.style) it₀.id (itemOpsOf fname rows)
      (fun o ho a => (itemOp_upd_preserves fname (hspec o ho) a).2.1) it₀
  · exact replayU_proj (·.color) it₀.id (itemOpsOf fname rows)
      (fun o ho a => (itemOp_upd_preserves fname (hspec o ho) a).2.2.1) it₀

theorem merge_sum_of_mem (c : Catalog) (rows : List XRow) (fname : String) :
    ∀ s₀ ∈ c.summaries, ∃ s ∈ (mergeSnapshot c rows fname).summaries,
      s.style = s₀.style := by
  have hspec : ∀ o ∈ summOpsOf fname rows, SummOp fname o := summOpsOf_spec fname rows
  have hupd : ∀ o ∈ summOpsOf fname rows, ∀ a : StyleSummary, (o.upd a).style = a.style :=
    fun o ho a => (summOp_upd_preserves fname (hspec o ho) a).1
  have hfresh : ∀ o ∈ summOpsOf fname rows, o.fresh.style = o.key :=
    fun o ho => summOp_fresh_key fname (hspec o ho)
  intro s₀ h0
  refine ⟨replayU s₀.style (summOpsOf fname rows) s₀, ?_, ?_⟩
  · have h1 : (mergeSnapshot c rows fname).summaries
        = applyUs (·.style) (summOpsOf fname rows) c.summaries := rfl
    rw [h1, applyUs_eq (·.style) (summOpsOf fname rows) hupd hfresh c.summaries]
    exact List.mem_append_left _ (List.mem_map.mpr ⟨s₀, h0, rfl⟩)
  · exact replayU_proj (·.style) s₀.style (summOpsOf fname rows) hupd s₀

theorem merge_sum_exists_of_key (c : Catalog) (rows : List XRow) (fname : String)
    (t : String) (hkey : t ∈ (summOpsOf fname rows).map (·.key)) :
    ∃ s ∈ (mergeSnapshot c rows fname).summaries, s.style = t := by
  have hspec : ∀ o ∈ summOpsOf fname rows, SummOp fname o := summOpsOf_spec fname rows
  have hupd : ∀ o ∈ summOpsOf fname rows, ∀ a : StyleSummary, (o.upd a).style = a.style :=
    fun o ho a => (summOp_upd_preserves fname (hspec o ho) a).1
  have hfresh : ∀ o ∈ summOpsOf fname rows, o.fresh.style = o.key :=
    fun o ho => summOp_fresh_key fname (hspec o ho)
  obtain ⟨o, ho, hk⟩ := List.mem_map.mp hkey
  have hkm := opKey_mem_applyUs (·.style) (summOpsOf fname rows) hupd hfresh c.summaries o ho
  have hkm' : o.key ∈ ((mergeSnapshot c rows fname).summaries).map (·.style) := hkm
  obtain ⟨s, hs, hks⟩ := List.mem_map.mp hkm'
  exact ⟨s, hs, by rw [hks, hk]⟩

theorem styleDataFor_colors_mem (rows : List XRow) (b : String) (col : String) :
    col ∈ (styleDataFor rows b).colors ↔ ∃ r ∈ groupRows rows b, rowColor r = col := by
  show col ∈ dedupFirst ((groupRows rows b).map rowColor) ↔ _
  rw [mem_dedupFirst, List.mem_map]

/-- The colors carried by the summary ops targeting style key `t` are
exactly the colors of the snapshot groups whose zero-padded key is `t`. -/
theorem opsHave_iff (fname : String) (rows : List XRow) (t : String) :
    ∀ col, opsHaveColor fname (opsFor t (summOpsOf fname rows)) col ↔
      ∃ b ∈ groupKeysSorted rows, zfill b 6 = t ∧
        ∃ r ∈ groupRows rows b, rowColor r = col := by
  intro col
  constructor
  · rintro ⟨o, ho, sd', hu', hcol⟩
    obtain ⟨hmem, hk⟩ := (mem_opsFor t (summOpsOf fname rows) o).mp ho
    obtain ⟨b, hb, hkey, hu, _⟩ := summOpsOf_spec_full fname rows o hmem
    have hequ : updSummary fname (styleDataFor rows b) = updSummary fname sd' := by
      rw [← hu, ← hu']
    have hcol' : col ∈ (styleDataFor rows b).colors :=
      (updSummary_colors_iff hequ col).mpr hcol
    exact ⟨b, hb, by rw [← hkey, hk], (styleDataFor_colors_mem rows b col).mp hcol'⟩
  · rintro ⟨b, hb, hzb, hr⟩
    refine ⟨⟨zfill b 6, updSummary fname (styleDataFor rows b),
      newSummary fname (zfill b 6) (styleDataFor rows b)⟩, ?_,
      styleDataFor rows b, rfl, (styleDataFor_colors_mem rows b col).mpr hr⟩
    refine (mem_opsFor t (summOpsOf fname rows) _).mpr ⟨?_, hzb⟩
    rw [summOpsOf]
    exact List.mem_map.mpr ⟨b, hb, rfl⟩

/-- Variant colors of a style after one all-numeric merge: the old colors
of the style plus the snapshot's colors for that zero-padded style key. -/
theorem merge_itemColors (c : Catalog) (rows : List XRow) (fname : String)
    (hd : ∀ r ∈ rows, DigitRow r)
    (hIdStruct : ∀ it ∈ c.items, it.id = it.style ++ "_" ++ it.color)
    (hItemDigit : ∀ it ∈ c.items, DigitStr it.style)
    (t col : String) :
    (∃ it ∈ (mergeSnapshot c rows fname).items, it.style = t ∧ it.color = col) ↔
      ((∃ it ∈ c.items, it.style = t ∧ it.color = col) ∨
       (∃ b ∈ groupKeysSorted rows, zfill b 6 = t ∧
          ∃ r ∈ groupRows rows b, rowColor r = col)) := by
  constructor
  · rintro ⟨it, hit, hsty, hcol⟩
    rcases merge_item_cases c rows fname it hit with
      ⟨it₀, h0, _, hsty0, hcol0, _, _, _⟩ | ⟨_, ⟨b, r, hb, hr, hsb, hcr⟩, _, _, _, _⟩
    · exact Or.inl ⟨it₀, h0, by rw [hsty0, hsty], by rw [hcol0, hcol]⟩
    · exact Or.inr ⟨b, hb, by rw [← hsb, hsty], r, hr, by rw [← hcr, hcol]⟩
  · rintro (⟨it₀, h0, hsty, hcol⟩ | ⟨b, hb, hzb, r, hr, hcr⟩)
    · obtain ⟨it, hit, _, hs, hc⟩ := merge_item_of_mem c rows fname it₀ h0
      exact ⟨it, hit, by rw [hs, hsty], by rw [hc, hcol]⟩
    · have hex : ∃ r' ∈ rows, extractBaseStyle r'.style = b ∧ rowColor r' = rowColor r := by
        have hf := List.mem_filter.mp hr
        exact ⟨r, hf.1, of_decide_eq_true hf.2, rfl⟩
      obtain ⟨o, ho, hk⟩ := itemOps_key_exists fname rows b (rowColor r) hex
      have hspec : ∀ o' ∈ itemOpsOf fname rows, ItemOp fname o' := itemOpsOf_spec fname rows
      have hupd : ∀ o' ∈ itemOpsOf fname rows, ∀ a : Item, (o'.upd a).id = a.id :=
        fun o' ho' a => (itemOp_upd_preserves fname (hspec o' ho') a).1
      have hfresh : ∀ o' ∈ itemOpsOf fname rows, o'.fresh.id = o'.key :=
        fun o' ho' => itemOp_fresh_key fname (hspec o' ho')
      have hkm := opKey_mem_applyUs (·.id) (itemOpsOf fname rows) hupd hfresh c.items o ho
      have hkm' : o.key ∈ ((mergeSnapshot c rows fname).items).map (·.id) := hkm
      obtain ⟨a, ha, hak⟩ := List.mem_map.mp hkm'
      have hdigz : DigitStr (zfill b 6) := zfill_digit (groupKeys_digit hd b hb)
      rcases merge_item_cases c rows fname a ha with
        ⟨a₀, ha0, haid, hasty, hacol, _, _, _⟩ | ⟨_, ⟨b', r', hb', _, hsb', _⟩, haid, _, _, _⟩
      · have hidstr : a.id = a.style ++ "_" ++ a.color := by
          rw [← haid, ← hasty, ← hacol]
          exact hIdStruct a₀ ha0
        have hdiga : DigitStr a.style := by
          rw [← hasty]
          exact hItemDigit a₀ ha0
        have hkk : a.style ++ "_" ++ a.color = zfill b 6 ++ "_" ++ rowColor r := by
          rw [← hidstr, hak, hk]
        obtain ⟨h1, h2⟩ := mkId_inj hdiga hdigz hkk
        exact ⟨a, ha, by rw [h1, hzb], by rw [h2, hcr]⟩
      · have hdiga : DigitStr a.style := by
          rw [hsb']
          exact zfill_digit (groupKeys_digit hd b' hb')
        have hkk : a.style ++ "_" ++ a.color = zfill b 6 ++ "_" ++ rowColor r := by
          rw [← haid, hak, hk]
        obtain ⟨h1, h2⟩ := mkId_inj hdiga hdigz hkk
        exact ⟨a, ha, by rw [h1, hzb], by rw [h2, hcr]⟩

theorem touched_style_has_op (fname : String) (rows : List XRow)
    (hd : ∀ r ∈ rows, DigitRow r) {st co : String} (hst : DigitStr st)
    (h : opsFor (st ++ "_" ++ co) (itemOpsOf fname rows) ≠ []) :
    st ∈ (summOpsOf fname rows).map (·.key) := by
  obtain ⟨b, r, hb, _, hkey⟩ := opsFor_item_key fname rows _ h
  have hdigz : DigitStr (zfill b 6) := zfill_digit (groupKeys_digit hd b hb)
  obtain ⟨h1, _⟩ := mkId_inj hst hdigz hkey
  rw [summOps_keys]
  exact List.mem_map.mpr ⟨b, hb, h1.symm⟩

/-- One all-numeric merge preserves the full reconciliation invariant. -/
theorem merge_fullInv (c : Catalog) (rows : List XRow) (fname : String)
    (hd : ∀ r ∈ rows, DigitRow r) (h : FullInv c) :
    FullInv (mergeSnapshot c rows fname) := by
  have hB : BasicInv (mergeSnapshot c rows fname) :=
    merge_basicInv c rows fname ⟨h.idsNodup, h.itemId, h.itemSrcNe, h.itemSrcNodup⟩
  refine ⟨hB.idsNodup, hB.itemId, hB.itemSrcNe, hB.itemSrcNodup,
    ?_, ?_, ?_, ?_, ?_, ?_, ?_, ?_, merge_sumStyles_nodup c rows fname h.sumStylesNodup⟩
  · intro it hit
    rcases merge_item_cases c rows fname it hit with
      ⟨it₀, h0, _, hsty0, _, _, _, _⟩ | ⟨_, ⟨b, r, hb, _, hsb, _⟩, _, _, _, _⟩
    · rw [← hsty0]
      exact h.itemDigit it₀ h0
    · rw [hsb]
      exact zfill_digit (groupKeys_digit hd b hb)
  · intro s hs
    rcases merge_summary_cases c rows fname s hs with
      ⟨s₀, h0, hsty0, _⟩ | ⟨_, hkey, _, _, _, _⟩
    · rw [← hsty0]
      exact h.sumDigit s₀ h0
    · rw [summOps_keys] at hkey
      obtain ⟨b, hb, hzb⟩ := List.mem_map.mp hkey
      rw [← hzb]
      exact zfill_digit (groupKeys_digit hd b hb)
  · intro s hs
    rcases merge_summary_cases c rows fname s hs with
      ⟨s₀, h0, _, hcase⟩ | ⟨_, _, _, hnd, _, _⟩
    · rcases hcase with ⟨_, heq⟩ | ⟨_, _, hnd, _, _⟩
      · rw [heq]
        exact h.sumColorsNodup s₀ h0
      · exact hnd
    · exact hnd
  · intro s hs
    rcases merge_summary_cases c rows fname s hs with
      ⟨s₀, h0, _, hcase⟩ | ⟨_, _, hsrc, _, _, _⟩
    · rcases hcase with ⟨_, heq⟩ | ⟨_, hsrc, _, _, _⟩
      · rw [heq]
        exact h.sumSrcNodup s₀ h0
      · rw [hsrc]
        exact nodup_sortedSet _
    · rw [hsrc]
      exact List.nodup_singleton fname
  · intro s hs
    rcases merge_summary_cases c rows fname s hs with
      ⟨s₀, h0, _, hcase⟩ | ⟨_, _, _, _, hcount, _⟩
    · rcases hcase with ⟨_, heq⟩ | ⟨_, _, _, hcount, _⟩
      · rw [heq]
        exact h.sumCount s₀ h0
      · exact hcount
    · exact hcount
  · intro s hs col
    rw [merge_itemColors c rows fname hd h.itemId h.itemDigit s.style col]
    rcases merge_summary_cases c rows fname s hs with
      ⟨s₀, h0, hsty0, hcase⟩ | ⟨hnotin, _, _, _, _, hcols⟩
    · rcases hcase with ⟨hops, heq⟩ | ⟨_, _, _, _, hcols⟩
      · have hleft : col ∈ s.all_colors ↔
            (∃ it ∈ c.items, it.style = s.style ∧ it.color = col) := by
          rw [heq]
          exact h.sumColors s₀ h0 col
        rw [hleft]
        constructor
        · exact Or.inl
        · rintro (hold | ⟨b, hb, hzb, hr⟩)
          · exact hold
          · exfalso
            have hopex : ∃ o ∈ summOpsOf fname rows, o.key = s₀.style := by
              refine ⟨⟨zfill b 6, updSummary fname (styleDataFor rows b),
                newSummary fname (zfill b 6) (styleDataFor rows b)⟩, ?_,
                by rw [hzb, hsty0]⟩
              rw [summOpsOf]
              exact List.mem_map.mpr ⟨b, hb, rfl⟩
            exact opsFor_ne_nil hopex hops
      · rw [hcols col, opsHave_iff fname rows s₀.style col,
          h.sumColors s₀ h0 col, hsty0]
    · rw [hcols col, opsHave_iff fname rows s.style col]
      constructor
      · exact Or.inr
      · rintro (⟨it₀, h0, hsty, _⟩ | hx)
        · exfalso
          obtain ⟨s₁, hs₁, hs₁sty⟩ := h.styleHasSum it₀ h0
          exact hnotin (List.mem_map.mpr ⟨s₁, hs₁, by rw [hs₁sty, hsty]⟩)
        · exact hx
  · intro it hit s hs hstyeq g hg
    rcases merge_item_cases c rows fname it hit with
      ⟨it₀, h0, hid0, hsty0, hcol0, _, _, hsrci⟩ |
      ⟨_, ⟨b, r, hb, _, hsb, _⟩, _, hsrci, _, _⟩
    · rcases merge_summary_cases c rows fname s hs with
        ⟨s₀, hs0, hssty, hscase⟩ | ⟨hnotin, _, _, _, _, _⟩
      · have hps : it₀.style = s₀.style := by rw [hsty0, hstyeq, hssty]
        rcases hsrci with ⟨hopsi, heqi⟩ | ⟨hopsi, hsrceq⟩
        · have hg0 : g ∈ it₀.source_files := by rw [← heqi]; exact hg
          have hgs0 : g ∈ s₀.source_files := h.prov it₀ h0 s₀ hs0 hps g hg0
          rcases hscase with ⟨_, heqs⟩ | ⟨_, hsrcs, _, _, _⟩
          · rw [heqs]
            exact hgs0
          · rw [hsrcs, mem_sortedSet]
            exact List.mem_cons_of_mem _ hgs0
        · have hkey : it₀.style ∈ (summOpsOf fname rows).map (·.key) :=
            @touched_style_has_op fname rows hd it₀.style it₀.color
              (h.itemDigit it₀ h0) (by rw [← h.itemId it₀ h0]; exact hopsi)
          rcases hscase with ⟨hopss, _⟩ | ⟨_, hsrcs, _, _, _⟩
          · exfalso
            obtain ⟨o, ho, hok⟩ := List.mem_map.mp hkey
            exact opsFor_ne_nil ⟨o, ho, by rw [hok, hps]⟩ hopss
          · rw [hsrcs, mem_sortedSet]
            rw [hsrceq, mem_sortedSet] at hg
            rcases List.mem_cons.mp hg with rfl | hg0
            · exact List.mem_cons_self _ _
            · exact List.mem_cons_of_mem _ (h.prov it₀ h0 s₀ hs0 hps g hg0)
      · exfalso
        obtain ⟨s₁, hs₁, hs₁sty⟩ := h.styleHasSum it₀ h0
        refine hnotin (List.mem_map.mpr ⟨s₁, hs₁, ?_⟩)
        rw [hs₁sty, hsty0, hstyeq]
    · have hkey : it.style ∈ (summOpsOf fname rows).map (·.key) := by
        rw [hsb, summOps_keys]
        exact List.mem_map.mpr ⟨b, hb, rfl⟩
      have hgf : g = fname := by
        rw [hsrci] at hg
        exact List.mem_singleton.mp hg
      rcases merge_summary_cases c rows fname s hs with
        ⟨s₀, hs0, hssty, hscase⟩ | ⟨_, _, hsrcs, _, _, _⟩
      · rcases hscase with ⟨hopss, _⟩ | ⟨_, hsrcs, _, _, _⟩
        · exfalso
          obtain ⟨o, ho, hok⟩ := List.mem_map.mp hkey
          refine opsFor_ne_nil ⟨o, ho, ?_⟩ hopss
          rw [hok, hstyeq, hssty]
        · rw [hsrcs, mem_sortedSet, hgf]
          exact List.mem_cons_self _ _
      · rw [hsrcs, hgf]
        exact List.mem_singleton.mpr rfl
  · intro it hit
    rcases merge_item_cases c rows fname it hit with
      ⟨it₀, h0, _, hsty0, _, _, _, _⟩ | ⟨_, ⟨b, r, hb, _, hsb, _⟩, _, _, _, _⟩
    · obtain ⟨s₁, hs₁, hs₁sty⟩ := h.styleHasSum it₀ h0
      obtain ⟨s, hs, hssty⟩ := merge_sum_of_mem c rows fname s₁ hs₁
      exact ⟨s, hs, by rw [hssty, hs₁sty, hsty0]⟩
    · obtain ⟨s, hs, hssty⟩ := merge_sum_exists_of_key c rows fname (zfill b 6)
        (by rw [summOps_keys]; exact List.mem_map.mpr ⟨b, hb, rfl⟩)
      exact ⟨s, hs, by rw [hssty, hsb]⟩

theorem retractSummaries_eq (f : String) (items' : List Item)
    (sums : List StyleSummary) :
    retractSummaries f items' sums = sums.filterMap (retractSumOne f items') := rfl

theorem retractSumOne_of_not_mem (f : String) (items' : List Item)
    (s : StyleSummary) (hf : f ∉ s.source_files) :
    retractSumOne f items' s = some s := by
  unfold retractSumOne
  rw [if_neg hf]

theorem retractSumOne_of_mem (f : String) (items' : List Item) (s : StyleSummary)
    (hf : f ∈ s.source_files) :
    retractSumOne f items' s =
      (if (items'.filter (fun it => decide (it.style = s.style))).length = 0 ∨
          s.source_files.length = 1 then none
       else some { s with source_files := s.source_files.filter (fun g => decide (g ≠ f)), all_colors := (items'.filter (fun it => decide (it.style = s.style))).map (·.color), color_count := ((items'.filter (fun it => decide (it.style = s.style))).map (·.color)).length }) := by
  unfold retractSumOne
  rw [if_pos hf]

theorem retractSumOne_style (f : String) (items' : List Item)
    {s s' : StyleSummary} (h : retractSumOne f items' s = some s') :
    s'.style = s.style := by
  by_cases hf : f ∈ s.source_files
  · rw [retractSumOne_of_mem f items' s hf] at h
    by_cases hcond : (items'.filter (fun it => decide (it.style = s.style))).length = 0 ∨
        s.source_files.length = 1
    · rw [if_pos hcond] at h
      exact absurd h (by simp)
    · rw [if_neg hcond] at h
      rw [← Option.some.inj h]
  · rw [retractSumOne_of_not_mem f items' s hf] at h
    rw [← Option.some.inj h]

/-- Case analysis of the StyleSummary table after a retraction. -/
theorem retractSummaries_cases (f : String) (items' : List Item)
    (sums : List StyleSummary) :
    ∀ s' ∈ retractSummaries f items' sums,
      ∃ s ∈ sums, s.style = s'.style ∧
        ((f ∉ s.source_files ∧ s' = s) ∨
         (f ∈ s.source_files ∧
          ¬ ((items'.filter (fun it => decide (it.style = s.style))).length = 0 ∨
             s.source_files.length = 1) ∧
          s'.source_files = s.source_files.filter (fun g => decide (g ≠ f)) ∧
          s'.all_colors =
            (items'.filter (fun it => decide (it.style = s.style))).map (·.color) ∧
          s'.color_count =
            ((items'.filter (fun it => decide (it.style = s.style))).map (·.color)).length)) := by
  intro s' hs'
  rw [retractSummaries_eq] at hs'
  obtain ⟨s, hmem, heq⟩ := List.mem_filterMap.mp hs'
  by_cases hf : f ∈ s.source_files
  · rw [retractSumOne_of_mem f items' s hf] at heq
    by_cases hcond : (items'.filter (fun it => decide (it.style = s.style))).length = 0 ∨
        s.source_files.length = 1
    · rw [if_pos hcond] at heq
      exact absurd heq (by simp)
    · rw [if_neg hcond] at heq
      have h2 := Option.some.inj heq
      refine ⟨s, hmem, by rw [← h2], Or.inr ⟨hf, hcond, ?_, ?_, ?_⟩⟩
      · rw [← h2]
      · rw [← h2]
      · rw [← h2]
  · rw [retractSumOne_of_not_mem f items' s hf] at heq
    have h2 := Option.some.inj heq
    exact ⟨s, hmem, by rw [← h2], Or.inl ⟨hf, h2.symm⟩⟩

theorem retractSummaries_styles_sublist (f : String) (items' : List Item) :
    ∀ sums : List StyleSummary,
      ((retractSummaries f items' sums).map (·.style)).Sublist (sums.map (·.style)) := by
  intro sums
  induction sums with
  | nil => simp [retractSummaries_eq]
  | cons s rest ih =>
    rw [retractSummaries_eq] at ih ⊢
    rw [List.filterMap_cons]
    cases hcase : retractSumOne f items' s with
    | none =>
      show (List.map (fun x => x.style)
          (List.filterMap (retractSumOne f items') rest)).Sublist
        (List.map (fun x => x.style) (s :: rest))
      simp only [List.map_cons]
      exact ih.cons _
    | some s2 =>
      show (List.map (fun x => x.style)
          (s2 :: List.filterMap (retractSumOne f items') rest)).Sublist
        (List.map (fun x => x.style) (s :: rest))
      simp only [List.map_cons]
      rw [retractSumOne_style f items' hcase]
      exact ih.cons₂ _

theorem mem_filter_style_colors (items : List Item) (t col : String) :
    col ∈ (items.filter (fun it => decide (it.style = t))).map (·.color) ↔
      ∃ it ∈ items, it.style = t ∧ it.color = col := by
  rw [List.mem_map]
  constructor
  · rintro ⟨a, ha, hc⟩
    obtain ⟨h1, h2⟩ := List.mem_filter.mp ha
    exact ⟨a, h1, of_decide_eq_true h2, hc⟩
  · rintro ⟨a, ha, h1, h2⟩
    exact ⟨a, List.mem_filter.mpr ⟨ha, decide_eq_true h1⟩, h2⟩

theorem filter_style_colors_nodup (items : List Item)
    (hnd : (items.map (·.id)).Nodup)
    (hidstr : ∀ it ∈ items, it.id = it.style ++ "_" ++ it.color) (t : String) :
    ((items.filter (fun it => decide (it.style = t))).map (·.color)).Nodup := by
  have hndl : items.Nodup := List.Nodup.of_map _ hnd
  have hndf : (items.filter (fun it => decide (it.style = t))).Nodup :=
    List.Nodup.filter _ hndl
  refine List.Nodup.map_on ?_ hndf
  intro x hx y hy hcxy
  obtain ⟨hx1, hx2⟩ := List.mem_filter.mp hx
  obtain ⟨hy1, hy2⟩ := List.mem_filter.mp hy
  have hidxy : x.id = y.id := by
    rw [hidstr x hx1, hidstr y hy1, of_decide_eq_true hx2, of_decide_eq_true hy2, hcxy]
  exact List.inj_on_of_nodup_map hnd hx1 hy1 hidxy

theorem retractSummaries_mem_alive (f : String) (items' : List Item)
    (sums : List StyleSummary) (s : StyleSummary) (hmem : s ∈ sums) :
    (f ∉ s.source_files → s ∈ retractSummaries f items' sums) ∧
    (f ∈ s.source_files →
      ¬ ((items'.filter (fun it => decide (it.style = s.style))).length = 0 ∨
         s.source_files.length = 1) →
      { s with source_files := s.source_files.filter (fun g => decide (g ≠ f)), all_colors := (items'.filter (fun it => decide (it.style = s.style))).map (·.color), color_count := ((items'.filter (fun it => decide (it.style = s.style))).map (·.color)).length } ∈ retractSummaries f items' sums) := by
  constructor
  · intro hf
    rw [retractSummaries_eq]
    exact List.mem_filterMap.mpr ⟨s, hmem, retractSumOne_of_not_mem f items' s hf⟩
  · intro hf hcond
    rw [retractSummaries_eq]
    refine List.mem_filterMap.mpr ⟨s, hmem, ?_⟩
    rw [retractSumOne_of_mem f items' s hf, if_neg hcond]

/-- A retraction preserves the full reconciliation invariant. -/
theorem delete_fullInv {c c' : Catalog} {f : String} (h : FullInv c)
    (hdel : deleteFile c f = some c') : FullInv c' := by
  obtain ⟨hit, hsum, _⟩ := deleteFile_some hdel
  have hB : BasicInv c' :=
    delete_basicInv ⟨h.idsNodup, h.itemId, h.itemSrcNe, h.itemSrcNodup⟩ hdel
  refine ⟨hB.idsNodup, hB.itemId, hB.itemSrcNe, hB.itemSrcNodup,
    ?_, ?_, ?_, ?_, ?_, ?_, ?_, ?_, ?_⟩
  · intro it hitm
    rw [hit] at hitm
    obtain ⟨it₀, h0, _, hsty0, _⟩ := retractItems_cases f c.items it hitm
    rw [← hsty0]
    exact h.itemDigit it₀ h0
  · intro s' hs'
    rw [hsum] at hs'
    obtain ⟨s, hmem, hsty, _⟩ :=
      retractSummaries_cases f (retractItems f c.items) c.summaries s' hs'
    rw [← hsty]
    exact h.sumDigit s hmem
  · intro s' hs'
    rw [hsum] at hs'
    obtain ⟨s, hmem, hsty, hcase⟩ :=
      retractSummaries_cases f (retractItems f c.items) c.summaries s' hs'
    rcases hcase with ⟨_, heq⟩ | ⟨_, _, _, hcols, _⟩
    · rw [heq]
      exact h.sumColorsNodup s hmem
    · rw [hcols]
      refine filter_style_colors_nodup (retractItems f c.items) ?_ ?_ s.style
      · rw [← hit]
        exact hB.idsNodup
      · intro it2 hit2
        rw [← hit] at hit2
        exact hB.itemId it2 hit2
  · intro s' hs'
    rw [hsum] at hs'
    obtain ⟨s, hmem, hsty, hcase⟩ :=
      retractSummaries_cases f (retractItems f c.items) c.summaries s' hs'
    rcases hcase with ⟨_, heq⟩ | ⟨_, _, hsrcs, _, _⟩
    · rw [heq]
      exact h.sumSrcNodup s hmem
    · rw [hsrcs]
      exact List.Nodup.filter _ (h.sumSrcNodup s hmem)
  · intro s' hs'
    rw [hsum] at hs'
    obtain ⟨s, hmem, hsty, hcase⟩ :=
      retractSummaries_cases f (retractItems f c.items) c.summaries s' hs'
    rcases hcase with ⟨_, heq⟩ | ⟨_, _, _, hcols, hcount⟩
    · rw [heq]
      exact h.sumCount s hmem
    · rw [hcount, hcols]
  · intro s' hs' col
    rw [hsum] at hs'
    obtain ⟨s, hmem, hsty, hcase⟩ :=
      retractSummaries_cases f (retractItems f c.items) c.summaries s' hs'
    rcases hcase with ⟨hf, heq⟩ | ⟨hf, hcond, _, hcols, _⟩
    · rw [heq, h.sumColors s hmem col, hit]
      constructor
      · rintro ⟨it₀, h0, hsty0, hcol0⟩
        have hfnot : f ∉ it₀.source_files := by
          intro hfin
          exact hf (h.prov it₀ h0 s hmem hsty0 f hfin)
        have hm2 := retractItems_mem f c.items it₀ h0 (fun hx => hfnot hx.1)
        rw [if_neg hfnot] at hm2
        exact ⟨it₀, hm2, hsty0, hcol0⟩
      · rintro ⟨it2, hit2, hsty2, hcol2⟩
        obtain ⟨it₀, h0, _, hsty0, hcol0, _⟩ := retractItems_cases f c.items it2 hit2
        exact ⟨it₀, h0, by rw [hsty0, hsty2], by rw [hcol0, hcol2]⟩
    · rw [hcols, hit, ← hsty]
      exact mem_filter_style_colors (retractItems f c.items) s.style col
  · intro it' hit' s' hs' hstyeq g hg
    rw [hit] at hit'
    rw [hsum] at hs'
    obtain ⟨it₀, h0, hid0, hsty0, _, _, _, _, _, _, _, hpred, hsrci⟩ :=
      retractItems_cases f c.items it' hit'
    obtain ⟨s, hmem, hsty, hcase⟩ :=
      retractSummaries_cases f (retractItems f c.items) c.summaries s' hs'
    have hps : it₀.style = s.style := by rw [hsty0, hstyeq, ← hsty]
    have hg0 : g ∈ it₀.source_files ∧ g ≠ f ∨
        g ∈ it₀.source_files ∧ f ∉ it₀.source_files := by
      rcases hsrci with ⟨hfn, heqi⟩ | ⟨hfi, hsrceq⟩
      · rw [heqi] at hg
        exact Or.inr ⟨hg, hfn⟩
      · rw [hsrceq] at hg
        obtain ⟨h1, h2⟩ := List.mem_filter.mp hg
        exact Or.inl ⟨h1, of_decide_eq_true h2⟩
    have hgmem : g ∈ it₀.source_files := by
      rcases hg0 with ⟨h1, _⟩ | ⟨h1, _⟩ <;> exact h1
    have hgne : g ≠ f := by
      rcases hg0 with ⟨_, h2⟩ | ⟨h1, h2⟩
      · exact h2
      · intro hgf
        exact h2 (hgf ▸ h1)
    rcases hcase with ⟨hfn, heqs⟩ | ⟨hfi, _, hsrcs, _, _⟩
    · rw [heqs]
      exact h.prov it₀ h0 s hmem hps g hgmem
    · rw [hsrcs]
      exact List.mem_filter.mpr ⟨h.prov it₀ h0 s hmem hps g hgmem, decide_eq_true hgne⟩
  · intro it' hit'
    rw [hit] at hit'
    obtain ⟨it₀, h0, _, hsty0, _, _, _, _, _, _, _, hpred, _⟩ :=
      retractItems_cases f c.items it' hit'
    obtain ⟨s, hmem, hssty⟩ := h.styleHasSum it₀ h0
    by_cases hf : f ∈ s.source_files
    · have hlen0 : ¬ ((retractItems f c.items).filter
          (fun it2 => decide (it2.style = s.style))).length = 0 := by
        intro hzero
        have hmem2 : it' ∈ (retractItems f c.items).filter
            (fun it2 => decide (it2.style = s.style)) := by
          refine List.mem_filter.mpr ⟨hit', decide_eq_true ?_⟩
          rw [← hsty0]
          exact hssty.symm
        rw [List.length_eq_zero] at hzero
        rw [hzero] at hmem2
        exact absurd hmem2 (List.not_mem_nil it')
      have hlen1 : ¬ s.source_files.length = 1 := by
        intro hone
        obtain ⟨x, hx⟩ := List.length_eq_one.mp hone
        have hxf : x = f := by
          rw [hx] at hf
          exact (List.mem_singleton.mp hf).symm
        have hsub : ∀ g ∈ it₀.source_files, g = f := by
          intro g hg
          have hgs := h.prov it₀ h0 s hmem hssty.symm g hg
          rw [hx] at hgs
          rw [← hxf]
          exact List.mem_singleton.mp hgs
        have hsing : it₀.source_files = [f] :=
          all_eq_singleton (h.itemSrcNodup it₀ h0) (h.itemSrcNe it₀ h0) hsub
        exact hpred ⟨by rw [hsing]; exact List.mem_singleton.mpr rfl, by rw [hsing]; rfl⟩
      have hcond : ¬ (((retractItems f c.items).filter
          (fun it2 => decide (it2.style = s.style))).length = 0 ∨
          s.source_files.length = 1) := by
        rintro (hx | hx)
        exacts [hlen0 hx, hlen1 hx]
      have halive := (retractSummaries_mem_alive f (retractItems f c.items)
        c.summaries s hmem).2 hf hcond
      refine ⟨_, by rw [hsum]; exact halive, ?_⟩
      show s.style = it'.style
      rw [hssty, hsty0]
    · have halive := (retractSummaries_mem_alive f (retractItems f c.items)
        c.summaries s hmem).1 hf
      refine ⟨s, by rw [hsum]; exact halive, ?_⟩
      rw [hssty, hsty0]
  · rw [hsum]
    exact List.Nodup.sublist (retractSummaries_styles_sublist f _ c.summaries)
      h.sumStylesNodup

theorem dropItem_status_mem (active : List String) (items : List Item) (it₀ : Item)
    (h0 : it₀ ∈ items) :
    dropItem active it₀ ∈ items.map (dropItem active) :=
  List.mem_map_of_mem _ h0

/-- A seasonal drop preserves the full reconciliation invariant (it only
rewrites Item statuses). -/
theorem drop_fullInv (c : Catalog) (activeRows : List XRow)
    (h : FullInv c) : FullInv (processSeasonalDrop c activeRows) := by
  have hB : BasicInv (processSeasonalDrop c activeRows) :=
    drop_basicInv c activeRows ⟨h.idsNodup, h.itemId, h.itemSrcNe, h.itemSrcNodup⟩
  have hsum : (processSeasonalDrop c activeRows).summaries = c.summaries := rfl
  refine ⟨hB.idsNodup, hB.itemId, hB.itemSrcNe, hB.itemSrcNodup,
    ?_, ?_, ?_, ?_, ?_, ?_, ?_, ?_, ?_⟩
  · intro it hitm
    obtain ⟨it₀, h0, heq⟩ := List.mem_map.mp hitm
    rw [← heq, (dropItem_preserves (activeStylesOf activeRows) it₀).2.1]
    exact h.itemDigit it₀ h0
  · intro s hs
    rw [hsum] at hs
    exact h.sumDigit s hs
  · intro s hs
    rw [hsum] at hs
    exact h.sumColorsNodup s hs
  · intro s hs
    rw [hsum] at hs
    exact h.sumSrcNodup s hs
  · intro s hs
    rw [hsum] at hs
    exact h.sumCount s hs
  · intro s hs col
    rw [hsum] at hs
    rw [h.sumColors s hs col]
    constructor
    · rintro ⟨it₀, h0, hsty, hcol⟩
      refine ⟨dropItem (activeStylesOf activeRows) it₀,
        dropItem_status_mem _ c.items it₀ h0, ?_, ?_⟩
      · rw [(dropItem_preserves (activeStylesOf activeRows) it₀).2.1, hsty]
      · rw [(dropItem_preserves (activeStylesOf activeRows) it₀).2.2.1, hcol]
    · rintro ⟨it2, hit2, hsty, hcol⟩
      obtain ⟨it₀, h0, heq⟩ := List.mem_map.mp hit2
      refine ⟨it₀, h0, ?_, ?_⟩
      · rw [← (dropItem_preserves (activeStylesOf activeRows) it₀).2.1, heq, hsty]
      · rw [← (dropItem_preserves (activeStylesOf activeRows) it₀).2.2.1, heq, hcol]
  · intro it hitm s hs hstyeq g hg
    rw [hsum] at hs
    obtain ⟨it₀, h0, heq⟩ := List.mem_map.mp hitm
    have hsty0 : it₀.style = it.style := by
      rw [← heq, (dropItem_preserves (activeStylesOf activeRows) it₀).2.1]
    have hsrc0 : it₀.source_files = it.source_files := by
      rw [← heq, (dropItem_preserves (activeStylesOf activeRows) it₀).2.2.2.1]
    refine h.prov it₀ h0 s hs (by rw [hsty0, hstyeq]) g ?_
    rw [hsrc0]
    exact hg
  · intro it hitm
    obtain ⟨it₀, h0, heq⟩ := List.mem_map.mp hitm
    obtain ⟨s, hs, hssty⟩ := h.styleHasSum it₀ h0
    refine ⟨s, hs, ?_⟩
    rw [hssty, ← heq, (dropItem_preserves (activeStylesOf activeRows) it₀).2.1]
  · rw [hsum]
    exact h.sumStylesNodup

theorem fullInv_of_tables_eq {c d : Catalog} (hi : d.items = c.items)
    (hs : d.summaries = c.summaries) (h : FullInv c) : FullInv d := by
  refine ⟨by rw [hi]; exact h.idsNodup, ?_, ?_, ?_, ?_, ?_, ?_, ?_, ?_, ?_, ?_, ?_,
    by rw [hs]; exact h.sumStylesNodup⟩
  · intro it hit
    exact h.itemId it (hi ▸ hit)
  · intro it hit
    exact h.itemSrcNe it (hi ▸ hit)
  · intro it hit
    exact h.itemSrcNodup it (hi ▸ hit)
  · intro it hit
    exact h.itemDigit it (hi ▸ hit)
  · intro s hsm
    exact h.sumDigit s (hs ▸ hsm)
  · intro s hsm
    exact h.sumColorsNodup s (hs ▸ hsm)
  · intro s hsm
    exact h.sumSrcNodup s (hs ▸ hsm)
  · intro s hsm
    exact h.sumCount s (hs ▸ hsm)
  · intro s hsm col
    rw [hi]
    exact h.sumColors s (hs ▸ hsm) col
  · intro it hit s hsm hstyeq g hg
    exact h.prov it (hi ▸ hit) s (hs ▸ hsm) hstyeq g hg
  · intro it hit
    obtain ⟨s, hsm, hssty⟩ := h.styleHasSum it (hi ▸ hit)
    exact ⟨s, hs ▸ hsm, hssty⟩

/-- Every catalog state reachable using only digit-styled snapshots
satisfies the full reconciliation invariant. -/
theorem reachableDigits_fullInv {c : Catalog} (h : ReachableDigits c) : FullInv c := by
  induction h with
  | empty =>
    exact ⟨by simp [emptyCatalog], by simp [emptyCatalog], by simp [emptyCatalog],
      by simp [emptyCatalog], by simp [emptyCatalog], by simp [emptyCatalog],
      by simp [emptyCatalog], by simp [emptyCatalog], by simp [emptyCatalog],
      by simp [emptyCatalog], by simp [emptyCatalog], by simp [emptyCatalog],
      by simp [emptyCatalog]⟩
  | upload sheet fname hrows _ ih =>
    rcases uploadExcel_tables _ sheet fname with ⟨hi, hs⟩ | ⟨hi, hs⟩
    · exact fullInv_of_tables_eq hi hs ih
    · exact fullInv_of_tables_eq hi hs (merge_fullInv _ sheet.rows fname hrows ih)
  | retract f _ hdel ih => exact delete_fullInv ih hdel
  | drop activeRows _ ih => exact drop_fullInv _ activeRows ih

theorem sheetW_digit : ∀ r ∈ sheetW.rows, DigitRow r := by
  intro r hr
  have heq : r = mkRow "10045" "BLK" := List.mem_singleton.mp hr
  rw [heq]
  exact ⟨'1', Option.mem_def.mpr rfl, by decide⟩

/-- **C2**, counterexample: the aggregate-consistency invariant fails on a
reachable catalog.  Uploading a snapshot whose non-numeric style token
`AAAAAA` pairs with color `Z_X`, then one with style token `AAAAAA_Z` and
color `X`, makes the two composite ids collide: the second snapshot's
Variant is swallowed by the first's, and the Style Summary `AAAAAA_Z`
reports `color_count = 1` while zero Variants of that style exist. -/
theorem claim_c2_aggregate_counterexample :
    Reachable catP ∧ ∃ s ∈ catP.summaries,
      s.color_count ≠ (distinctColors catP.items s.style).length :=
  ⟨Reachable.upload sheetP2 "f2.xlsx"
    (Reachable.upload sheetP1 "f1.xlsx" Reachable.empty), by decide⟩

/-- **C2** (amended): on catalogs reachable using only digit-styled
snapshots — where composite ids cannot collide — every Style Summary's
`color_count` equals the number of distinct colors among the currently
existing Variants of its style. -/
theorem claim_c2_aggregate_amended (c : Catalog) (h : ReachableDigits c) :
    ∀ s ∈ c.summaries, s.color_count = (distinctColors c.items s.style).length := by
  intro s hs
  have hf := reachableDigits_fullInv h
  rw [hf.sumCount s hs, distinctColors]
  refine length_eq_of_nodup_mem_iff (hf.sumColorsNodup s hs) (nodup_dedupFirst _) ?_
  intro col
  rw [mem_dedupFirst, hf.sumColors s hs col]
  exact (mem_filter_style_colors c.items s.style col).symm

theorem claim_c2_aggregate_amended_witness :
    ReachableDigits catC3 ∧
      ∀ s ∈ catC3.summaries,
        s.color_count = (distinctColors catC3.items s.style).length :=
  ⟨ReachableDigits.upload sheetW "f2.xlsx" sheetW_digit
      (ReachableDigits.upload sheetW "f1.xlsx" sheetW_digit ReachableDigits.empty),
   claim_c2_aggregate_amended catC3
    (ReachableDigits.upload sheetW "f2.xlsx" sheetW_digit
      (ReachableDigits.upload sheetW "f1.xlsx" sheetW_digit ReachableDigits.empty))⟩

/-- **C4**, counterexample: on a reachable catalog the summary-level
retraction is not symmetric as claimed.  In the colliding catalog `catP`,
retracting `f1.xlsx` deletes the Style Summary `AAAAAA` because that file
was its sole provenance entry, even though a Variant of style `AAAAAA`
(still carried by `f2.xlsx`) remains in the catalog. -/
theorem claim_c4_retraction_summary_counterexample :
    Reachable catP ∧ deleteFile catP "f1.xlsx" = some catPdel ∧
      ∃ s ∈ catP.summaries, "f1.xlsx" ∈ s.source_files ∧
        (∃ it ∈ catPdel.items, it.style = s.style) ∧
        ¬ ∃ s' ∈ catPdel.summaries, s'.style = s.style :=
  ⟨Reachable.upload sheetP2 "f2.xlsx"
    (Reachable.upload sheetP1 "f1.xlsx" Reachable.empty), by decide, by decide⟩

/-- **C4** (amended): on catalogs reachable using only digit-styled
snapshots, for every Style Summary whose provenance contains the retracted
snapshot: if Variants of its style remain after the Variant deletions the
Summary survives with the snapshot removed from its provenance and its
color list and `color_count` recomputed from the remaining Variants; if no
Variants of its style remain, no summary of that style survives. -/
theorem claim_c4_retraction_summary_amended (c c' : Catalog) (F : String)
    (h : ReachableDigits c) (hdel : deleteFile c F = some c') :
    ∀ s ∈ c.summaries, F ∈ s.source_files →
      ((∃ it ∈ c'.items, it.style = s.style) →
        ∃ s' ∈ c'.summaries, s'.style = s.style ∧
          (∀ g, g ∈ s'.source_files ↔ g ∈ s.source_files ∧ g ≠ F) ∧
          s'.all_colors =
            (c'.items.filter (fun it => decide (it.style = s.style))).map (·.color) ∧
          s'.color_count = (distinctColors c'.items s.style).length) ∧
      ((¬ ∃ it ∈ c'.items, it.style = s.style) →
        ¬ ∃ s' ∈ c'.summaries, s'.style = s.style) := by
  have hf := reachableDigits_fullInv h
  have hf' : FullInv c' := delete_fullInv hf hdel
  obtain ⟨hit, hsum, _⟩ := deleteFile_some hdel
  intro s hmem hF
  constructor
  · rintro ⟨it', hit', hsty'⟩
    have hit'r : it' ∈ retractItems F c.items := by rw [← hit]; exact hit'
    obtain ⟨it₀, h0, _, hsty0, _, _, _, _, _, _, _, hpred, _⟩ :=
      retractItems_cases F c.items it' hit'r
    have hlen0 : ¬ ((retractItems F c.items).filter
        (fun it2 => decide (it2.style = s.style))).length = 0 := by
      intro hzero
      have hmem2 : it' ∈ (retractItems F c.items).filter
          (fun it2 => decide (it2.style = s.style)) :=
        List.mem_filter.mpr ⟨hit'r, decide_eq_true hsty'⟩
      rw [List.length_eq_zero] at hzero
      rw [hzero] at hmem2
      exact absurd hmem2 (List.not_mem_nil it')
    have hlen1 : ¬ s.source_files.length = 1 := by
      intro hone
      obtain ⟨x, hx⟩ := List.length_eq_one.mp hone
      have hxF : x = F := by
        rw [hx] at hF
        exact (List.mem_singleton.mp hF).symm
      have hps : it₀.style = s.style := by rw [hsty0, hsty']
      have hsub : ∀ g ∈ it₀.source_files, g = F := by
        intro g hg
        have hgs := hf.prov it₀ h0 s hmem hps g hg
        rw [hx] at hgs
        rw [← hxF]
        exact List.mem_singleton.mp hgs
      have hsing : it₀.source_files = [F] :=
        all_eq_singleton (hf.itemSrcNodup it₀ h0) (hf.itemSrcNe it₀ h0) hsub
      exact hpred ⟨by rw [hsing]; exact List.mem_singleton.mpr rfl, by rw [hsing]; rfl⟩
    have hcond : ¬ (((retractItems F c.items).filter
        (fun it2 => decide (it2.style = s.style))).length = 0 ∨
        s.source_files.length = 1) := by
      rintro (hx | hx)
      exacts [hlen0 hx, hlen1 hx]
    have halive := (retractSummaries_mem_alive F (retractItems F c.items)
      c.summaries s hmem).2 hF hcond
    refine ⟨_, by rw [hsum]; exact halive, ?_, ?_, ?_, ?_⟩
    · show s.style = s.style
      rfl
    · intro g
      show g ∈ s.source_files.filter (fun g2 => decide (g2 ≠ F)) ↔ _
      constructor
      · intro hg
        obtain ⟨h1, h2⟩ := List.mem_filter.mp hg
        exact ⟨h1, of_decide_eq_true h2⟩
      · rintro ⟨h1, h2⟩
        exact List.mem_filter.mpr ⟨h1, decide_eq_true h2⟩
    · show ((retractItems F c.items).filter
          (fun it2 => decide (it2.style = s.style))).map (·.color) = _
      rw [hit]
    · show (((retractItems F c.items).filter
          (fun it2 => decide (it2.style = s.style))).map (·.color)).length = _
      rw [distinctColors, hit,
        dedupFirst_eq_self _ (filter_style_colors_nodup (retractItems F c.items)
          (by rw [← hit]; exact hf'.idsNodup)
          (by intro it2 hit2; rw [← hit] at hit2; exact hf'.itemId it2 hit2) s.style)]
  · rintro hno ⟨s', hs', hsty'⟩
    rw [hsum] at hs'
    obtain ⟨s₂, hmem₂, hsty₂, hcase₂⟩ :=
      retractSummaries_cases F (retractItems F c.items) c.summaries s' hs'
    have hseq : s₂ = s :=
      List.inj_on_of_nodup_map hf.sumStylesNodup hmem₂ hmem (by rw [hsty₂, hsty'])
    rw [hseq] at hcase₂
    rcases hcase₂ with ⟨hfn, _⟩ | ⟨_, hcond, _⟩
    · exact hfn hF
    · have hlen : (retractItems F c.items).filter
          (fun it2 => decide (it2.style = s.style)) ≠ [] := by
        intro hnil
        exact hcond (Or.inl (by rw [hnil]; rfl))
      obtain ⟨it2, hit2⟩ := List.exists_mem_of_ne_nil _ hlen
      obtain ⟨h1, h2⟩ := List.mem_filter.mp hit2
      exact hno ⟨it2, by rw [hit]; exact h1, of_decide_eq_true h2⟩

theorem claim_c4_retraction_summary_amended_witness :
    ReachableDigits catC3 ∧ deleteFile catC3 "f2.xlsx" = some catC3del ∧
    ∀ s ∈ catC3.summaries, "f2.xlsx" ∈ s.source_files →
      ((∃ it ∈ catC3del.items, it.style = s.style) →
        ∃ s' ∈ catC3del.summaries, s'.style = s.style ∧
          (∀ g, g ∈ s'.source_files ↔ g ∈ s.source_files ∧ g ≠ "f2.xlsx") ∧
          s'.all_colors =
            (catC3del.items.filter (fun it => decide (it.style = s.style))).map (·.color) ∧
          s'.color_count = (distinctColors catC3del.items s.style).length) ∧
      ((¬ ∃ it ∈ catC3del.items, it.style = s.style) →
        ¬ ∃ s' ∈ catC3del.summaries, s'.style = s.style) :=
  ⟨ReachableDigits.upload sheetW "f2.xlsx" sheetW_digit
      (ReachableDigits.upload sheetW "f1.xlsx" sheetW_digit ReachableDigits.empty),
   by decide,
   claim_c4_retraction_summary_amended catC3 catC3del "f2.xlsx"
    (ReachableDigits.upload sheetW "f2.xlsx" sheetW_digit
      (ReachableDigits.upload sheetW "f1.xlsx" sheetW_digit ReachableDigits.empty))
    (by decide)⟩
